import Mathlib

/-!
Verification model of rkt's layered configuration resolution:
the generic directory walker (pkg/config), the rkt stage0 configuration
domains (auth, dockerAuth, paths, stage1) with their dual-schema
orchestration (rkt/config), and the networking configuration merge
engines (networking/config), both the current-schema network-v1 parser
and the frozen legacy old-conf parser.

Go strings are modelled as lists of characters (`GoStr`); Go maps as
association lists in insertion order; Go pointers to `ActiveNet`
objects as addresses into an explicit heap; fallible operations return
`Except`.
-/

namespace RktCfg

/-- Model of a Go string (byte string) as a list of characters. -/
abbrev GoStr := List Char

/-- Convert a Lean string literal into the model representation. -/
def gs (s : String) : GoStr := s.data

deriving instance DecidableEq for Except

/-- Go's `<` on strings: bytewise lexicographic order. -/
def goLt : GoStr → GoStr → Bool
  | _, [] => false
  | [], _ :: _ => true
  | a :: as, b :: bs => if a < b then true else if b < a then false else goLt as bs

/-- Decimal digit character for a value below ten. -/
def digitChar (n : Nat) : Char := Char.ofNat (48 + n % 10)

/-- Fuel-driven accumulator loop producing the decimal digits of `n`
in front of `acc`; models `fmt.Sprintf` with the `%d` verb. -/
def natDecAux : Nat → Nat → GoStr → GoStr
  | 0, _, acc => acc
  | fuel + 1, n, acc =>
    if n < 10 then digitChar n :: acc
    else natDecAux fuel (n / 10) (digitChar (n % 10) :: acc)

/-- Decimal representation of a natural number, digits only. -/
def natDec (n : Nat) : GoStr := natDecAux (n + 1) n []

/-- Split a path on the separator; the result is never empty and
concatenating its groups with separators restores the path. -/
def splitSep : GoStr → List GoStr
  | [] => [[]]
  | '/' :: rest => [] :: splitSep rest
  | c :: rest =>
    match splitSep rest with
    | [] => [[c]]
    | g :: gss => (c :: g) :: gss

/-- Join path elements with the separator character. -/
def interSep : List GoStr → GoStr
  | [] => []
  | [e] => e
  | e :: es => e ++ '/' :: interSep es

/-- The element-stack loop of Go's `path/filepath.Clean`: empties and
dots are dropped, dot-dot pops a non-dot-dot top, everything else is
pushed.  The stack `out` keeps the most recent element first. -/
def cleanStack (rooted : Bool) : List GoStr → List GoStr → List GoStr
  | out, [] => out
  | out, e :: es =>
    if e = [] ∨ e = ['.'] then cleanStack rooted out es
    else if e = ['.', '.'] then
      match out with
      | o :: os =>
        if o = ['.', '.'] then cleanStack rooted (e :: o :: os) es
        else cleanStack rooted os es
      | [] =>
        if rooted then cleanStack rooted [] es else cleanStack rooted [e] es
    else cleanStack rooted (e :: out) es

/-- Model of Go's `filepath.Clean`. -/
def clean (p : GoStr) : GoStr :=
  if p = [] then ['.']
  else
    let rooted := p.head? = some '/'
    let body := interSep (cleanStack rooted [] (splitSep p)).reverse
    if rooted then '/' :: body
    else if body = [] then ['.'] else body

/-- Model of Go's `filepath.Join`: empty elements are skipped and the
result is cleaned; all-empty input gives the empty path. -/
def joinList (l : List GoStr) : GoStr :=
  let ne := l.filter (fun e => e ≠ [])
  if ne = [] then [] else clean (interSep ne)

/-- Two-argument `filepath.Join`. -/
def join2 (a b : GoStr) : GoStr := joinList [a, b]

/-- Three-argument `filepath.Join`. -/
def join3 (a b c : GoStr) : GoStr := joinList [a, b, c]

/-- Remove trailing separators. -/
def stripTrailingSep (p : GoStr) : GoStr := (p.reverse.dropWhile (fun c => c = '/')).reverse

/-- The suffix of `p` after its last separator. -/
def afterLastSep (p : GoStr) : GoStr := (p.reverse.takeWhile (fun c => c ≠ '/')).reverse

/-- Model of Go's `filepath.Base`. -/
def goBase (p : GoStr) : GoStr :=
  if p = [] then ['.']
  else
    let q := stripTrailingSep p
    if q = [] then ['/'] else afterLastSep q

/-- Model of Go's `filepath.Dir`: the cleaned prefix up to and
including the last separator. -/
def goDir (p : GoStr) : GoStr :=
  clean ((p.reverse.dropWhile (fun c => c ≠ '/')).reverse)

/-- Model of Go's `filepath.Ext`: the suffix of the last path element
starting at its final dot, or empty when it has no dot. -/
def goExt (p : GoStr) : GoStr :=
  let lc := p.reverse.takeWhile (fun c => c ≠ '/')
  let e := lc.takeWhile (fun c => c ≠ '.')
  if e.length = lc.length then [] else '.' :: e.reverse

/-- Model of Go's `strings.TrimSuffix`. -/
def trimSuffix (s suffix : GoStr) : GoStr :=
  if suffix.isSuffixOf s then s.take (s.length - suffix.length) else s

/-- Model of Go's `filepath.IsAbs` on unix: the path starts with a
separator. -/
def goIsAbs (p : GoStr) : Bool := p.head? = some '/'

/-- Fold a fallible step over a list, aborting on the first error;
models a Go loop whose body can `return err`. -/
def exceptFold (f : σ → α → Except ε σ) : σ → List α → Except ε σ
  | s, [] => .ok s
  | s, a :: as =>
    match f s a with
    | .ok s2 => exceptFold f s2 as
    | .error er => .error er

/-- Insert into an insertion-ordered association list, replacing an
existing binding in place; models assignment into a Go map. -/
def mapInsert {α : Type} (k : GoStr) (v : α) : List (GoStr × α) → List (GoStr × α)
  | [] => [(k, v)]
  | (k2, v2) :: rest => if k = k2 then (k, v) :: rest else (k2, v2) :: mapInsert k v rest

/-- Insert `x` into `l` in front of the first element it is less than;
together with `sortByLess` this models `sort.Sort` (which promises a
sorted permutation and nothing about the order of equal elements). -/
def sortInsert {α : Type} (lt : α → α → Bool) (x : α) : List α → List α
  | [] => [x]
  | y :: ys => if lt x y then x :: y :: ys else y :: sortInsert lt x ys

/-- Insertion sort by a strict-order comparator, modelling `sort.Sort`. -/
def sortByLess {α : Type} (lt : α → α → Bool) : List α → List α
  | [] => []
  | x :: xs => sortInsert lt x (sortByLess lt xs)

example : clean (gs "a//b/./c/..") = gs "a/b" := by decide
example : join2 (gs "r/net.d") (gs "10-foo-0.conf") = gs "r/net.d/10-foo-0.conf" := by decide
example : goBase (gs "r/net.d/10-foo.conf") = gs "10-foo.conf" := by decide
example : goDir (gs "r/net.d/10-foo.conf") = gs "r/net.d" := by decide
example : goDir (gs "10-foo.conf") = gs "." := by decide
example : goExt (gs "10-foo.conf") = gs ".conf" := by decide
example : goExt (gs "10-foo") = gs "" := by decide
example : trimSuffix (gs "10-foo.conf") (gs ".conf") = gs "10-foo" := by decide
example : natDec 0 = gs "0" := by decide
example : natDec 42 = gs "42" := by decide
example : goBase (gs "///") = gs "/" := by decide
example : joinList [gs ".", gs "x-0.conf"] = gs "x-0.conf" := by decide

/-! ## Networking configuration model (networking/config)

`ActiveNet` objects are shared by pointer between the `ByName` map and
the `Ordered` list and across per-root accumulators, and are mutated in
place by the merge; the model therefore stores them in an explicit heap
(a list of cells) and the maps hold addresses. -/

/-- The runtime identity of a network (networking/netinfo.NetInfo),
restricted to the fields the configuration core reads or writes. -/
structure NetInfo where
  netName : GoStr
  confPath : GoStr
deriving DecidableEq

/-- Decoded provider (CNI) configuration (networking/types.NetConf),
restricted to the fields the configuration core reads or writes. -/
structure NetConf where
  name : GoStr
  typ : GoStr
deriving DecidableEq

/-- networking/types.ActiveNet.  Raw file bytes are abstracted by their
decoded form, so `confBytes` holds the `NetConf` the bytes decode to. -/
structure ActiveNet where
  confBytes : Option NetConf
  conf : Option NetConf
  runtime : NetInfo
deriving DecidableEq

/-- Heap address of an `ActiveNet` object. -/
abbrev Addr := Nat

/-- Zero value used when reading an out-of-range heap address. -/
def anDefault : ActiveNet :=
  { confBytes := none, conf := none, runtime := { netName := [], confPath := [] } }

/-- Read the `ActiveNet` object at an address. -/
def heapRead (heap : List ActiveNet) (a : Addr) : ActiveNet := heap.getD a anDefault

/-- networking/config.Networks: the name map and the ordered list both
hold addresses of shared `ActiveNet` objects. -/
structure Networks where
  byName : List (GoStr × Addr)
  ordered : List Addr
deriving DecidableEq

/-- networking/config.Config. -/
structure NetConfig where
  networks : Networks
deriving DecidableEq

/-- networking/config.newConfig: empty map, nil ordered list. -/
def newNetConfig : NetConfig := { networks := { byName := [], ordered := [] } }

/-- pkg/config.PathIndex. -/
structure PathIndex where
  index : Nat
  path : GoStr
  subdirectory : GoStr
  filename : GoStr
deriving DecidableEq

/-- pkg/config.PathIndex.FilePath. -/
def PathIndex.filePath (pidx : PathIndex) : GoStr :=
  join3 pidx.path pidx.subdirectory pidx.filename

/-- The state of a networking parser: its lazily grown per-root
accumulators (`parserBase.configs`) plus the heap of `ActiveNet`
objects they reference. -/
structure NetParserState where
  heap : List ActiveNet
  configs : List NetConfig
deriving DecidableEq

/-- The empty parser state. -/
def initNetParserState : NetParserState := { heap := [], configs := [] }

/-- parserBase.getConfig's growth loop: append empty configs until the
index is in range. -/
def extendConfigs (cs : List NetConfig) (idx : Nat) : List NetConfig :=
  cs ++ List.replicate (idx + 1 - cs.length) newNetConfig

/-- parserBase.visited: at least one accumulator was created. -/
def netVisited (st : NetParserState) : Bool := st.configs.length > 0

/-- Errors of the networking configuration code, one constructor per
`fmt.Errorf` site, carrying the format arguments. -/
inductive NetErr where
  | loadError (path : GoStr)
  | missingPriority (path : GoStr)
  | invalidPriority (path : GoStr) (prio : Int)
  | missingName (path : GoStr)
  | conflictingNames (name cniName : GoStr) (path : GoStr)
  | alreadyDefined (name dirPath : GoStr)
  | failedToParse (path : GoStr) (inner : NetErr)
deriving DecidableEq

/-- Whether an error message names the given path. -/
def NetErr.namesPath : NetErr → GoStr → Bool
  | .loadError p, q => p = q
  | .missingPriority p, q => p = q
  | .invalidPriority p _, q => p = q
  | .missingName p, q => p = q
  | .conflictingNames _ _ p, q => p = q
  | .alreadyDefined _ p, q => p = q
  | .failedToParse p _, q => p = q

/-- Decoded `cniConf` section of a network-v1 file. -/
structure CNIConf where
  name : Option GoStr
  typ : GoStr
deriving DecidableEq

/-- Decoded network-v1 configuration file (networking/config.networkV1). -/
structure NetworkV1 where
  priority : Option Int
  name : GoStr
  cniConf : Option CNIConf
deriving DecidableEq

/-- networkV1JSONParser.validateNetworkV1; `none` means valid. -/
def validateNetworkV1 (network : NetworkV1) (path : GoStr) : Option NetErr :=
  match network.priority with
  | none => some (.missingPriority path)
  | some prio =>
    if prio < 0 ∨ prio > 99 then some (.invalidPriority path prio)
    else if network.name = [] then some (.missingName path)
    else
      match network.cniConf with
      | some c =>
        match c.name with
        | some cniName =>
          if cniName ≠ network.name then some (.conflictingNames network.name cniName path)
          else none
        | none => none
      | none => none

/-- networkV1JSONParser.getFixedConf: no provider section gives no
configuration and no bytes; otherwise the network's name is forced into
the provider configuration, which is marshalled back as the bytes. -/
def getFixedConf (network : NetworkV1) : Option NetConf × Option NetConf :=
  match network.cniConf with
  | none => (none, none)
  | some c =>
    let nc : NetConf := { name := network.name, typ := c.typ }
    (some nc, some nc)

/-- `fmt.Sprintf` with the `%02d` verb, for the validated 0..99 range. -/
def fmt02d (n : Int) : GoStr :=
  let s := natDec n.toNat
  if s.length < 2 then '0' :: s else s

/-- networkV1JSONParser.getActiveNet. -/
def getActiveNetV1 (network : NetworkV1) (path : GoStr) : ActiveNet :=
  let (conf, raw) := getFixedConf network
  let baseNoExt := trimSuffix (goBase path) (goExt path)
  let oldStylePath := fmt02d (network.priority.getD 0) ++ '-' :: (baseNoExt ++ gs ".conf")
  { confBytes := raw, conf := conf,
    runtime := { netName := network.name, confPath := oldStylePath } }

/-- networkV1JSONParser.Parse on an already-decoded file. -/
def networkV1Parse (st : NetParserState) (pidx : PathIndex) (network : NetworkV1) :
    Except NetErr NetParserState :=
  let fp := pidx.filePath
  match validateNetworkV1 network fp with
  | some e => .error e
  | none =>
    let configs := extendConfigs st.configs pidx.index
    let cfg := configs.getD pidx.index newNetConfig
    if (List.lookup network.name cfg.networks.byName).isSome then
      .error (.alreadyDefined network.name pidx.path)
    else
      let addr := st.heap.length
      let an := getActiveNetV1 network fp
      let nets2 : Networks :=
        { byName := mapInsert network.name addr cfg.networks.byName,
          ordered := cfg.networks.ordered ++ [addr] }
      .ok { heap := st.heap ++ [an],
            configs := configs.set pidx.index { networks := nets2 } }

/-- networkV1JSONParser.Parse as invoked through pkg/config's walker:
parseConfigFile wraps any parser error with the file's path
("failed to parse %q"). -/
def networkV1ParseWrapped (st : NetParserState) (pidx : PathIndex) (network : NetworkV1) :
    Except NetErr NetParserState :=
  match networkV1Parse st pidx network with
  | .ok st2 => .ok st2
  | .error e => .error (.failedToParse pidx.filePath e)

/-- One step of networkV1JSONParser.propagateConfig's merge loop: an
unseen name is inserted (sharing the accumulator's object); a seen name
with provider configuration overwrites the whole shared object; a seen
name without provider configuration overwrites only its runtime. -/
def netMergeStep (heap : List ActiveNet) (nets : Networks) (entry : GoStr × Addr) :
    List ActiveNet × Networks :=
  match List.lookup entry.1 nets.byName with
  | some addr =>
    let subAn := heapRead heap entry.2
    if subAn.conf.isSome then
      (heap.set addr subAn, nets)
    else
      (heap.set addr { heapRead heap addr with runtime := subAn.runtime }, nets)
  | none =>
    (heap, { byName := nets.byName ++ [(entry.1, entry.2)], ordered := nets.ordered ++ [entry.2] })

/-- The double loop of networkV1JSONParser.propagateConfig: fold every
per-root accumulator, in root order, into the target networks. -/
def netMergeAll (heap : List ActiveNet) (nets : Networks) (configs : List NetConfig) :
    List ActiveNet × Networks :=
  configs.foldl
    (fun acc sub => sub.networks.byName.foldl (fun acc2 e => netMergeStep acc2.1 acc2.2 e) acc)
    (heap, nets)

/-- The index-collection loop: positions of entries with no provider
configuration, accumulated by prepending, hence in descending order. -/
def nilIndices (heap : List ActiveNet) (ordered : List Addr) : List Nat :=
  ordered.enum.foldl
    (fun acc p => if (heapRead heap p.2).conf = none then p.1 :: acc else acc) []

/-- Swap-remove: the element at `i` is replaced by the last element and
the list is truncated by one. -/
def swapRemoveAt (l : List Addr) (i : Nat) : List Addr :=
  (l.set i (l.getD (l.length - 1) 0)).dropLast

/-- The removal loop of networkV1JSONParser.propagateConfig: for each
collected index, delete the entry's name from the map and swap-remove
it from the ordered list. -/
def removeLoop (heap : List ActiveNet) : Networks → List Nat → Networks
  | nets, [] => nets
  | nets, i :: rest =>
    let name := (heapRead heap (nets.ordered.getD i 0)).runtime.netName
    removeLoop heap
      { byName := nets.byName.filter (fun p => p.1 ≠ name),
        ordered := swapRemoveAt nets.ordered i } rest

/-- The comparator of activeNetsSortableByPath.Less: by base filename
of the conf path. -/
def ansLess (heap : List ActiveNet) (a b : Addr) : Bool :=
  goLt (goBase (heapRead heap a).runtime.confPath) (goBase (heapRead heap b).runtime.confPath)

/-- networkV1JSONParser.propagateConfig: merge all accumulators, drop
entries with no provider configuration, sort by base filename. -/
def networkV1Propagate (st : NetParserState) (cfg : NetConfig) :
    List ActiveNet × NetConfig :=
  let merged := netMergeAll st.heap cfg.networks st.configs
  let nets2 := removeLoop merged.1 merged.2 (nilIndices merged.1 merged.2.ordered)
  (merged.1, { networks := { nets2 with ordered := sortByLess (ansLess merged.1) nets2.ordered } })

/-! ### Legacy (old-conf) networking schema -/

/-- oldConfJSONParser.getActiveNet. -/
def getActiveNetOld (raw : Option NetConf) (n : NetConf) (path : GoStr) : ActiveNet :=
  { confBytes := raw, conf := some n, runtime := { netName := n.name, confPath := path } }

/-- oldConfJSONParser.Parse on an already-decoded file (`none` content
models bytes that fail to decode).  Within one root, a second file for
an already-known name is ignored when the existing entry's path sorts
lexicographically below the new file's path, and otherwise overwrites
the existing shared object. -/
def oldConfParse (st : NetParserState) (pidx : PathIndex) (content : Option NetConf) :
    Except NetErr NetParserState :=
  match content with
  | none => .error (.loadError pidx.filePath)
  | some n =>
    let fp := pidx.filePath
    let configs := extendConfigs st.configs pidx.index
    let cfg := configs.getD pidx.index newNetConfig
    match List.lookup n.name cfg.networks.byName with
    | some addr =>
      if goLt (heapRead st.heap addr).runtime.confPath fp then
        .ok { st with configs := configs }
      else
        .ok { heap := st.heap.set addr (getActiveNetOld (some n) n fp), configs := configs }
    | none =>
      let addr := st.heap.length
      .ok { heap := st.heap ++ [getActiveNetOld (some n) n fp],
            configs := configs.set pidx.index
              { networks := { byName := mapInsert n.name addr cfg.networks.byName,
                              ordered := cfg.networks.ordered ++ [addr] } } }

/-- One step of oldConfJSONParser.propagateConfig's merge loop: a seen
name is unconditionally overwritten through the shared object, an
unseen name is inserted. -/
def oldMergeStep (heap : List ActiveNet) (nets : Networks) (entry : GoStr × Addr) :
    List ActiveNet × Networks :=
  match List.lookup entry.1 nets.byName with
  | some addr => (heap.set addr (heapRead heap entry.2), nets)
  | none =>
    (heap, { byName := nets.byName ++ [(entry.1, entry.2)], ordered := nets.ordered ++ [entry.2] })

/-- fixupConfPaths on a single entry: append the entry's position in
the ordered list to its base name, before the extension. -/
def fixupOne (heap : List ActiveNet) (i : Nat) (addr : Addr) : List ActiveNet :=
  let an := heapRead heap addr
  let dir := goDir an.runtime.confPath
  let base := goBase an.runtime.confPath
  let ext := goExt base
  let newBase := trimSuffix base ext ++ '-' :: (natDec i ++ ext)
  heap.set addr { an with runtime := { an.runtime with confPath := join2 dir newBase } }

/-- networking/config.fixupConfPaths. -/
def fixupConfPaths (heap : List ActiveNet) (ans : List Addr) : List ActiveNet :=
  ans.enum.foldl (fun h p => fixupOne h p.1 p.2) heap

/-- oldConfJSONParser.propagateConfig: merge all accumulators in root
order, sort by base filename, then rewrite conf paths. -/
def oldConfPropagate (st : NetParserState) (cfg : NetConfig) :
    List ActiveNet × NetConfig :=
  let merged := st.configs.foldl
    (fun acc sub => sub.networks.byName.foldl (fun acc2 e => oldMergeStep acc2.1 acc2.2 e) acc)
    (st.heap, cfg.networks)
  let ordered2 := sortByLess (ansLess merged.1) merged.2.ordered
  (fixupConfPaths merged.1 ordered2, { networks := { merged.2 with ordered := ordered2 } })

/-! ### Legacy networking walk and top-level API -/

/-- Modelled from the spec: the networking configuration-directory
basename `common.CDB` is not among the sources; per the spec ("an empty
cdb basename is legal (yields configuration rooted directly at the
toplevel root)") and the tests (which create `<root>/net.d` directly)
it is the empty basename. -/
def netCDB : GoStr := []

/-- One file of a legacy net.d directory; `content` is the decoded form
of its bytes, `none` when they do not decode. -/
structure OldFile where
  filename : GoStr
  content : Option NetConf
deriving DecidableEq

/-- One toplevel root as the networking walker sees it: its path and
the files of its net.d subdirectory in walk (lexical) order, `none`
when the directory is absent. -/
structure NetRoot where
  path : GoStr
  netd : Option (List OldFile)
deriving DecidableEq

/-- pkg/config's per-file step for the legacy networking Directory:
skip files whose extension is not `.conf`, parse the rest, wrapping a
parser error with the file's path. -/
def oldWalkFile (st : NetParserState) (pidx0 : PathIndex) (f : OldFile) :
    Except NetErr NetParserState :=
  if goExt f.filename ≠ gs ".conf" then .ok st
  else
    let pidx := { pidx0 with filename := f.filename }
    match oldConfParse st pidx f.content with
    | .ok st2 => .ok st2
    | .error e => .error (.failedToParse pidx.filePath e)

/-- pkg/config's walk of one toplevel root for the legacy networking
Directory: an absent net.d is skipped. -/
def oldWalkRoot (st : NetParserState) (idx : Nat) (root : NetRoot) :
    Except NetErr NetParserState :=
  match root.netd with
  | none => .ok st
  | some files =>
    let pidx0 : PathIndex :=
      { index := idx, path := join2 root.path netCDB, subdirectory := gs "net.d", filename := [] }
    exceptFold (fun s f => oldWalkFile s pidx0 f) st files

/-- pkg/config.Directory.WalkDirectories for the legacy networking
setup: every root in order, carrying its index. -/
def oldWalkDirectories (roots : List NetRoot) : Except NetErr NetParserState :=
  exceptFold (fun st p => oldWalkRoot st p.1 p.2) initNetParserState roots.enum

/-- networking/config.configSetup.run: walk, then propagate into a
fresh Config.  The heap is returned with the Config so that its
addresses can be interpreted. -/
def netConfigSetupRun (roots : List NetRoot) : Except NetErr (List ActiveNet × NetConfig) :=
  match oldWalkDirectories roots with
  | .error e => .error e
  | .ok st => .ok (oldConfPropagate st newNetConfig)

/-- networking/config.GetConfigFrom (built from getConfigSetup, whose
setup is getOldSetup). -/
def netGetConfigFrom (roots : List NetRoot) : Except NetErr (List ActiveNet × NetConfig) :=
  netConfigSetupRun roots

/-- networking/config.GetPodConfig (built from getPodConfigSetup, whose
setup is also getOldSetup), run on the single pod root. -/
def netGetPodConfig (podRoot : NetRoot) : Except NetErr (List ActiveNet × NetConfig) :=
  netConfigSetupRun [podRoot]

/-! ## rkt stage0 configuration model (rkt/config, common, pkg/config)

The four domain parsers (auth, dockerAuth, paths, stage1) each own a
lazily grown list of per-root `Config` accumulators; the dual-schema
orchestrator walks the current-schema tree first and falls back to the
deprecated tree only when no current-schema accumulator was created. -/

/-- rkt/config.basicV1: credentials of the basic auth type. -/
structure BasicV1 where
  user : GoStr
  password : GoStr
deriving DecidableEq

/-- rkt/config.Headerer: the two credential-header producers behind the
interface (basicAuthHeaderer and oAuthBearerTokenHeaderer). -/
inductive Headerer where
  | basic (auth : BasicV1)
  | oauthBearer (token : GoStr)
deriving DecidableEq

/-- rkt/config.BasicCredentials. -/
structure BasicCredentials where
  user : GoStr
  password : GoStr
deriving DecidableEq

/-- rkt/config.ConfigurablePaths. -/
structure ConfigurablePaths where
  dataDir : GoStr
  stage1ImagesDir : GoStr
deriving DecidableEq

/-- rkt/config.Stage1Data. -/
structure Stage1Data where
  name : GoStr
  version : GoStr
  location : GoStr
deriving DecidableEq

/-- rkt/config.Config. -/
structure RktConfig where
  authPerHost : List (GoStr × Headerer)
  dockerCredentialsPerRegistry : List (GoStr × BasicCredentials)
  paths : ConfigurablePaths
  stage1 : Stage1Data
deriving DecidableEq

/-- rkt/config.newConfig: empty maps, zero-valued scalars. -/
def newRktConfig : RktConfig :=
  { authPerHost := [], dockerCredentialsPerRegistry := [],
    paths := { dataDir := [], stage1ImagesDir := [] },
    stage1 := { name := [], version := [], location := [] } }

/-- The fields the credential decoders can read out of the raw
`credentials` JSON object of an auth file. -/
structure CredRaw where
  user : GoStr
  password : GoStr
  token : GoStr
deriving DecidableEq

/-- Decoded rkt/config.authV1 file. -/
structure AuthV1 where
  domains : List GoStr
  typ : GoStr
  credentials : CredRaw
deriving DecidableEq

/-- Decoded rkt/config.dockerAuthV1 file. -/
structure DockerAuthV1 where
  registries : List GoStr
  credentials : BasicV1
deriving DecidableEq

/-- Decoded rkt/config.pathsV1 file. -/
structure PathsV1 where
  data : GoStr
deriving DecidableEq

/-- Decoded rkt/config.stage1V1 file. -/
structure Stage1V1 where
  name : GoStr
  version : GoStr
  location : GoStr
deriving DecidableEq

/-- The decodable content of a stage0 configuration file. -/
inductive RktPayload where
  | auth (a : AuthV1)
  | dockerAuth (d : DockerAuthV1)
  | paths (p : PathsV1)
  | stage1 (s : Stage1V1)
deriving DecidableEq

/-- `json.Unmarshal` into authV1: fields absent from the payload come
out as zero values. -/
def decodeAuth : RktPayload → AuthV1
  | .auth a => a
  | _ => { domains := [], typ := [], credentials := { user := [], password := [], token := [] } }

/-- `json.Unmarshal` into dockerAuthV1. -/
def decodeDockerAuth : RktPayload → DockerAuthV1
  | .dockerAuth d => d
  | _ => { registries := [], credentials := { user := [], password := [] } }

/-- `json.Unmarshal` into pathsV1. -/
def decodePaths : RktPayload → PathsV1
  | .paths p => p
  | _ => { data := [] }

/-- `json.Unmarshal` into stage1V1. -/
def decodeStage1 : RktPayload → Stage1V1
  | .stage1 s => s
  | _ => { name := [], version := [], location := [] }

/-- Errors of the stage0 configuration code, one constructor per error
site, carrying the format arguments. -/
inductive RktErr where
  | decodeError (path : GoStr)
  | badKind (dir : GoStr) (kinds : List GoStr) (base kind : GoStr)
  | noParserForKind (kind : GoStr)
  | noParserForKindVersion (kind version : GoStr)
  | failedToParse (path : GoStr) (inner : RktErr)
  | noDomains
  | noAuthType
  | unknownAuthType (typ : GoStr)
  | userNotSpecified
  | passwordNotSpecified
  | noOauthToken
  | authAlreadySpecified (domain : GoStr)
  | noRegistries
  | dockerAlreadySpecified (registry : GoStr)
  | dataDirAlreadySpecified
  | dataDirNotAbsolute
  | invalidStage1 (inner : RktErr)
  | stage1VersionWithoutName
  | stage1NameWithoutVersion
  | stage1LocationNoScheme
  | stage1LocationBadScheme (scheme : GoStr)
  | stage1NameVersionAlreadySpecified
  | stage1LocationAlreadySpecified
deriving DecidableEq

/-- rkt/config.validateBasicV1; `none` means valid (the nil-pointer
case cannot arise for a decoded value). -/
def validateBasicV1 (b : BasicV1) : Option RktErr :=
  if b.user = [] then some .userNotSpecified
  else if b.password = [] then some .passwordNotSpecified
  else none

/-- authV1JsonParser.getBasicV1Headerer on the raw credentials. -/
def getBasicV1Headerer (raw : CredRaw) : Except RktErr Headerer :=
  let basic : BasicV1 := { user := raw.user, password := raw.password }
  match validateBasicV1 basic with
  | some e => .error e
  | none => .ok (.basic basic)

/-- authV1JsonParser.getOAuthV1Headerer on the raw credentials. -/
def getOAuthV1Headerer (raw : CredRaw) : Except RktErr Headerer :=
  if raw.token = [] then .error .noOauthToken else .ok (.oauthBearer raw.token)

/-- parserBase.getConfig's growth loop for the stage0 parsers. -/
def extendRkt (cs : List RktConfig) (idx : Nat) : List RktConfig :=
  cs ++ List.replicate (idx + 1 - cs.length) newRktConfig

/-- The domain-insertion loop of authV1JsonParser.Parse: a domain that
is already present in this accumulator is an immediate error. -/
def authInsertDomains (hdr : Headerer) (cfg : RktConfig) : List GoStr → Except RktErr RktConfig
  | [] => .ok cfg
  | d :: ds =>
    if (List.lookup d cfg.authPerHost).isSome then .error (.authAlreadySpecified d)
    else authInsertDomains hdr { cfg with authPerHost := mapInsert d hdr cfg.authPerHost } ds

/-- authV1JsonParser.Parse on an already-decoded file. -/
def authV1Parse (cs : List RktConfig) (pidx : PathIndex) (payload : RktPayload) :
    Except RktErr (List RktConfig) :=
  let a := decodeAuth payload
  if a.domains = [] then .error .noDomains
  else if a.typ = [] then .error .noAuthType
  else
    let hdr2 : Except RktErr Headerer :=
      if a.typ = gs "basic" then getBasicV1Headerer a.credentials
      else if a.typ = gs "oauth" then getOAuthV1Headerer a.credentials
      else .error (.unknownAuthType a.typ)
    match hdr2 with
    | .error e => .error e
    | .ok hdr =>
      let cs2 := extendRkt cs pidx.index
      let cfg := cs2.getD pidx.index newRktConfig
      match authInsertDomains hdr cfg a.domains with
      | .error e => .error e
      | .ok cfg2 => .ok (cs2.set pidx.index cfg2)

/-- authV1JsonParser.propagateConfig: every accumulator's map is poured
into the target in root order, later roots replacing earlier bindings. -/
def authPropagate (cs : List RktConfig) (cfg : RktConfig) : RktConfig :=
  cs.foldl
    (fun c sub => sub.authPerHost.foldl
      (fun c2 p => { c2 with authPerHost := mapInsert p.1 p.2 c2.authPerHost }) c)
    cfg

/-- The registry-insertion loop of dockerAuthV1JsonParser.Parse. -/
def dockerInsertRegistries (creds : BasicCredentials) (cfg : RktConfig) :
    List GoStr → Except RktErr RktConfig
  | [] => .ok cfg
  | r :: rs =>
    if (List.lookup r cfg.dockerCredentialsPerRegistry).isSome then
      .error (.dockerAlreadySpecified r)
    else
      dockerInsertRegistries creds
        { cfg with dockerCredentialsPerRegistry := mapInsert r creds cfg.dockerCredentialsPerRegistry } rs

/-- dockerAuthV1JsonParser.Parse on an already-decoded file. -/
def dockerAuthV1Parse (cs : List RktConfig) (pidx : PathIndex) (payload : RktPayload) :
    Except RktErr (List RktConfig) :=
  let a := decodeDockerAuth payload
  if a.registries = [] then .error .noRegistries
  else
    match validateBasicV1 a.credentials with
    | some e => .error e
    | none =>
      let basic : BasicCredentials := { user := a.credentials.user, password := a.credentials.password }
      let cs2 := extendRkt cs pidx.index
      let cfg := cs2.getD pidx.index newRktConfig
      match dockerInsertRegistries basic cfg a.registries with
      | .error e => .error e
      | .ok cfg2 => .ok (cs2.set pidx.index cfg2)

/-- dockerAuthV1JsonParser.propagateConfig. -/
def dockerAuthPropagate (cs : List RktConfig) (cfg : RktConfig) : RktConfig :=
  cs.foldl
    (fun c sub => sub.dockerCredentialsPerRegistry.foldl
      (fun c2 p => { c2 with dockerCredentialsPerRegistry := mapInsert p.1 p.2 c2.dockerCredentialsPerRegistry }) c)
    cfg

/-- pathsV1JsonParser.Parse on an already-decoded file; the accumulator
is created before the empty-data check, as in the source. -/
def pathsV1Parse (cs : List RktConfig) (pidx : PathIndex) (payload : RktPayload) :
    Except RktErr (List RktConfig) :=
  let pa := decodePaths payload
  let cs2 := extendRkt cs pidx.index
  let cfg := cs2.getD pidx.index newRktConfig
  if pa.data = [] then .ok cs2
  else if cfg.paths.dataDir ≠ [] then .error .dataDirAlreadySpecified
  else if goIsAbs pa.data = false then .error .dataDirNotAbsolute
  else .ok (cs2.set pidx.index { cfg with paths := { cfg.paths with dataDir := pa.data } })

/-- pathsV1JsonParser.propagateConfig. -/
def pathsPropagate (cs : List RktConfig) (cfg : RktConfig) : RktConfig :=
  cs.foldl
    (fun c sub =>
      if sub.paths.dataDir ≠ [] then { c with paths := { c.paths with dataDir := sub.paths.dataDir } }
      else c)
    cfg

/-- The character set of a URL scheme after its first character. -/
def isSchemeChar (c : Char) : Bool := c.isAlphanum || c = '+' || c = '-' || c = '.'

/-- Scheme extraction loop modelling net/url.Parse: a leading letter
followed by scheme characters up to a colon; empty when there is none
(url.Parse's rare error cases are collapsed into "no scheme", which
makes validation fail either way). -/
def schemeSplit (acc : GoStr) : GoStr → GoStr
  | [] => []
  | c :: rest =>
    if c = ':' then acc.reverse
    else if (acc ≠ [] && isSchemeChar c) || (acc = [] && c.isAlpha) then schemeSplit (c :: acc) rest
    else []

/-- The scheme of a URL, empty when there is none. -/
def urlScheme (s : GoStr) : GoStr := schemeSplit [] s

/-- rkt/config.allowedSchemes (in sorted order). -/
def allowedSchemes : List GoStr := [gs "docker", gs "file", gs "http", gs "https"]

/-- stage1V1JsonParser.validateStage1V1; `none` means valid. -/
def validateStage1V1 (s : Stage1V1) : Option RktErr :=
  if s.name = [] ∧ s.version ≠ [] then some .stage1VersionWithoutName
  else if s.name ≠ [] ∧ s.version = [] then some .stage1NameWithoutVersion
  else if s.location ≠ [] ∧ goIsAbs s.location = false then
    let scheme := urlScheme s.location
    if scheme = [] then some .stage1LocationNoScheme
    else if allowedSchemes.contains scheme = false then some (.stage1LocationBadScheme scheme)
    else none
  else none

/-- stage1V1JsonParser.Parse on an already-decoded file: after
validation either both name and version are present or neither; name
and version are stored as a pair, location independently, each erroring
when already set in this accumulator. -/
def stage1V1Parse (cs : List RktConfig) (pidx : PathIndex) (payload : RktPayload) :
    Except RktErr (List RktConfig) :=
  let s := decodeStage1 payload
  match validateStage1V1 s with
  | some e => .error (.invalidStage1 e)
  | none =>
    let cs2 := extendRkt cs pidx.index
    let cfg := cs2.getD pidx.index newRktConfig
    if s.name ≠ [] ∧ cfg.stage1.name ≠ [] then .error .stage1NameVersionAlreadySpecified
    else
      let cfg2 :=
        if s.name ≠ [] then
          { cfg with stage1 := { cfg.stage1 with name := s.name, version := s.version } }
        else cfg
      if s.location ≠ [] ∧ cfg2.stage1.location ≠ [] then .error .stage1LocationAlreadySpecified
      else
        let cfg3 :=
          if s.location ≠ [] then { cfg2 with stage1 := { cfg2.stage1 with location := s.location } }
          else cfg2
        .ok (cs2.set pidx.index cfg3)

/-- stage1V1JsonParser.propagateConfig: name and version are copied as
a pair when the accumulator's name is set; location independently. -/
def stage1Propagate (cs : List RktConfig) (cfg : RktConfig) : RktConfig :=
  cs.foldl
    (fun c sub =>
      let c2 :=
        if sub.stage1.name ≠ [] then
          { c with stage1 := { c.stage1 with name := sub.stage1.name, version := sub.stage1.version } }
        else c
      if sub.stage1.location ≠ [] then
        { c2 with stage1 := { c2.stage1 with location := sub.stage1.location } }
      else c2)
    cfg

/-! ### Stage0 walker and dual-schema orchestrator -/

/-- One stage0 configuration file: its name, the `(kind, version)`
envelope the schema type extracts (`none` models envelope-extraction
failure), and its decodable content. -/
structure RktFile where
  filename : GoStr
  envelope : Option (GoStr × GoStr)
  payload : RktPayload
deriving DecidableEq

/-- The configuration tree under one root's cdb: the present registered
subdirectories with their files in walk (lexical) order. -/
abbrev RktTree := List (GoStr × List RktFile)

/-- One toplevel root as the stage0 walker sees it: its path, the tree
under `<root>/stage0-cfg` (current schema) and the tree under `<root>`
itself (deprecated schema, empty cdb); `none` when absent. -/
structure RktRoot where
  path : GoStr
  newTree : Option RktTree
  oldTree : Option RktTree
deriving DecidableEq

/-- The accumulator lists of the four stage0 domain parsers. -/
structure RktStates where
  auth : List RktConfig
  dockerAuth : List RktConfig
  paths : List RktConfig
  stage1 : List RktConfig
deriving DecidableEq

/-- All-empty parser states. -/
def initRktStates : RktStates := { auth := [], dockerAuth := [], paths := [], stage1 := [] }

/-- Identifies one of the four registered parsers. -/
inductive ParserId where
  | auth
  | dockerAuth
  | paths
  | stage1
deriving DecidableEq

/-- pkg/config.Directory as built for the stage0 domains: cdb basename,
registered subdirectories with their allowed kinds, and the parser
table keyed by `(kind, version)`. -/
structure RktDirectory where
  directory : GoStr
  subdirs : List (GoStr × List GoStr)
  parsers : List ((GoStr × GoStr) × ParserId)

/-- getCommonSetup's parser registrations. -/
def commonParsers : List ((GoStr × GoStr) × ParserId) :=
  [ ((gs "auth", gs "v1"), .auth),
    ((gs "dockerAuth", gs "v1"), .dockerAuth),
    ((gs "paths", gs "v1"), .paths),
    ((gs "stage1", gs "v1"), .stage1) ]

/-- getCommonSetup's subdirectory registrations (allowed kinds kept
sorted, as RegisterSubdirectory does). -/
def commonSubdirs : List (GoStr × List GoStr) :=
  [ (gs "auth.d", [gs "auth", gs "dockerAuth"]),
    (gs "paths.d", [gs "paths"]),
    (gs "stage1.d", [gs "stage1"]) ]

/-- getOldSetup's Directory: the deprecated empty cdb. -/
def oldRktDirectory : RktDirectory :=
  { directory := [], subdirs := commonSubdirs, parsers := commonParsers }

/-- getNewSetup's Directory: the stage0-cfg cdb (no additional parsers
or subdirs are registered in this version). -/
def newRktDirectory : RktDirectory :=
  { directory := gs "stage0-cfg", subdirs := commonSubdirs, parsers := commonParsers }

/-- Dispatch a file to the parser its table entry names. -/
def runRktParser (pid : ParserId) (sts : RktStates) (pidx : PathIndex) (payload : RktPayload) :
    Except RktErr RktStates :=
  match pid with
  | .auth => (authV1Parse sts.auth pidx payload).map (fun cs => { sts with auth := cs })
  | .dockerAuth => (dockerAuthV1Parse sts.dockerAuth pidx payload).map (fun cs => { sts with dockerAuth := cs })
  | .paths => (pathsV1Parse sts.paths pidx payload).map (fun cs => { sts with paths := cs })
  | .stage1 => (stage1V1Parse sts.stage1 pidx payload).map (fun cs => { sts with stage1 := cs })

/-- pkg/config's per-file step: skip files without the `.json`
extension; fail on envelope-extraction failure, on a kind not allowed
in this subdirectory, and on an unregistered kind or version; otherwise
parse, wrapping a parser error with the file's path. -/
def rktWalkFile (d : RktDirectory) (kinds : List GoStr) (sts : RktStates)
    (pidx0 : PathIndex) (f : RktFile) : Except RktErr RktStates :=
  if goExt f.filename ≠ gs ".json" then .ok sts
  else
    let path := join3 pidx0.path pidx0.subdirectory f.filename
    match f.envelope with
    | none => .error (.decodeError path)
    | some kv =>
      if kinds.contains kv.1 = false then .error (.badKind (goDir path) kinds (goBase path) kv.1)
      else if (d.parsers.any (fun p => p.1.1 = kv.1)) = false then .error (.noParserForKind kv.1)
      else
        match List.lookup kv d.parsers with
        | none => .error (.noParserForKindVersion kv.1 kv.2)
        | some pid =>
          match runRktParser pid sts { pidx0 with filename := f.filename } f.payload with
          | .ok sts2 => .ok sts2
          | .error e => .error (.failedToParse path e)

/-- pkg/config's walk of one root's configuration tree: every
registered subdirectory that is present, in registration order. -/
def rktWalkRoot (d : RktDirectory) (sts : RktStates) (idx : Nat) (rootPath : GoStr)
    (tree : Option RktTree) : Except RktErr RktStates :=
  match tree with
  | none => .ok sts
  | some t =>
    let cfgDir := join2 rootPath d.directory
    exceptFold
      (fun s sd =>
        match List.lookup sd.1 t with
        | none => .ok s
        | some files =>
          let pidx0 : PathIndex := { index := idx, path := cfgDir, subdirectory := sd.1, filename := [] }
          exceptFold (fun s2 f => rktWalkFile d sd.2 s2 pidx0 f) s files)
      sts d.subdirs

/-- The walk of a stage0 Directory over the part of the filesystem it
can see: per-root pairs of the root path and that Directory's tree. -/
def rktWalkTreeP (d : RktDirectory) (pairs : List (GoStr × Option RktTree)) :
    Except RktErr RktStates :=
  exceptFold (fun sts p => rktWalkRoot d sts p.1 p.2.1 p.2.2) initRktStates pairs.enum

/-- pkg/config.Directory.WalkDirectories for a stage0 Directory over
all roots in order, `select` picking that Directory's tree of a root. -/
def rktWalkTree (d : RktDirectory) (select : RktRoot → Option RktTree) (roots : List RktRoot) :
    Except RktErr RktStates :=
  rktWalkTreeP d (roots.map (fun r => (r.path, select r)))

/-- parserBase.visited for a stage0 parser. -/
def rktVisited (cs : List RktConfig) : Bool := cs.length > 0

/-- The loop over newPropagators in configSetup.walkDirectories: did
any current-schema parser create an accumulator? -/
def anyNewVisited (sts : RktStates) : Bool :=
  rktVisited sts.auth || rktVisited sts.dockerAuth || rktVisited sts.paths || rktVisited sts.stage1

/-- The setup after configSetup.walkDirectories: both walk results and
which propagator set was selected. -/
structure RktSetupResult where
  newStates : RktStates
  oldStates : RktStates
  useNew : Bool
deriving DecidableEq

/-- rkt/config.configSetup.walkDirectories: walk the current-schema
tree over all roots; if any of its parsers was visited, select the
current-schema propagators and do not walk the deprecated tree;
otherwise select the deprecated propagators and walk its tree. -/
def rktWalkDirectories (roots : List RktRoot) : Except RktErr RktSetupResult :=
  match rktWalkTree newRktDirectory (fun r => r.newTree) roots with
  | .error e => .error e
  | .ok newSts =>
    if anyNewVisited newSts then
      .ok { newStates := newSts, oldStates := initRktStates, useNew := true }
    else
      match rktWalkTree oldRktDirectory (fun r => r.oldTree) roots with
      | .error e => .error e
      | .ok oldSts => .ok { newStates := newSts, oldStates := oldSts, useNew := false }

/-- configSetup.propagateChanges for one propagator set, in
registration order (auth, dockerAuth, paths, stage1). -/
def rktPropagateAll (sts : RktStates) (cfg : RktConfig) : RktConfig :=
  stage1Propagate sts.stage1
    (pathsPropagate sts.paths
      (dockerAuthPropagate sts.dockerAuth
        (authPropagate sts.auth cfg)))

/-- rkt/config.GetConfigFrom: walk with the dual-schema switch, then
propagate the selected set into a fresh Config. -/
def rktGetConfigFrom (roots : List RktRoot) : Except RktErr RktConfig :=
  match rktWalkDirectories roots with
  | .error e => .error e
  | .ok setup =>
    .ok (rktPropagateAll (if setup.useNew then setup.newStates else setup.oldStates) newRktConfig)

/-! ## Theorems -/

/-- Reading an address below the old length after allocating a cell. -/
theorem heapRead_append_lt (h : List ActiveNet) (x : ActiveNet) (a : Addr) (ha : a < h.length) :
    heapRead (h ++ [x]) a = heapRead h a := by
  unfold heapRead
  rw [List.getD_append _ _ _ _ ha]

/-- Reading the freshly allocated cell. -/
theorem heapRead_append_self (h : List ActiveNet) (x : ActiveNet) :
    heapRead (h ++ [x]) h.length = x := by
  unfold heapRead
  rw [List.getD_eq_getElem?_getD, List.getElem?_append_right (le_refl _)]
  simp

/-- Reading the cell just written. -/
theorem heapRead_set_self (h : List ActiveNet) (a : Addr) (x : ActiveNet) (ha : a < h.length) :
    heapRead (h.set a x) a = x := by
  unfold heapRead
  rw [List.getD_eq_getElem?_getD, List.getElem?_set]
  simp [ha]

/-- Reading another cell after a write. -/
theorem heapRead_set_ne (h : List ActiveNet) (a b : Addr) (x : ActiveNet) (hne : a ≠ b) :
    heapRead (h.set a x) b = heapRead h b := by
  unfold heapRead
  rw [List.getD_eq_getElem?_getD, List.getElem?_set_ne hne, List.getD_eq_getElem?_getD]

/-- The insertion step of the `sort.Sort` model is a permutation. -/
theorem sortInsert_perm {α : Type} (lt : α → α → Bool) (x : α) (l : List α) :
    (sortInsert lt x l).Perm (x :: l) := by
  induction l with
  | nil => exact List.Perm.refl _
  | cons y ys ih =>
    unfold sortInsert
    by_cases h : lt x y
    · simp only [h, if_true]
      exact List.Perm.refl _
    · simp only [h, if_false, Bool.false_eq_true]
      exact (ih.cons y).trans (List.Perm.swap x y ys)

/-- The `sort.Sort` model returns a permutation of its input. -/
theorem sortByLess_perm {α : Type} (lt : α → α → Bool) (l : List α) :
    (sortByLess lt l).Perm l := by
  induction l with
  | nil => exact List.Perm.refl _
  | cons x xs ih => exact (sortInsert_perm lt x _).trans (ih.cons x)

/-- A successful lookup exhibits a member of the association list. -/
theorem lookup_some_mem {α : Type} {k : GoStr} {v : α} {m : List (GoStr × α)}
    (h : List.lookup k m = some v) : (k, v) ∈ m := by
  induction m with
  | nil => exact absurd h (by simp [List.lookup])
  | cons p rest ih =>
    rcases p with ⟨a, b⟩
    by_cases hk : k = a
    · have hb : (k == a) = true := by simp [hk]
      simp only [List.lookup, hb] at h
      cases h
      simp [hk]
    · have hb : (k == a) = false := by simp [hk]
      simp only [List.lookup, hb] at h
      exact List.mem_cons_of_mem _ (ih h)

/-- An absent binding means the key is outside the key set. -/
theorem not_mem_keys_of_lookup_eq_none {α : Type} {k : GoStr} {m : List (GoStr × α)}
    (h : List.lookup k m = none) : k ∉ m.map Prod.fst := by
  induction m with
  | nil => simp
  | cons p rest ih =>
    rcases p with ⟨a, b⟩
    by_cases hk : k = a
    · have hb : (k == a) = true := by simp [hk]
      simp [List.lookup, hb] at h
    · have hb : (k == a) = false := by simp [hk]
      simp only [List.lookup, hb] at h
      simp only [List.map_cons, List.mem_cons]
      push_neg
      exact ⟨hk, ih h⟩

/-- Inserting a fresh key into a Go map appends the binding. -/
theorem mapInsert_of_lookup_none {α : Type} {k : GoStr} (v : α) {m : List (GoStr × α)}
    (h : List.lookup k m = none) : mapInsert k v m = m ++ [(k, v)] := by
  induction m with
  | nil => rfl
  | cons p rest ih =>
    rcases p with ⟨a, b⟩
    by_cases hk : k = a
    · have hb : (k == a) = true := by simp [hk]
      simp [List.lookup, hb] at h
    · have hb : (k == a) = false := by simp [hk]
      simp only [List.lookup, hb] at h
      simp [mapInsert, hk, ih h]

/-- A prepend-if fold collects, reversed, the images of the kept
elements. -/
theorem foldl_prepend_eq {β : Type} (P : β → Prop) [DecidablePred P] (g : β → Nat) :
    ∀ (es : List β) (acc : List Nat),
      es.foldl (fun acc2 p => if P p then g p :: acc2 else acc2) acc =
        ((es.filter (fun p => decide (P p))).map g).reverse ++ acc := by
  intro es
  induction es with
  | nil => intro acc; simp
  | cons e rest ih =>
    intro acc
    by_cases h : P e
    · simp [h, ih]
    · simp [h, ih]

/-- The collected indices are the reversed positions of the entries
with no provider configuration. -/
theorem nilIndices_eq (heap : List ActiveNet) (l : List Addr) :
    nilIndices heap l =
      ((l.enum.filter (fun p => decide ((heapRead heap p.2).conf = none))).map Prod.fst).reverse := by
  unfold nilIndices
  rw [foldl_prepend_eq (fun p : Nat × Addr => (heapRead heap p.2).conf = none) Prod.fst l.enum []]
  simp

/-- Membership in the collected indices. -/
theorem mem_nilIndices (heap : List ActiveNet) (l : List Addr) (i : Nat) :
    i ∈ nilIndices heap l ↔ i < l.length ∧ (heapRead heap (l.getD i 0)).conf = none := by
  rw [nilIndices_eq, List.mem_reverse, List.mem_map]
  constructor
  · rintro ⟨⟨j, a⟩, hmem, rfl⟩
    rw [List.mem_filter] at hmem
    have hget := List.mem_enum_iff_get?.mp hmem.1
    simp only at hget
    have hlt : j < l.length := by
      by_contra hge
      rw [List.get?_eq_none.mpr (by omega)] at hget
      exact Option.noConfusion hget
    refine ⟨hlt, ?_⟩
    have ha : l.getD j 0 = a := by
      rw [List.getD_eq_getElem?_getD, ← List.get?_eq_getElem?, hget]
      rfl
    rw [ha]
    simpa using hmem.2
  · rintro ⟨hlt, hconf⟩
    refine ⟨(i, l.getD i 0), ?_, rfl⟩
    rw [List.mem_filter]
    refine ⟨List.mem_enum_iff_get?.mpr ?_, by simpa using hconf⟩
    simp only
    rw [List.getD_eq_getElem?_getD, ← List.get?_eq_getElem?]
    cases hg : l.get? i with
    | none => exact absurd (List.get?_eq_none.mp hg) (by omega)
    | some a => simp [hg]

/-- The collected indices are strictly descending. -/
theorem nilIndices_sorted (heap : List ActiveNet) (l : List Addr) :
    (nilIndices heap l).Pairwise (fun a b => a > b) := by
  rw [nilIndices_eq, List.pairwise_reverse]
  have hsub : ((l.enum.filter (fun p => decide ((heapRead heap p.2).conf = none))).map Prod.fst).Sublist
      (l.enum.map Prod.fst) := (List.filter_sublist _).map _
  rw [List.enum_map_fst] at hsub
  exact (List.pairwise_lt_range l.length).sublist hsub

/-- Length of a swap-removal. -/
theorem swapRemoveAt_length (l : List Addr) (i : Nat) :
    (swapRemoveAt l i).length = l.length - 1 := by
  unfold swapRemoveAt
  rw [List.length_dropLast, List.length_set]

/-- Entries of a swap-removal, position-wise: position `i` now holds
the old last element, other surviving positions are unchanged. -/
theorem getD_swapRemoveAt (l : List Addr) (i j : Nat) (hi : i < l.length) (hj : j < l.length - 1) :
    (swapRemoveAt l i).getD j 0 = if j = i then l.getD (l.length - 1) 0 else l.getD j 0 := by
  unfold swapRemoveAt
  rw [List.getD_eq_getElem?_getD, List.getElem?_dropLast, List.length_set, if_pos hj,
    List.getElem?_set]
  by_cases h : j = i
  · rw [if_pos h.symm, if_pos hi, if_pos h]
    rfl
  · rw [if_neg (fun hh => h hh.symm), if_neg h, List.getD_eq_getElem?_getD]

/-- Membership in a swap-removal: exactly the elements at positions
other than `i`. -/
theorem mem_swapRemoveAt (l : List Addr) (i : Nat) (hi : i < l.length) (a : Addr) :
    a ∈ swapRemoveAt l i ↔ ∃ j, j < l.length ∧ j ≠ i ∧ l.getD j 0 = a := by
  constructor
  · intro hmem
    obtain ⟨j, hj0, hval⟩ := List.mem_iff_getElem.mp hmem
    have hj : j < l.length - 1 := by
      rw [swapRemoveAt_length] at hj0
      exact hj0
    have hv : (swapRemoveAt l i).getD j 0 = a := by
      rw [List.getD_eq_getElem _ _ hj0]
      exact hval
    rw [getD_swapRemoveAt l i j hi hj] at hv
    by_cases h : j = i
    · rw [if_pos h] at hv
      exact ⟨l.length - 1, by omega, by omega, hv⟩
    · rw [if_neg h] at hv
      exact ⟨j, by omega, h, hv⟩
  · rintro ⟨j, hj, hne, hval⟩
    by_cases hjl : j < l.length - 1
    · have hjlen : j < (swapRemoveAt l i).length := by
        rw [swapRemoveAt_length]
        exact hjl
      rw [List.mem_iff_getElem]
      refine ⟨j, hjlen, ?_⟩
      rw [← List.getD_eq_getElem _ _ hjlen]
      rw [getD_swapRemoveAt l i j hi hjl, if_neg hne, hval]
    · have hj1 : j = l.length - 1 := by omega
      have hil : i < l.length - 1 := by omega
      have hilen : i < (swapRemoveAt l i).length := by
        rw [swapRemoveAt_length]
        exact hil
      rw [List.mem_iff_getElem]
      refine ⟨i, hilen, ?_⟩
      rw [← List.getD_eq_getElem _ _ hilen]
      rw [getD_swapRemoveAt l i i hi hil, if_pos rfl, ← hj1, hval]

/-- The removal loop keeps exactly the entries at positions outside the
collected index list (membership form). -/
theorem removeLoop_mem_ordered (heap : List ActiveNet) :
    ∀ (idxs : List Nat) (bn : List (GoStr × Addr)) (l : List Addr),
      idxs.Pairwise (fun a b => a > b) → (∀ i ∈ idxs, i < l.length) →
      ∀ a, a ∈ (removeLoop heap { byName := bn, ordered := l } idxs).ordered ↔
        ∃ j, j < l.length ∧ j ∉ idxs ∧ l.getD j 0 = a := by
  intro idxs
  induction idxs with
  | nil =>
    intro bn l _ _ a
    simp only [removeLoop]
    constructor
    · intro h
      obtain ⟨j, hj, hv⟩ := List.mem_iff_getElem.mp h
      exact ⟨j, hj, by simp, by rw [List.getD_eq_getElem _ _ hj]; exact hv⟩
    · rintro ⟨j, hj, _, hv⟩
      rw [List.mem_iff_getElem]
      exact ⟨j, hj, by rw [← List.getD_eq_getElem _ _ hj]; exact hv⟩
  | cons i rest ih =>
    intro bn l hpw hbound a
    have hi : i < l.length := hbound i (by simp)
    have hrest_lt : ∀ j ∈ rest, j < i := fun j hj => (List.pairwise_cons.mp hpw).1 j hj
    have hrest_bound : ∀ j ∈ rest, j < (swapRemoveAt l i).length := by
      intro j hj
      rw [swapRemoveAt_length]
      have := hrest_lt j hj
      omega
    simp only [removeLoop]
    rw [ih _ _ (List.pairwise_cons.mp hpw).2 hrest_bound a]
    constructor
    · rintro ⟨j, hj, hnotin, hval⟩
      rw [swapRemoveAt_length] at hj
      rw [getD_swapRemoveAt l i j hi hj] at hval
      by_cases h : j = i
      · rw [if_pos h] at hval
        refine ⟨l.length - 1, by omega, ?_, hval⟩
        intro hmem
        rcases List.mem_cons.mp hmem with h1 | h1
        · omega
        · have := hrest_lt _ h1
          omega
      · rw [if_neg h] at hval
        refine ⟨j, by omega, ?_, hval⟩
        intro hmem
        rcases List.mem_cons.mp hmem with h1 | h1
        · exact h h1
        · exact hnotin h1
    · rintro ⟨j, hj, hnotin, hval⟩
      have hji : j ≠ i := fun hh => hnotin (by rw [hh]; exact List.mem_cons_self _ _)
      have hjrest : j ∉ rest := fun hh => hnotin (List.mem_cons_of_mem _ hh)
      by_cases hjl : j < l.length - 1
      · refine ⟨j, by rw [swapRemoveAt_length]; exact hjl, hjrest, ?_⟩
        rw [getD_swapRemoveAt l i j hi hjl, if_neg hji, hval]
      · have hj1 : j = l.length - 1 := by omega
        have hil : i < l.length - 1 := by omega
        refine ⟨i, by rw [swapRemoveAt_length]; exact hil, ?_, ?_⟩
        · intro hmem
          have := hrest_lt i hmem
          omega
        · rw [getD_swapRemoveAt l i i hi hil, if_pos rfl, ← hj1, hval]

/-- The removal loop deletes from the name map exactly the runtime
names of the entries at the collected positions. -/
theorem removeLoop_byName (heap : List ActiveNet) :
    ∀ (idxs : List Nat) (bn : List (GoStr × Addr)) (l : List Addr),
      idxs.Pairwise (fun a b => a > b) → (∀ i ∈ idxs, i < l.length) →
      (removeLoop heap { byName := bn, ordered := l } idxs).byName =
        bn.filter (fun p =>
          decide (p.1 ∉ idxs.map (fun i => (heapRead heap (l.getD i 0)).runtime.netName))) := by
  intro idxs
  induction idxs with
  | nil =>
    intro bn l _ _
    simp [removeLoop]
  | cons i rest ih =>
    intro bn l hpw hbound
    have hi : i < l.length := hbound i (by simp)
    have hrest_lt : ∀ j ∈ rest, j < i := fun j hj => (List.pairwise_cons.mp hpw).1 j hj
    have hrest_bound : ∀ j ∈ rest, j < (swapRemoveAt l i).length := by
      intro j hj
      rw [swapRemoveAt_length]
      have := hrest_lt j hj
      omega
    simp only [removeLoop]
    rw [ih _ _ (List.pairwise_cons.mp hpw).2 hrest_bound]
    have hnames : rest.map (fun j => (heapRead heap ((swapRemoveAt l i).getD j 0)).runtime.netName)
        = rest.map (fun j => (heapRead heap (l.getD j 0)).runtime.netName) := by
      apply List.map_congr_left
      intro j hj
      have hlt := hrest_lt j hj
      have hjb := hbound j (List.mem_cons_of_mem _ hj)
      rw [getD_swapRemoveAt l i j hi (by omega), if_neg (by omega)]
    rw [hnames, List.filter_filter]
    apply List.filter_congr
    intro p _
    by_cases h1 : p.1 = (heapRead heap (l.getD i 0)).runtime.netName
    · simp [h1]
    · by_cases h2 : p.1 ∈ rest.map (fun j => (heapRead heap (l.getD j 0)).runtime.netName)
      · simp [h1, h2]
        exact Bool.and_comm _ _
      · simp [h1, h2]
        exact Bool.and_comm _ _

/-- In a unique-key association list the binding of a key is unique. -/
theorem nodup_keys_eq {α : Type} {m : List (GoStr × α)} (hnd : (m.map Prod.fst).Nodup)
    {k : GoStr} {v1 v2 : α} (h1 : (k, v1) ∈ m) (h2 : (k, v2) ∈ m) : v1 = v2 := by
  induction m with
  | nil => exact absurd h1 (List.not_mem_nil _)
  | cons p rest ih =>
    simp only [List.map_cons, List.nodup_cons] at hnd
    rcases List.mem_cons.mp h1 with e1 | m1 <;> rcases List.mem_cons.mp h2 with e2 | m2
    · exact congrArg Prod.snd (e1.trans e2.symm)
    · exfalso
      apply hnd.1
      rw [← e1]
      show k ∈ List.map Prod.fst rest
      exact List.mem_map_of_mem Prod.fst m2
    · exfalso
      apply hnd.1
      rw [← e2]
      show k ∈ List.map Prod.fst rest
      exact List.mem_map_of_mem Prod.fst m1
    · exact ih hnd.2 m1 m2

/-- The cleanup phase keeps in the ordered list exactly the entries
with decoded provider configuration (no well-formedness needed). -/
theorem cleanup_ordered_mem (heap : List ActiveNet) (bn : List (GoStr × Addr)) (l : List Addr)
    (a : Addr) :
    a ∈ (removeLoop heap { byName := bn, ordered := l } (nilIndices heap l)).ordered ↔
      (a ∈ l ∧ (heapRead heap a).conf ≠ none) := by
  rw [removeLoop_mem_ordered heap _ bn l (nilIndices_sorted heap l)
    (fun i hi => ((mem_nilIndices heap l i).mp hi).1) a]
  constructor
  · rintro ⟨j, hj, hnotin, hval⟩
    have hconf : (heapRead heap (l.getD j 0)).conf ≠ none := by
      intro hc
      exact hnotin ((mem_nilIndices heap l j).mpr ⟨hj, hc⟩)
    rw [hval] at hconf
    refine ⟨?_, hconf⟩
    rw [← hval, List.getD_eq_getElem _ _ hj]
    exact List.getElem_mem hj
  · rintro ⟨hmem, hconf⟩
    obtain ⟨j, hj, hval⟩ := List.mem_iff_getElem.mp hmem
    have hval2 : l.getD j 0 = a := by
      rw [List.getD_eq_getElem _ _ hj]
      exact hval
    refine ⟨j, hj, ?_, hval2⟩
    intro hin
    have := ((mem_nilIndices heap l j).mp hin).2
    rw [hval2] at this
    exact hconf this

/-- Under the map/list consistency invariant, the cleanup phase keeps
in the name map exactly the bindings whose object has decoded provider
configuration. -/
theorem cleanup_byName (heap : List ActiveNet) (bn : List (GoStr × Addr)) (l : List Addr)
    (hnodup : (bn.map Prod.fst).Nodup)
    (hmatch : ∀ p ∈ bn, p.2 ∈ l ∧ (heapRead heap p.2).runtime.netName = p.1)
    (hsur : ∀ a ∈ l, ∃ n, (n, a) ∈ bn) :
    (removeLoop heap { byName := bn, ordered := l } (nilIndices heap l)).byName =
      bn.filter (fun p => decide ((heapRead heap p.2).conf ≠ none)) := by
  rw [removeLoop_byName heap _ bn l (nilIndices_sorted heap l)
    (fun i hi => ((mem_nilIndices heap l i).mp hi).1)]
  apply List.filter_congr
  intro p hp
  rw [decide_eq_decide]
  constructor
  · intro hnot hc
    apply hnot
    obtain ⟨hmem_l, hname⟩ := hmatch p hp
    obtain ⟨j, hj, hval⟩ := List.mem_iff_getElem.mp hmem_l
    have hval2 : l.getD j 0 = p.2 := by
      rw [List.getD_eq_getElem _ _ hj]
      exact hval
    rw [List.mem_map]
    exact ⟨j, (mem_nilIndices heap l j).mpr ⟨hj, by rw [hval2]; exact hc⟩, by rw [hval2, hname]⟩
  · intro hconf hin
    rw [List.mem_map] at hin
    obtain ⟨i, hiidx, hname⟩ := hin
    obtain ⟨hilt, hiconf⟩ := (mem_nilIndices heap l i).mp hiidx
    have hmem_b : l.getD i 0 ∈ l := by
      rw [List.getD_eq_getElem _ _ hilt]
      exact List.getElem_mem hilt
    obtain ⟨n, hnb⟩ := hsur (l.getD i 0) hmem_b
    have hn : n = p.1 := by
      rw [← hname]
      exact ((hmatch _ hnb).2).symm
    rw [hn] at hnb
    have hpb : p.2 = l.getD i 0 := by
      have hp2 : (p.1, p.2) ∈ bn := by
        rcases p with ⟨p1, p2⟩
        exact hp
      exact nodup_keys_eq hnodup hp2 hnb
    rw [hpb] at hconf
    exact hconf hiconf

/-- C2: in the current-schema network merge, folding per-root
accumulators in root order: an unseen network name is inserted (into
both the map and the ordered list); a seen name whose new declaration
carries provider configuration fully replaces the previous shared
object; a seen name whose new declaration carries none replaces only
the object's runtime identity, keeping its provider configuration and
bytes; and after all roots are folded, exactly the entries that still
have no decoded provider configuration are removed from both the
ordered list and (under the map/list consistency invariant) the name
map. -/
theorem c2_network_v1_merge :
    (∀ heap nets (entry : GoStr × Addr), List.lookup entry.1 nets.byName = none →
       netMergeStep heap nets entry =
         (heap, { byName := nets.byName ++ [(entry.1, entry.2)],
                  ordered := nets.ordered ++ [entry.2] }))
  ∧ (∀ heap nets (entry : GoStr × Addr) addr, List.lookup entry.1 nets.byName = some addr →
       (heapRead heap entry.2).conf.isSome = true →
       netMergeStep heap nets entry = (heap.set addr (heapRead heap entry.2), nets))
  ∧ (∀ heap nets (entry : GoStr × Addr) addr, List.lookup entry.1 nets.byName = some addr →
       (heapRead heap entry.2).conf = none →
       (netMergeStep heap nets entry =
          (heap.set addr { heapRead heap addr with runtime := (heapRead heap entry.2).runtime }, nets)
        ∧ ({ heapRead heap addr with runtime := (heapRead heap entry.2).runtime }).conf
            = (heapRead heap addr).conf
        ∧ ({ heapRead heap addr with runtime := (heapRead heap entry.2).runtime }).confBytes
            = (heapRead heap addr).confBytes))
  ∧ (∀ st cfg (a : Addr),
       a ∈ (networkV1Propagate st cfg).2.networks.ordered ↔
         (a ∈ (netMergeAll st.heap cfg.networks st.configs).2.ordered ∧
          (heapRead (netMergeAll st.heap cfg.networks st.configs).1 a).conf ≠ none))
  ∧ (∀ st cfg,
       ((netMergeAll st.heap cfg.networks st.configs).2.byName.map Prod.fst).Nodup →
       (∀ p ∈ (netMergeAll st.heap cfg.networks st.configs).2.byName,
          p.2 ∈ (netMergeAll st.heap cfg.networks st.configs).2.ordered ∧
          (heapRead (netMergeAll st.heap cfg.networks st.configs).1 p.2).runtime.netName = p.1) →
       (∀ a ∈ (netMergeAll st.heap cfg.networks st.configs).2.ordered,
          ∃ n, (n, a) ∈ (netMergeAll st.heap cfg.networks st.configs).2.byName) →
       (networkV1Propagate st cfg).2.networks.byName =
         (netMergeAll st.heap cfg.networks st.configs).2.byName.filter
           (fun p => decide ((heapRead (netMergeAll st.heap cfg.networks st.configs).1 p.2).conf ≠ none))) := by
  refine ⟨?_, ?_, ?_, ?_, ?_⟩
  · intro heap nets entry h
    simp only [netMergeStep, h]
  · intro heap nets entry addr h hsome
    simp only [netMergeStep, h, hsome, if_true]
  · intro heap nets entry addr h hnone
    refine ⟨?_, rfl, rfl⟩
    simp only [netMergeStep, h, hnone]
    simp
  · intro st cfg a
    constructor
    · intro h
      exact (cleanup_ordered_mem (netMergeAll st.heap cfg.networks st.configs).1
        (netMergeAll st.heap cfg.networks st.configs).2.byName
        (netMergeAll st.heap cfg.networks st.configs).2.ordered a).mp
        (((sortByLess_perm _ _).mem_iff).mp h)
    · intro h
      exact ((sortByLess_perm _ _).mem_iff).mpr
        ((cleanup_ordered_mem (netMergeAll st.heap cfg.networks st.configs).1
          (netMergeAll st.heap cfg.networks st.configs).2.byName
          (netMergeAll st.heap cfg.networks st.configs).2.ordered a).mpr h)
  · intro st cfg hnodup hmatch hsur
    exact cleanup_byName (netMergeAll st.heap cfg.networks st.configs).1
      (netMergeAll st.heap cfg.networks st.configs).2.byName
      (netMergeAll st.heap cfg.networks st.configs).2.ordered hnodup hmatch hsur

/-- A fully decoded "foo" entry used by the C2 witness. -/
def c2AnFoo : ActiveNet :=
  { confBytes := some { name := gs "foo", typ := gs "x" },
    conf := some { name := gs "foo", typ := gs "x" },
    runtime := { netName := gs "foo", confPath := gs "10-a.conf" } }

/-- A stub "bar" entry (no provider configuration) for the C2 witness. -/
def c2AnBar : ActiveNet :=
  { confBytes := none, conf := none,
    runtime := { netName := gs "bar", confPath := gs "20-b.conf" } }

/-- A parser state with one accumulator holding "foo" (decoded) and
"bar" (stub), for the C2 witness. -/
def c2State : NetParserState :=
  { heap := [c2AnFoo, c2AnBar],
    configs := [{ networks := { byName := [(gs "foo", 0), (gs "bar", 1)], ordered := [0, 1] } }] }

/-- Witness for C2 at concrete inputs: insert of an unseen name, full
replace, stub replace keeping conf and bytes, and the cleanup dropping
exactly the configuration-less "bar" entry from ordered and byName. -/
theorem c2_network_v1_merge_witness :
    (netMergeStep [] { byName := [], ordered := [] } (gs "net1", 5) =
       ([], { byName := [(gs "net1", 5)], ordered := [5] }))
  ∧ (netMergeStep [c2AnBar, c2AnFoo] { byName := [(gs "foo", 0)], ordered := [0] } (gs "foo", 1) =
       ([c2AnFoo, c2AnFoo], { byName := [(gs "foo", 0)], ordered := [0] }))
  ∧ (netMergeStep [c2AnFoo, c2AnBar] { byName := [(gs "foo", 0)], ordered := [0] } (gs "foo", 1) =
       ([{ c2AnFoo with runtime := c2AnBar.runtime }, c2AnBar],
        { byName := [(gs "foo", 0)], ordered := [0] }))
  ∧ ((1 : Addr) ∈ (networkV1Propagate c2State newNetConfig).2.networks.ordered ↔
       ((1 : Addr) ∈ (netMergeAll c2State.heap newNetConfig.networks c2State.configs).2.ordered ∧
        (heapRead (netMergeAll c2State.heap newNetConfig.networks c2State.configs).1 1).conf ≠ none))
  ∧ ((networkV1Propagate c2State newNetConfig).2.networks.byName =
       (netMergeAll c2State.heap newNetConfig.networks c2State.configs).2.byName.filter
         (fun p => decide ((heapRead (netMergeAll c2State.heap newNetConfig.networks c2State.configs).1 p.2).conf ≠ none)))
  ∧ (networkV1Propagate c2State newNetConfig).2.networks.byName = [(gs "foo", 0)]
  ∧ (networkV1Propagate c2State newNetConfig).2.networks.ordered = [0] := by
  refine ⟨?_, ?_, ?_, ?_, ?_, by decide, by decide⟩
  · exact c2_network_v1_merge.1 [] { byName := [], ordered := [] } (gs "net1", 5) (by decide)
  · have h := c2_network_v1_merge.2.1 [c2AnBar, c2AnFoo]
      { byName := [(gs "foo", 0)], ordered := [0] } (gs "foo", 1) 0 (by decide) (by decide)
    rw [h]
    decide
  · have h := (c2_network_v1_merge.2.2.1 [c2AnFoo, c2AnBar]
      { byName := [(gs "foo", 0)], ordered := [0] } (gs "foo", 1) 0 (by decide) (by decide)).1
    rw [h]
    decide
  · exact c2_network_v1_merge.2.2.2.1 c2State newNetConfig 1
  · apply c2_network_v1_merge.2.2.2.2 c2State newNetConfig (by decide) (by decide)
    intro a ha
    have hord : (netMergeAll c2State.heap newNetConfig.networks c2State.configs).2.ordered = [0, 1] := by
      decide
    have hbn : (netMergeAll c2State.heap newNetConfig.networks c2State.configs).2.byName =
        [(gs "foo", 0), (gs "bar", 1)] := by
      decide
    rw [hord] at ha
    rw [hbn]
    rcases List.mem_cons.mp ha with rfl | ha2
    · exact ⟨gs "foo", by decide⟩
    · rcases List.mem_cons.mp ha2 with rfl | ha3
      · exact ⟨gs "bar", by decide⟩
      · exact absurd ha3 (List.not_mem_nil _)

/-- C10: the networking per-pod entry point `GetPodConfig(d)` returns
exactly the same (Config, error) result as the networking
`GetConfigFrom(d)`: both build the identical legacy-only (net.d /
old-conf) setup from `getOldSetup` and run the same walk and
propagation on the single root, so the per-pod variant adds no
behavioral restriction beyond taking a single root. -/
theorem c10_pod_config_equals_config_from (podRoot : NetRoot) :
    netGetPodConfig podRoot = netGetConfigFrom [podRoot] := rfl

/-- C8: stage1 file validation rejects every input that supplies
exactly one of name and version: whenever name is given without
version or version without name, validation returns an error and
parsing the stage1 configuration file fails with it (wrapped as an
invalid-stage1-configuration error). -/
theorem c8_stage1_name_version_pairing (cs : List RktConfig) (pidx : PathIndex) (s : Stage1V1)
    (h : (s.name = [] ∧ s.version ≠ []) ∨ (s.name ≠ [] ∧ s.version = [])) :
    ∃ e, validateStage1V1 s = some e ∧
      stage1V1Parse cs pidx (.stage1 s) = .error (.invalidStage1 e) := by
  rcases h with ⟨h1, h2⟩ | ⟨h1, h2⟩
  · refine ⟨.stage1VersionWithoutName, ?_, ?_⟩
    · simp [validateStage1V1, h1, h2]
    · simp [stage1V1Parse, decodeStage1, validateStage1V1, h1, h2]
  · refine ⟨.stage1NameWithoutVersion, ?_, ?_⟩
    · simp [validateStage1V1, h1, h2]
    · simp [stage1V1Parse, decodeStage1, validateStage1V1, h1, h2]

/-- Witness for C8 at a concrete input: a stage1 file carrying a name
but no version fails validation and parsing. -/
theorem c8_stage1_name_version_pairing_witness :
    ∃ e, validateStage1V1 { name := gs "coreos.com/rkt/stage1-coreos", version := [], location := [] } = some e ∧
      stage1V1Parse [] { index := 0, path := gs "/etc/rkt", subdirectory := gs "stage1.d", filename := gs "s.json" }
        (.stage1 { name := gs "coreos.com/rkt/stage1-coreos", version := [], location := [] }) =
      .error (.invalidStage1 e) :=
  c8_stage1_name_version_pairing [] _ _ (Or.inr (by constructor <;> decide))

/-- Looking up a key after a Go-style map insert. -/
theorem lookup_mapInsert {α : Type} (k k2 : GoStr) (v : α) (m : List (GoStr × α)) :
    List.lookup k (mapInsert k2 v m) = if k = k2 then some v else List.lookup k m := by
  induction m with
  | nil =>
    by_cases h : k = k2
    · simp [mapInsert, List.lookup, h]
    · have hb : (k == k2) = false := by simp [h]
      simp [mapInsert, List.lookup, hb, h]
  | cons p rest ih =>
    rcases p with ⟨a, b⟩
    by_cases h2 : k2 = a
    · subst h2
      by_cases h : k = k2
      · simp [mapInsert, List.lookup, h]
      · have hb : (k == k2) = false := by simp [h]
        simp [mapInsert, List.lookup, hb, h]
    · by_cases h : k = a
      · subst h
        have hk2 : ¬ k = k2 := fun hh => h2 (by rw [hh])
        simp [mapInsert, List.lookup, h2, hk2]
      · have hb : (k == a) = false := by simp [h]
        simp [mapInsert, List.lookup, h2, hb, ih]

/-- A key outside a map's key set has no binding. -/
theorem lookup_eq_none_of_not_mem {α : Type} (k : GoStr) (m : List (GoStr × α))
    (h : k ∉ m.map Prod.fst) : List.lookup k m = none := by
  induction m with
  | nil => rfl
  | cons p rest ih =>
    simp only [List.map_cons, List.mem_cons] at h
    push_neg at h
    have hk : (p.1 == k) = false := by
      simp [beq_iff_eq]
      exact fun hh => h.1 (Eq.symm hh)
    rcases p with ⟨a, b⟩
    simp only [List.lookup]
    rw [show (k == a) = false by simpa [BEq.comm] using hk]
    exact ih h.2

/-- The auth domain-insertion loop fails as soon as one of the domains
is already bound in the accumulator. -/
theorem authInsertDomains_error (hdr : Headerer) (cfg : RktConfig) (ds : List GoStr)
    (h : ∃ d ∈ ds, (List.lookup d cfg.authPerHost).isSome = true) :
    ∃ d, authInsertDomains hdr cfg ds = .error (.authAlreadySpecified d) := by
  induction ds generalizing cfg with
  | nil =>
    obtain ⟨d, hd, _⟩ := h
    exact absurd hd (List.not_mem_nil d)
  | cons d rest ih =>
    by_cases hd : (List.lookup d cfg.authPerHost).isSome = true
    · exact ⟨d, by simp [authInsertDomains, hd]⟩
    · obtain ⟨d2, hmem, hsome⟩ := h
      rcases List.mem_cons.mp hmem with rfl | hmem
      · exact absurd hsome hd
      · have hstep : authInsertDomains hdr cfg (d :: rest) =
            authInsertDomains hdr { cfg with authPerHost := mapInsert d hdr cfg.authPerHost } rest := by
          simp [authInsertDomains, hd]
        rw [hstep]
        apply ih
        refine ⟨d2, hmem, ?_⟩
        rw [lookup_mapInsert]
        by_cases h2 : d2 = d
        · rw [if_pos h2]
          rfl
        · rw [if_neg h2]
          exact hsome

/-- The docker-auth registry-insertion loop fails as soon as one of the
registries is already bound in the accumulator. -/
theorem dockerInsertRegistries_error (creds : BasicCredentials) (cfg : RktConfig) (rs : List GoStr)
    (h : ∃ r ∈ rs, (List.lookup r cfg.dockerCredentialsPerRegistry).isSome = true) :
    ∃ r, dockerInsertRegistries creds cfg rs = .error (.dockerAlreadySpecified r) := by
  induction rs generalizing cfg with
  | nil =>
    obtain ⟨r, hr, _⟩ := h
    exact absurd hr (List.not_mem_nil r)
  | cons r rest ih =>
    by_cases hr : (List.lookup r cfg.dockerCredentialsPerRegistry).isSome = true
    · exact ⟨r, by simp [dockerInsertRegistries, hr]⟩
    · obtain ⟨r2, hmem, hsome⟩ := h
      rcases List.mem_cons.mp hmem with rfl | hmem
      · exact absurd hsome hr
      · have hstep : dockerInsertRegistries creds cfg (r :: rest) =
            dockerInsertRegistries creds
              { cfg with dockerCredentialsPerRegistry := mapInsert r creds cfg.dockerCredentialsPerRegistry } rest := by
          simp [dockerInsertRegistries, hr]
        rw [hstep]
        apply ih
        refine ⟨r2, hmem, ?_⟩
        rw [lookup_mapInsert]
        by_cases h2 : r2 = r
        · rw [if_pos h2]
          rfl
        · rw [if_neg h2]
          exact hsome

/-- Looking up a key in a non-empty association list. -/
theorem lookup_cons {α : Type} (k a : GoStr) (b : α) (rest : List (GoStr × α)) :
    List.lookup k ((a, b) :: rest) = if k = a then some b else List.lookup k rest := by
  by_cases h : k = a
  · have hb : (k == a) = true := by simp [h]
    simp [List.lookup, hb, h]
  · have hb : (k == a) = false := by simp [h]
    simp [List.lookup, hb, h]

/-- Looking up a key after pouring an association list into a map by
repeated inserts: the list's binding wins when it has one (the list's
keys being unique, as they are for a Go map being ranged over). -/
theorem lookup_foldl_mapInsert {α : Type} (k : GoStr) (pairs : List (GoStr × α))
    (m : List (GoStr × α)) (hnd : (pairs.map Prod.fst).Nodup) :
    List.lookup k (pairs.foldl (fun acc p => mapInsert p.1 p.2 acc) m) =
      (List.lookup k pairs).or (List.lookup k m) := by
  induction pairs generalizing m with
  | nil => rfl
  | cons p rest ih =>
    obtain ⟨a, b⟩ := p
    simp only [List.map_cons, List.nodup_cons] at hnd
    rw [List.foldl_cons, ih _ hnd.2]
    by_cases hk : k = a
    · have hrest : List.lookup k rest = none := by
        apply lookup_eq_none_of_not_mem
        rw [hk]
        exact hnd.1
      rw [hrest, lookup_mapInsert, if_pos hk, lookup_cons, if_pos hk]
      rfl
    · rw [lookup_mapInsert, if_neg hk, lookup_cons, if_neg hk]

/-- The auth inner propagation fold only touches the authPerHost map. -/
theorem authPropagate_inner (pairs : List (GoStr × Headerer)) (c : RktConfig) :
    (pairs.foldl (fun c2 p => { c2 with authPerHost := mapInsert p.1 p.2 c2.authPerHost }) c) =
      { c with authPerHost := pairs.foldl (fun acc p => mapInsert p.1 p.2 acc) c.authPerHost } := by
  induction pairs generalizing c with
  | nil => rfl
  | cons p rest ih => simp [ih]

/-- The docker-auth inner propagation fold only touches the registry map. -/
theorem dockerPropagate_inner (pairs : List (GoStr × BasicCredentials)) (c : RktConfig) :
    (pairs.foldl (fun c2 p => { c2 with dockerCredentialsPerRegistry := mapInsert p.1 p.2 c2.dockerCredentialsPerRegistry }) c) =
      { c with dockerCredentialsPerRegistry :=
          pairs.foldl (fun acc p => mapInsert p.1 p.2 acc) c.dockerCredentialsPerRegistry } := by
  induction pairs generalizing c with
  | nil => rfl
  | cons p rest ih => simp [ih]

/-- Cross-root auth merge: the merged binding of a host is the one from
the highest-indexed accumulator that declares it. -/
theorem authPropagate_lookup (cs : List RktConfig) (host : GoStr) :
    ∀ cfg, (∀ sub ∈ cs, (sub.authPerHost.map Prod.fst).Nodup) →
    List.lookup host (authPropagate cs cfg).authPerHost =
      (cs.reverse.findSome? (fun sub => List.lookup host sub.authPerHost)).or
        (List.lookup host cfg.authPerHost) := by
  induction cs using List.reverseRecOn with
  | nil => intro cfg _; rfl
  | append_singleton cs c ih =>
    intro cfg hnd
    have hstep : authPropagate (cs ++ [c]) cfg =
        { authPropagate cs cfg with authPerHost :=
            (List.foldl (fun acc p => mapInsert p.1 p.2 acc) (authPropagate cs cfg).authPerHost c.authPerHost) } := by
      unfold authPropagate
      rw [List.foldl_append, List.foldl_cons, List.foldl_nil]
      exact authPropagate_inner _ _
    rw [hstep]
    rw [lookup_foldl_mapInsert _ _ _ (hnd c (by simp))]
    rw [ih cfg (fun sub hs => hnd sub (by simp [hs]))]
    simp only [List.reverse_append, List.reverse_cons, List.reverse_nil, List.nil_append,
      List.singleton_append, List.findSome?_cons]
    cases hc2 : List.lookup host c.authPerHost <;> rfl

/-- Cross-root docker-auth merge: the merged credentials of a registry
are the ones from the highest-indexed accumulator that declares it. -/
theorem dockerAuthPropagate_lookup (cs : List RktConfig) (registry : GoStr) :
    ∀ cfg, (∀ sub ∈ cs, (sub.dockerCredentialsPerRegistry.map Prod.fst).Nodup) →
    List.lookup registry (dockerAuthPropagate cs cfg).dockerCredentialsPerRegistry =
      (cs.reverse.findSome? (fun sub => List.lookup registry sub.dockerCredentialsPerRegistry)).or
        (List.lookup registry cfg.dockerCredentialsPerRegistry) := by
  induction cs using List.reverseRecOn with
  | nil => intro cfg _; rfl
  | append_singleton cs c ih =>
    intro cfg hnd
    have hstep : dockerAuthPropagate (cs ++ [c]) cfg =
        { dockerAuthPropagate cs cfg with dockerCredentialsPerRegistry :=
            (List.foldl (fun acc p => mapInsert p.1 p.2 acc)
              (dockerAuthPropagate cs cfg).dockerCredentialsPerRegistry c.dockerCredentialsPerRegistry) } := by
      unfold dockerAuthPropagate
      rw [List.foldl_append, List.foldl_cons, List.foldl_nil]
      exact dockerPropagate_inner _ _
    rw [hstep]
    rw [lookup_foldl_mapInsert _ _ _ (hnd c (by simp))]
    rw [ih cfg (fun sub hs => hnd sub (by simp [hs]))]
    simp only [List.reverse_append, List.reverse_cons, List.reverse_nil, List.nil_append,
      List.singleton_append, List.findSome?_cons]
    cases hc2 : List.lookup registry c.dockerCredentialsPerRegistry <;> rfl

/-- C6: for the auth and docker-auth domains, a declaration for a host
(resp. registry) already declared in the same root's accumulator makes
parsing fail at that declaration; and across roots, looking up a key in
the merged Config gives the value from the highest-indexed root that
declares it (hence the union for disjoint keys and last-root-wins for
overlapping ones), each per-root map having unique keys as Go maps do. -/
theorem c6_auth_docker_merge :
    (∀ cs pidx payload, (∃ d ∈ (decodeAuth payload).domains,
        (List.lookup d ((extendRkt cs pidx.index).getD pidx.index newRktConfig).authPerHost).isSome = true) →
      ∃ e, authV1Parse cs pidx payload = .error e)
  ∧ (∀ cs pidx payload, (∃ r ∈ (decodeDockerAuth payload).registries,
        (List.lookup r ((extendRkt cs pidx.index).getD pidx.index newRktConfig).dockerCredentialsPerRegistry).isSome = true) →
      ∃ e, dockerAuthV1Parse cs pidx payload = .error e)
  ∧ (∀ cs host cfg, (∀ sub ∈ cs, (sub.authPerHost.map Prod.fst).Nodup) →
      List.lookup host (authPropagate cs cfg).authPerHost =
        (cs.reverse.findSome? (fun sub => List.lookup host sub.authPerHost)).or
          (List.lookup host cfg.authPerHost))
  ∧ (∀ cs registry cfg, (∀ sub ∈ cs, (sub.dockerCredentialsPerRegistry.map Prod.fst).Nodup) →
      List.lookup registry (dockerAuthPropagate cs cfg).dockerCredentialsPerRegistry =
        (cs.reverse.findSome? (fun sub => List.lookup registry sub.dockerCredentialsPerRegistry)).or
          (List.lookup registry cfg.dockerCredentialsPerRegistry)) := by
  refine ⟨?_, ?_, ?_, ?_⟩
  · intro cs pidx payload h
    by_cases hdm : (decodeAuth payload).domains = []
    · obtain ⟨d, hd, _⟩ := h
      rw [hdm] at hd
      exact absurd hd (List.not_mem_nil d)
    · by_cases hty : (decodeAuth payload).typ = []
      · exact ⟨.noAuthType, by simp [authV1Parse, hdm, hty]⟩
      · rcases hh : (if (decodeAuth payload).typ = gs "basic" then getBasicV1Headerer (decodeAuth payload).credentials
            else if (decodeAuth payload).typ = gs "oauth" then getOAuthV1Headerer (decodeAuth payload).credentials
            else .error (.unknownAuthType (decodeAuth payload).typ)) with e | hdr
        · exact ⟨e, by simp [authV1Parse, hdm, hty, hh]⟩
        · obtain ⟨d, hins⟩ := authInsertDomains_error hdr
            ((extendRkt cs pidx.index).getD pidx.index newRktConfig) (decodeAuth payload).domains h
          refine ⟨.authAlreadySpecified d, ?_⟩
          simp only [List.getD_eq_getElem?_getD] at hins
          simp [authV1Parse, hdm, hty, hh, hins]
  · intro cs pidx payload h
    by_cases hrg : (decodeDockerAuth payload).registries = []
    · obtain ⟨r, hr, _⟩ := h
      rw [hrg] at hr
      exact absurd hr (List.not_mem_nil r)
    · rcases hv : validateBasicV1 (decodeDockerAuth payload).credentials with _ | e
      · obtain ⟨r, hins⟩ := dockerInsertRegistries_error
          { user := (decodeDockerAuth payload).credentials.user,
            password := (decodeDockerAuth payload).credentials.password }
          ((extendRkt cs pidx.index).getD pidx.index newRktConfig) (decodeDockerAuth payload).registries h
        refine ⟨.dockerAlreadySpecified r, ?_⟩
        simp only [List.getD_eq_getElem?_getD] at hins
        simp [dockerAuthV1Parse, hrg, hv, hins]
      · exact ⟨e, by simp [dockerAuthV1Parse, hrg, hv]⟩
  · intro cs host cfg hnd
    exact authPropagate_lookup cs host cfg hnd
  · intro cs registry cfg hnd
    exact dockerAuthPropagate_lookup cs registry cfg hnd

/-- Witness for C6 at concrete inputs: a second declaration for an
already-declared host (resp. registry) fails, and with two roots
declaring the same host the second root's binding is merged. -/
theorem c6_auth_docker_merge_witness :
    (∃ e, authV1Parse
        [{ newRktConfig with authPerHost := [(gs "coreos.com", Headerer.oauthBearer (gs "t1"))] }]
        { index := 0, path := gs "/etc/rkt", subdirectory := gs "auth.d", filename := gs "a.json" }
        (.auth { domains := [gs "coreos.com"], typ := gs "oauth",
                 credentials := { user := [], password := [], token := gs "t2" } }) = .error e)
  ∧ (∃ e, dockerAuthV1Parse
        [{ newRktConfig with dockerCredentialsPerRegistry :=
             [(gs "quay.io", { user := gs "u", password := gs "p" })] }]
        { index := 0, path := gs "/etc/rkt", subdirectory := gs "auth.d", filename := gs "d.json" }
        (.dockerAuth { registries := [gs "quay.io"],
                       credentials := { user := gs "u2", password := gs "p2" } }) = .error e)
  ∧ (List.lookup (gs "coreos.com")
      (authPropagate
        [{ newRktConfig with authPerHost := [(gs "coreos.com", Headerer.oauthBearer (gs "t1"))] },
         { newRktConfig with authPerHost := [(gs "coreos.com", Headerer.oauthBearer (gs "t2"))] }]
        newRktConfig).authPerHost =
      (([{ newRktConfig with authPerHost := [(gs "coreos.com", Headerer.oauthBearer (gs "t1"))] },
          { newRktConfig with authPerHost := [(gs "coreos.com", Headerer.oauthBearer (gs "t2"))] }] :
            List RktConfig).reverse.findSome?
          (fun sub => List.lookup (gs "coreos.com") sub.authPerHost)).or
        (List.lookup (gs "coreos.com") newRktConfig.authPerHost))
  ∧ (List.lookup (gs "quay.io")
      (dockerAuthPropagate
        [{ newRktConfig with dockerCredentialsPerRegistry := [(gs "quay.io", { user := gs "u1", password := gs "p1" })] },
         { newRktConfig with dockerCredentialsPerRegistry := [(gs "quay.io", { user := gs "u2", password := gs "p2" })] }]
        newRktConfig).dockerCredentialsPerRegistry =
      (([{ newRktConfig with dockerCredentialsPerRegistry := [(gs "quay.io", { user := gs "u1", password := gs "p1" })] },
          { newRktConfig with dockerCredentialsPerRegistry := [(gs "quay.io", { user := gs "u2", password := gs "p2" })] }] :
            List RktConfig).reverse.findSome?
          (fun sub => List.lookup (gs "quay.io") sub.dockerCredentialsPerRegistry)).or
        (List.lookup (gs "quay.io") newRktConfig.dockerCredentialsPerRegistry)) := by
  refine ⟨?_, ?_, ?_, ?_⟩
  · exact c6_auth_docker_merge.1 _ _ _ ⟨gs "coreos.com", by decide, by decide⟩
  · exact c6_auth_docker_merge.2.1 _ _ _ ⟨gs "quay.io", by decide, by decide⟩
  · exact c6_auth_docker_merge.2.2.1 _ _ _ (by decide)
  · exact c6_auth_docker_merge.2.2.2 _ _ _ (by decide)

/-- C7: in the stage1 merge, a later accumulator overrides name and
version only as a pair and location independently: the merged name and
version after appending accumulator `c` are those of the earlier merge
unless `c` sets a name, in which case both are taken from `c`; the
merged location is that of the earlier merge unless `c` sets one. -/
theorem c7_stage1_pair_and_location_frame (cs : List RktConfig) (c cfg : RktConfig) :
    ((stage1Propagate (cs ++ [c]) cfg).stage1.name =
        (if c.stage1.name = [] then (stage1Propagate cs cfg).stage1.name else c.stage1.name))
  ∧ ((stage1Propagate (cs ++ [c]) cfg).stage1.version =
        (if c.stage1.name = [] then (stage1Propagate cs cfg).stage1.version else c.stage1.version))
  ∧ ((stage1Propagate (cs ++ [c]) cfg).stage1.location =
        (if c.stage1.location = [] then (stage1Propagate cs cfg).stage1.location else c.stage1.location)) := by
  have h : stage1Propagate (cs ++ [c]) cfg =
      (let c2 :=
        if c.stage1.name ≠ [] then
          { stage1Propagate cs cfg with stage1 :=
            { (stage1Propagate cs cfg).stage1 with name := c.stage1.name, version := c.stage1.version } }
        else stage1Propagate cs cfg
      if c.stage1.location ≠ [] then
        { c2 with stage1 := { c2.stage1 with location := c.stage1.location } }
      else c2) := by
    simp [stage1Propagate, List.foldl_append]
  rw [h]
  by_cases hn : c.stage1.name = [] <;> by_cases hl : c.stage1.location = [] <;>
    simp [hn, hl]

/-- C1: in the dual-schema resolution, the current-schema tree is
walked over all roots first; if any current-schema parser's accumulator
was created, the final Config is produced solely from the
current-schema propagators and the result does not depend on the
legacy trees at all (the legacy tree is never walked); if no
current-schema accumulator was created, the legacy tree is walked and
the final Config is produced solely from the legacy propagators. -/
theorem c1_dual_schema_switch :
    (∀ roots newSts, rktWalkTree newRktDirectory (fun r => r.newTree) roots = .ok newSts →
       anyNewVisited newSts = true →
       (rktGetConfigFrom roots = .ok (rktPropagateAll newSts newRktConfig)
        ∧ ∀ roots2, roots2.map (fun r => (r.path, r.newTree)) = roots.map (fun r => (r.path, r.newTree)) →
            rktGetConfigFrom roots2 = rktGetConfigFrom roots))
  ∧ (∀ roots newSts, rktWalkTree newRktDirectory (fun r => r.newTree) roots = .ok newSts →
       anyNewVisited newSts = false →
       rktGetConfigFrom roots =
         (rktWalkTree oldRktDirectory (fun r => r.oldTree) roots).map
           (fun oldSts => rktPropagateAll oldSts newRktConfig)) := by
  have key : ∀ roots newSts, rktWalkTree newRktDirectory (fun r => r.newTree) roots = .ok newSts →
      anyNewVisited newSts = true → rktGetConfigFrom roots = .ok (rktPropagateAll newSts newRktConfig) := by
    intro roots newSts hw hv
    unfold rktGetConfigFrom rktWalkDirectories
    rw [hw]
    simp [hv]
  refine ⟨?_, ?_⟩
  · intro roots newSts hw hv
    refine ⟨key roots newSts hw hv, ?_⟩
    intro roots2 h2
    have hw2 : rktWalkTree newRktDirectory (fun r => r.newTree) roots2 = .ok newSts := by
      unfold rktWalkTree
      rw [h2]
      exact hw
    rw [key roots2 newSts hw2 hv, key roots newSts hw hv]
  · intro roots newSts hw hv
    unfold rktGetConfigFrom rktWalkDirectories
    rw [hw]
    simp only [hv]
    cases ho : rktWalkTree oldRktDirectory (fun r => r.oldTree) roots <;> simp [ho, Except.map]

/-- A current-schema dockerAuth file for the C1 witness. -/
def c1NewTree : RktTree :=
  [(gs "auth.d",
    [{ filename := gs "d.json", envelope := some (gs "dockerAuth", gs "v1"),
       payload := RktPayload.dockerAuth
         { registries := [gs "quay.io"],
           credentials := { user := gs "u", password := gs "p" } } }])]

/-- A legacy paths file for the C1 witness. -/
def c1OldTree : RktTree :=
  [(gs "paths.d",
    [{ filename := gs "p.json", envelope := some (gs "paths", gs "v1"),
       payload := RktPayload.paths { data := gs "/old/data" } }])]

/-- A root carrying both a current-schema and a legacy file. -/
def c1RootBoth : RktRoot := { path := gs "/etc/rkt", newTree := some c1NewTree, oldTree := some c1OldTree }

/-- The same root with its legacy tree removed. -/
def c1RootNewOnly : RktRoot := { path := gs "/etc/rkt", newTree := some c1NewTree, oldTree := none }

/-- A root carrying only a legacy file. -/
def c1RootOldOnly : RktRoot := { path := gs "/etc/rkt", newTree := none, oldTree := some c1OldTree }

/-- Witness for C1 at concrete inputs: with one root carrying a
dockerAuth file under stage0-cfg/auth.d and a conflicting legacy paths
file, the current-schema result is authoritative and unchanged when
the legacy tree is removed (the legacy data directory is ignored); and
with no current-schema file at all, the legacy paths file decides the
merged data directory. -/
theorem c1_dual_schema_switch_witness :
    rktGetConfigFrom [c1RootBoth] = rktGetConfigFrom [c1RootNewOnly]
  ∧ rktGetConfigFrom [c1RootBoth] =
      .ok { authPerHost := [],
            dockerCredentialsPerRegistry := [(gs "quay.io", { user := gs "u", password := gs "p" })],
            paths := { dataDir := [], stage1ImagesDir := [] },
            stage1 := { name := [], version := [], location := [] } }
  ∧ rktGetConfigFrom [c1RootOldOnly] =
      .ok { authPerHost := [],
            dockerCredentialsPerRegistry := [],
            paths := { dataDir := gs "/old/data", stage1ImagesDir := [] },
            stage1 := { name := [], version := [], location := [] } } := by
  refine ⟨?_, by decide, by decide⟩
  have h := ((c1_dual_schema_switch.1 [c1RootBoth]
      ((rktWalkTree newRktDirectory (fun r => r.newTree) [c1RootBoth]).toOption.get (by decide))
      (by decide) (by decide)).2 [c1RootNewOnly] (by decide))
  exact h.symm

/-- One root whose net.d holds two files declaring the same network
name "foo", the lexicographically smaller file carrying type "x" and
the greater one type "y". -/
def c3Root : NetRoot :=
  { path := gs "r",
    netd := some [
      { filename := gs "10-a.conf", content := some { name := gs "foo", typ := gs "x" } },
      { filename := gs "20-b.conf", content := some { name := gs "foo", typ := gs "y" } } ] }

/-- C3 counterexample: with two same-named legacy declarations in one
root, the surviving entry is the one from the lexicographically
SMALLER file path, not the greater one as the claim states: resolving
`c3Root` keeps the provider configuration of `10-a.conf` (type "x"),
whose rewritten path ends in `10-a-0.conf`, and drops `20-b.conf`
(type "y") even though `r/net.d/20-b.conf` sorts greater. -/
theorem c3_counterexample :
    goLt (gs "r/net.d/10-a.conf") (gs "r/net.d/20-b.conf") = true
  ∧ netGetConfigFrom [c3Root] =
      .ok ([{ confBytes := some { name := gs "foo", typ := gs "x" },
              conf := some { name := gs "foo", typ := gs "x" },
              runtime := { netName := gs "foo", confPath := gs "r/net.d/10-a-0.conf" } }],
           { networks := { byName := [(gs "foo", 0)], ordered := [0] } })
  ∧ ({ name := gs "foo", typ := gs "x" } : NetConf) ≠ { name := gs "foo", typ := gs "y" } := by
  refine ⟨by decide, by decide, by decide⟩

/-- C3 amended: in the legacy-schema network merge, when two
declarations in ONE root use the same network name, the surviving
entry is the one whose originating file path sorts lexicographically
SMALLER (a new file is ignored when the existing entry's path is below
it, and overwrites the entry otherwise); across roots, a later root's
declaration replaces an earlier root's entry unconditionally,
regardless of path order. -/
theorem c3_amended_within_root_smaller_wins_across_roots_later_wins :
    (∀ st pidx n addr, List.lookup n.name
        ((extendConfigs st.configs pidx.index).getD pidx.index newNetConfig).networks.byName = some addr →
      (goLt (heapRead st.heap addr).runtime.confPath pidx.filePath = true →
        oldConfParse st pidx (some n) = .ok { st with configs := extendConfigs st.configs pidx.index })
      ∧ (goLt (heapRead st.heap addr).runtime.confPath pidx.filePath = false →
        oldConfParse st pidx (some n) =
          .ok { heap := st.heap.set addr (getActiveNetOld (some n) n pidx.filePath),
                configs := extendConfigs st.configs pidx.index }))
  ∧ (∀ heap nets name subAddr addr, List.lookup name nets.byName = some addr →
      oldMergeStep heap nets (name, subAddr) = (heap.set addr (heapRead heap subAddr), nets)) := by
  constructor
  · intro st pidx n addr hlook
    constructor
    · intro hgo
      simp only [oldConfParse, hlook, hgo]
      simp
    · intro hgo
      simp only [oldConfParse, hlook, hgo]
      simp
  · intro heap nets name subAddr addr hlook
    simp only [oldMergeStep, hlook]

/-- Witness for the amended C3 at concrete inputs: an existing entry
for "foo" from `10-a.conf` survives a later `20-b.conf` in the same
root, and a cross-root merge step overwrites an existing entry. -/
theorem c3_amended_witness :
    (oldConfParse
        { heap := [getActiveNetOld (some { name := gs "foo", typ := gs "x" })
            { name := gs "foo", typ := gs "x" } (gs "r/net.d/10-a.conf")],
          configs := [{ networks := { byName := [(gs "foo", 0)], ordered := [0] } }] }
        { index := 0, path := gs "r", subdirectory := gs "net.d", filename := gs "20-b.conf" }
        (some { name := gs "foo", typ := gs "y" }) =
      .ok { heap := [getActiveNetOld (some { name := gs "foo", typ := gs "x" })
              { name := gs "foo", typ := gs "x" } (gs "r/net.d/10-a.conf")],
            configs := [{ networks := { byName := [(gs "foo", 0)], ordered := [0] } }] })
  ∧ (oldMergeStep [anDefault, getActiveNetOld (some { name := gs "foo", typ := gs "y" })
        { name := gs "foo", typ := gs "y" } (gs "l/net.d/05-c.conf")]
      { byName := [(gs "foo", 0)], ordered := [0] } (gs "foo", 1) =
      ([getActiveNetOld (some { name := gs "foo", typ := gs "y" })
          { name := gs "foo", typ := gs "y" } (gs "l/net.d/05-c.conf"),
        getActiveNetOld (some { name := gs "foo", typ := gs "y" })
          { name := gs "foo", typ := gs "y" } (gs "l/net.d/05-c.conf")],
       { byName := [(gs "foo", 0)], ordered := [0] })) := by
  constructor
  · have h := (c3_amended_within_root_smaller_wins_across_roots_later_wins.1
      { heap := [getActiveNetOld (some { name := gs "foo", typ := gs "x" })
          { name := gs "foo", typ := gs "x" } (gs "r/net.d/10-a.conf")],
        configs := [{ networks := { byName := [(gs "foo", 0)], ordered := [0] } }] }
      { index := 0, path := gs "r", subdirectory := gs "net.d", filename := gs "20-b.conf" }
      { name := gs "foo", typ := gs "y" } 0 (by decide)).1 (by decide)
    rw [h]
    rfl
  · have h := c3_amended_within_root_smaller_wins_across_roots_later_wins.2
      [anDefault, getActiveNetOld (some { name := gs "foo", typ := gs "y" })
        { name := gs "foo", typ := gs "y" } (gs "l/net.d/05-c.conf")]
      { byName := [(gs "foo", 0)], ordered := [0] } (gs "foo") 1 0 (by decide)
    rw [h]
    rfl

/-- A passing validateNetworkV1 forces a present in-range priority and
a non-empty name. -/
theorem validateNetworkV1_none {network : NetworkV1} {path : GoStr}
    (h : validateNetworkV1 network path = none) :
    (∃ p, network.priority = some p ∧ 0 ≤ p ∧ p ≤ 99) ∧ network.name ≠ [] := by
  rcases hp : network.priority with _ | p
  · simp [validateNetworkV1, hp] at h
  · unfold validateNetworkV1 at h
    rw [hp] at h
    by_cases hr : p < 0 ∨ p > 99
    · simp [hr] at h
    · by_cases hn : network.name = []
      · simp [hr, hn] at h
      · refine ⟨⟨p, rfl, ?_, ?_⟩, hn⟩ <;> omega

/-- C9: a network-v1 file is accepted only if its priority is present
and in [0,99] and its name is non-empty and not yet declared in the
same root's accumulator; a missing or out-of-range priority (such as
100 or -1), an empty name, or an already-declared name each make
parsing fail, and through the walker's wrapping the error names the
file (the duplicate-name error itself names the root's configuration
directory). -/
theorem c9_network_v1_acceptance :
    (∀ st pidx network st2, networkV1Parse st pidx network = .ok st2 →
       ((∃ p, network.priority = some p ∧ 0 ≤ p ∧ p ≤ 99) ∧ network.name ≠ [] ∧
        List.lookup network.name
          ((extendConfigs st.configs pidx.index).getD pidx.index newNetConfig).networks.byName = none))
  ∧ (∀ st pidx network, network.priority = none →
       networkV1ParseWrapped st pidx network =
         .error (.failedToParse pidx.filePath (.missingPriority pidx.filePath)))
  ∧ (∀ st pidx network p, network.priority = some p → (p < 0 ∨ p > 99) →
       networkV1ParseWrapped st pidx network =
         .error (.failedToParse pidx.filePath (.invalidPriority pidx.filePath p)))
  ∧ (∀ st pidx network p, network.priority = some p → 0 ≤ p → p ≤ 99 → network.name = [] →
       networkV1ParseWrapped st pidx network =
         .error (.failedToParse pidx.filePath (.missingName pidx.filePath)))
  ∧ (∀ st pidx network, validateNetworkV1 network pidx.filePath = none →
       (List.lookup network.name
          ((extendConfigs st.configs pidx.index).getD pidx.index newNetConfig).networks.byName).isSome = true →
       networkV1ParseWrapped st pidx network =
         .error (.failedToParse pidx.filePath (.alreadyDefined network.name pidx.path)))
  ∧ (∀ fp e, NetErr.namesPath (.failedToParse fp e) fp = true) := by
  refine ⟨?_, ?_, ?_, ?_, ?_, ?_⟩
  · intro st pidx network st2 h
    rcases hv : validateNetworkV1 network pidx.filePath with _ | e
    · simp only [networkV1Parse, hv] at h
      obtain ⟨⟨p, hp, h0, h99⟩, hn⟩ := validateNetworkV1_none hv
      refine ⟨⟨p, hp, h0, h99⟩, hn, ?_⟩
      by_cases hl : (List.lookup network.name
          ((extendConfigs st.configs pidx.index).getD pidx.index newNetConfig).networks.byName).isSome = true
      · rw [if_pos hl] at h
        exact absurd h (by simp)
      · rcases ho : List.lookup network.name
            ((extendConfigs st.configs pidx.index).getD pidx.index newNetConfig).networks.byName with _ | a
        · rfl
        · exact absurd (Option.isSome_iff_exists.mpr ⟨a, ho⟩) hl
    · simp only [networkV1Parse, hv] at h
      exact absurd h (by simp)
  · intro st pidx network hp
    simp [networkV1ParseWrapped, networkV1Parse, validateNetworkV1, hp]
  · intro st pidx network p hp hr
    simp [networkV1ParseWrapped, networkV1Parse, validateNetworkV1, hp, hr]
  · intro st pidx network p hp h0 h99 hn
    have hr : ¬ (p < 0 ∨ p > 99) := by omega
    simp [networkV1ParseWrapped, networkV1Parse, validateNetworkV1, hp, hr, hn]
  · intro st pidx network hv hl
    simp only [List.getD_eq_getElem?_getD] at hl
    simp [networkV1ParseWrapped, networkV1Parse, hv, hl]
  · intro fp e
    simp [NetErr.namesPath]

/-- Witness for C9 at concrete inputs: priority 100, priority -1, a
missing priority, an empty name, and a duplicate name each fail. -/
theorem c9_network_v1_acceptance_witness :
    (networkV1ParseWrapped initNetParserState
        { index := 0, path := gs "/x", subdirectory := gs "net.d", filename := gs "10-net.json" }
        { priority := some 100, name := gs "default", cniConf := none } =
      .error (.failedToParse (gs "/x/net.d/10-net.json") (.invalidPriority (gs "/x/net.d/10-net.json") 100)))
  ∧ (networkV1ParseWrapped initNetParserState
        { index := 0, path := gs "/x", subdirectory := gs "net.d", filename := gs "10-net.json" }
        { priority := some (-1), name := gs "default", cniConf := none } =
      .error (.failedToParse (gs "/x/net.d/10-net.json") (.invalidPriority (gs "/x/net.d/10-net.json") (-1))))
  ∧ (networkV1ParseWrapped initNetParserState
        { index := 0, path := gs "/x", subdirectory := gs "net.d", filename := gs "10-net.json" }
        { priority := none, name := gs "default", cniConf := none } =
      .error (.failedToParse (gs "/x/net.d/10-net.json") (.missingPriority (gs "/x/net.d/10-net.json"))))
  ∧ (networkV1ParseWrapped initNetParserState
        { index := 0, path := gs "/x", subdirectory := gs "net.d", filename := gs "10-net.json" }
        { priority := some 5, name := [], cniConf := none } =
      .error (.failedToParse (gs "/x/net.d/10-net.json") (.missingName (gs "/x/net.d/10-net.json"))))
  ∧ (networkV1ParseWrapped
        { heap := [anDefault],
          configs := [{ networks := { byName := [(gs "default", 0)], ordered := [0] } }] }
        { index := 0, path := gs "/x", subdirectory := gs "net.d", filename := gs "10-net.json" }
        { priority := some 5, name := gs "default", cniConf := none } =
      .error (.failedToParse (gs "/x/net.d/10-net.json") (.alreadyDefined (gs "default") (gs "/x")))) := by
  refine ⟨?_, ?_, ?_, ?_, ?_⟩
  · have h := c9_network_v1_acceptance.2.2.1 initNetParserState
      { index := 0, path := gs "/x", subdirectory := gs "net.d", filename := gs "10-net.json" }
      { priority := some 100, name := gs "default", cniConf := none } 100 rfl (by decide)
    rw [h]
    have : PathIndex.filePath { index := 0, path := gs "/x", subdirectory := gs "net.d", filename := gs "10-net.json" } = gs "/x/net.d/10-net.json" := by decide
    rw [this]
  · have h := c9_network_v1_acceptance.2.2.1 initNetParserState
      { index := 0, path := gs "/x", subdirectory := gs "net.d", filename := gs "10-net.json" }
      { priority := some (-1), name := gs "default", cniConf := none } (-1) rfl (by decide)
    rw [h]
    have : PathIndex.filePath { index := 0, path := gs "/x", subdirectory := gs "net.d", filename := gs "10-net.json" } = gs "/x/net.d/10-net.json" := by decide
    rw [this]
  · have h := c9_network_v1_acceptance.2.1 initNetParserState
      { index := 0, path := gs "/x", subdirectory := gs "net.d", filename := gs "10-net.json" }
      { priority := none, name := gs "default", cniConf := none } rfl
    rw [h]
    have : PathIndex.filePath { index := 0, path := gs "/x", subdirectory := gs "net.d", filename := gs "10-net.json" } = gs "/x/net.d/10-net.json" := by decide
    rw [this]
  · have h := c9_network_v1_acceptance.2.2.2.1 initNetParserState
      { index := 0, path := gs "/x", subdirectory := gs "net.d", filename := gs "10-net.json" }
      { priority := some 5, name := [], cniConf := none } 5 rfl (by decide) (by decide) rfl
    rw [h]
    have : PathIndex.filePath { index := 0, path := gs "/x", subdirectory := gs "net.d", filename := gs "10-net.json" } = gs "/x/net.d/10-net.json" := by decide
    rw [this]
  · have h := c9_network_v1_acceptance.2.2.2.2.1
      { heap := [anDefault],
        configs := [{ networks := { byName := [(gs "default", 0)], ordered := [0] } }] }
      { index := 0, path := gs "/x", subdirectory := gs "net.d", filename := gs "10-net.json" }
      { priority := some 5, name := gs "default", cniConf := none } (by decide) (by decide)
    rw [h]
    have : PathIndex.filePath { index := 0, path := gs "/x", subdirectory := gs "net.d", filename := gs "10-net.json" } = gs "/x/net.d/10-net.json" := by decide
    rw [this]

/-! ### C5: the byName/ordered consistency invariant -/

/-- Consistency of a `Networks` record with the heap: the name map's
keys are unique; every binding's address is in the ordered list, in
heap bounds, and its object carries the binding's name; and every
ordered address is reachable from the map. -/
def netsWF (heap : List ActiveNet) (nets : Networks) : Prop :=
  (nets.byName.map Prod.fst).Nodup
  ∧ (∀ p ∈ nets.byName, p.2 ∈ nets.ordered ∧ p.2 < heap.length ∧
      (heapRead heap p.2).runtime.netName = p.1)
  ∧ (∀ a ∈ nets.ordered, ∃ n, (n, a) ∈ nets.byName)

/-- The parser-state invariant: every per-root accumulator is
consistent with the heap, and distinct accumulators never share an
`ActiveNet` object. -/
def stateWF (st : NetParserState) : Prop :=
  (∀ i, netsWF st.heap ((st.configs.getD i newNetConfig).networks))
  ∧ (∀ i j, i ≠ j → ∀ a, a ∈ (st.configs.getD i newNetConfig).networks.ordered →
      a ∉ (st.configs.getD j newNetConfig).networks.ordered)

/-- Merge-loop invariant for a pending accumulator entry: in heap
bounds, naming its object, and not yet in the merge target's ordered
list. -/
def entryOK (heap : List ActiveNet) (nets : Networks) (q : GoStr × Addr) : Prop :=
  q.2 < heap.length ∧ (heapRead heap q.2).runtime.netName = q.1 ∧ q.2 ∉ nets.ordered

/-- The empty networks record is consistent with any heap. -/
theorem netsWF_nil (heap : List ActiveNet) : netsWF heap { byName := [], ordered := [] } := by
  refine ⟨by simp, ?_, ?_⟩
  · intro p hp
    exact absurd hp (List.not_mem_nil _)
  · intro a ha
    exact absurd ha (List.not_mem_nil _)

/-- Consistency survives allocating a fresh heap cell. -/
theorem netsWF_append (heap : List ActiveNet) (x : ActiveNet) (nets : Networks)
    (h : netsWF heap nets) : netsWF (heap ++ [x]) nets := by
  obtain ⟨h1, h2, h3⟩ := h
  refine ⟨h1, ?_, h3⟩
  intro p hp
  obtain ⟨ha, hb, hc⟩ := h2 p hp
  refine ⟨ha, ?_, ?_⟩
  · rw [List.length_append]
    exact Nat.lt_add_right _ hb
  · rw [heapRead_append_lt _ _ _ hb]
    exact hc

/-- Under consistency every ordered address is in heap bounds. -/
theorem netsWF_ordered_lt (heap : List ActiveNet) (nets : Networks) (h : netsWF heap nets)
    (a : Addr) (ha : a ∈ nets.ordered) : a < heap.length := by
  obtain ⟨n, hn⟩ := h.2.2 a ha
  exact (h.2.1 _ hn).2.1

/-- Under consistency the name map binds pairwise distinct addresses. -/
theorem netsWF_addr_pairwise (heap : List ActiveNet) (nets : Networks)
    (h : netsWF heap nets) : nets.byName.Pairwise (fun p q => p.2 ≠ q.2) := by
  have hkey : nets.byName.Pairwise (fun p q => p.1 ≠ q.1) := by
    have hnd := h.1
    rw [List.Nodup, List.pairwise_map] at hnd
    exact hnd
  refine hkey.imp_of_mem ?_
  intro p q hp hq hne heq
  apply hne
  have hp2 := (h.2.1 p hp).2.2
  have hq2 := (h.2.1 q hq).2.2
  rw [← hp2, ← hq2, heq]

/-- Growing the accumulator list does not change any indexed read. -/
theorem getD_extendConfigs (cs : List NetConfig) (idx j : Nat) :
    (extendConfigs cs idx).getD j newNetConfig = cs.getD j newNetConfig := by
  unfold extendConfigs
  by_cases hj : j < cs.length
  · rw [List.getD_append _ _ _ _ hj]
  · rw [List.getD_eq_getElem?_getD, List.getElem?_append_right (Nat.le_of_not_lt hj),
      List.getElem?_replicate]
    rw [List.getD_eq_getElem?_getD, List.getElem?_eq_none (Nat.le_of_not_lt hj)]
    split <;> rfl

/-- The grown accumulator list covers the requested index. -/
theorem extendConfigs_len (cs : List NetConfig) (idx : Nat) :
    idx < (extendConfigs cs idx).length := by
  unfold extendConfigs
  simp only [List.length_append, List.length_replicate]
  omega

/-- Reading the accumulator just written. -/
theorem getD_configs_set_self (cs : List NetConfig) (i : Nat) (c : NetConfig)
    (hi : i < cs.length) : (cs.set i c).getD i newNetConfig = c := by
  rw [List.getD_eq_getElem?_getD, List.getElem?_set]
  simp [hi]

/-- Reading another accumulator after a write. -/
theorem getD_configs_set_ne (cs : List NetConfig) (i j : Nat) (c : NetConfig)
    (hij : i ≠ j) : (cs.set i c).getD j newNetConfig = cs.getD j newNetConfig := by
  rw [List.getD_eq_getElem?_getD, List.getElem?_set_ne hij, List.getD_eq_getElem?_getD]

/-- Writing, at an address bound in the map, an object named by that
binding's key preserves consistency. -/
theorem netsWF_set (heap : List ActiveNet) (nets : Networks) (addr : Addr) (x : ActiveNet)
    (hWF : netsWF heap nets) (name : GoStr)
    (hlk : List.lookup name nets.byName = some addr)
    (hx : x.runtime.netName = name) :
    netsWF (heap.set addr x) nets := by
  obtain ⟨h1, h2, h3⟩ := hWF
  have hmem : (name, addr) ∈ nets.byName := lookup_some_mem hlk
  obtain ⟨hard, hbnd, hnm⟩ := h2 (name, addr) hmem
  refine ⟨h1, ?_, h3⟩
  intro p hp
  obtain ⟨ha, hb, hc⟩ := h2 p hp
  refine ⟨ha, by simpa using hb, ?_⟩
  by_cases hpa : p.2 = addr
  · have hkey : name = p.1 := by
      rw [← hc, hpa, hnm]
    rw [hpa, heapRead_set_self _ _ _ hbnd, hx, hkey]
  · rw [heapRead_set_ne _ _ _ _ (fun he => hpa he.symm)]
    exact hc

/-- Writing at an address outside the ordered list preserves
consistency. -/
theorem netsWF_set_outside (heap : List ActiveNet) (nets : Networks) (addr : Addr)
    (x : ActiveNet) (h : netsWF heap nets) (hout : addr ∉ nets.ordered) :
    netsWF (heap.set addr x) nets := by
  obtain ⟨h1, h2, h3⟩ := h
  refine ⟨h1, ?_, h3⟩
  intro p hp
  obtain ⟨ha, hb, hc⟩ := h2 p hp
  refine ⟨ha, by simpa using hb, ?_⟩
  have hne : addr ≠ p.2 := fun he => hout (he ▸ ha)
  rw [heapRead_set_ne _ _ _ _ hne]
  exact hc

/-- A heap write at an address in the merge target's ordered list
leaves every pending entry's invariant intact. -/
theorem entryOK_set (heap : List ActiveNet) (nets : Networks) (addr : Addr) (x : ActiveNet)
    (haddr : addr ∈ nets.ordered) (q : GoStr × Addr) (hq : entryOK heap nets q) :
    entryOK (heap.set addr x) nets q := by
  obtain ⟨h1, h2, h3⟩ := hq
  have hne : addr ≠ q.2 := fun he => h3 (he ▸ haddr)
  refine ⟨by simpa using h1, ?_, h3⟩
  rw [heapRead_set_ne _ _ _ _ hne]
  exact h2

/-- Appending a fresh binding for a pending entry preserves
consistency. -/
theorem netsWF_insert (heap : List ActiveNet) (nets : Networks) (e : GoStr × Addr)
    (hWF : netsWF heap nets) (he : entryOK heap nets e)
    (hlk : List.lookup e.1 nets.byName = none) :
    netsWF heap { byName := nets.byName ++ [(e.1, e.2)], ordered := nets.ordered ++ [e.2] } := by
  obtain ⟨h1, h2, h3⟩ := hWF
  obtain ⟨he1, he2, he3⟩ := he
  have hfresh : e.1 ∉ nets.byName.map Prod.fst := not_mem_keys_of_lookup_eq_none hlk
  refine ⟨?_, ?_, ?_⟩
  · rw [List.map_append, List.nodup_append]
    refine ⟨h1, by simp, ?_⟩
    intro a ha hb
    simp only [List.map_cons, List.map_nil, List.mem_singleton] at hb
    rw [hb] at ha
    exact hfresh ha
  · intro p hp
    rcases List.mem_append.mp hp with hpl | hpr
    · obtain ⟨ha, hb, hc⟩ := h2 p hpl
      exact ⟨List.mem_append_left _ ha, hb, hc⟩
    · have hpe : p = (e.1, e.2) := by simpa using hpr
      subst hpe
      exact ⟨List.mem_append_right _ (by simp), he1, he2⟩
  · intro a ha
    rcases List.mem_append.mp ha with hal | har
    · obtain ⟨n, hn⟩ := h3 a hal
      exact ⟨n, List.mem_append_left _ hn⟩
    · have hae : a = e.2 := by simpa using har
      subst hae
      exact ⟨e.1, List.mem_append_right _ (by simp)⟩

/-- Pending entries at other addresses keep their invariant across an
insertion. -/
theorem entryOK_insert (heap : List ActiveNet) (nets : Networks) (e q : GoStr × Addr)
    (hq : entryOK heap nets q) (hne : q.2 ≠ e.2) :
    entryOK heap
      { byName := nets.byName ++ [(e.1, e.2)], ordered := nets.ordered ++ [e.2] } q := by
  obtain ⟨h1, h2, h3⟩ := hq
  refine ⟨h1, h2, ?_⟩
  intro hmem
  rcases List.mem_append.mp hmem with h | h
  · exact h3 h
  · exact hne (by simpa using h)

/-- One step of the current-schema merge preserves consistency and
every other pending entry's invariant. -/
theorem netMergeStep_WF (heap : List ActiveNet) (nets : Networks) (e : GoStr × Addr)
    (hWF : netsWF heap nets) (he : entryOK heap nets e) :
    netsWF (netMergeStep heap nets e).1 (netMergeStep heap nets e).2
    ∧ ∀ q, entryOK heap nets q → q.2 ≠ e.2 →
        entryOK (netMergeStep heap nets e).1 (netMergeStep heap nets e).2 q := by
  cases hlk : List.lookup e.1 nets.byName with
  | none =>
    have heq : netMergeStep heap nets e =
        (heap, { byName := nets.byName ++ [(e.1, e.2)], ordered := nets.ordered ++ [e.2] }) := by
      simp only [netMergeStep, hlk]
    rw [heq]
    exact ⟨netsWF_insert heap nets e hWF he hlk,
      fun q hq hne => entryOK_insert heap nets e q hq hne⟩
  | some addr =>
    have haddr : addr ∈ nets.ordered := (hWF.2.1 _ (lookup_some_mem hlk)).1
    by_cases hc : (heapRead heap e.2).conf.isSome
    · have heq : netMergeStep heap nets e = (heap.set addr (heapRead heap e.2), nets) := by
        simp only [netMergeStep, hlk, hc, if_true]
      rw [heq]
      exact ⟨netsWF_set heap nets addr _ hWF e.1 hlk he.2.1,
        fun q hq _ => entryOK_set heap nets addr _ haddr q hq⟩
    · have hn : (heapRead heap e.2).conf = none := Option.not_isSome_iff_eq_none.mp hc
      have heq : netMergeStep heap nets e =
          (heap.set addr { heapRead heap addr with runtime := (heapRead heap e.2).runtime },
           nets) := by
        simp only [netMergeStep, hlk, hn]
        simp
      rw [heq]
      exact ⟨netsWF_set heap nets addr _ hWF e.1 hlk he.2.1,
        fun q hq _ => entryOK_set heap nets addr _ haddr q hq⟩

/-- One step of the legacy merge preserves consistency and every other
pending entry's invariant. -/
theorem oldMergeStep_WF (heap : List ActiveNet) (nets : Networks) (e : GoStr × Addr)
    (hWF : netsWF heap nets) (he : entryOK heap nets e) :
    netsWF (oldMergeStep heap nets e).1 (oldMergeStep heap nets e).2
    ∧ ∀ q, entryOK heap nets q → q.2 ≠ e.2 →
        entryOK (oldMergeStep heap nets e).1 (oldMergeStep heap nets e).2 q := by
  cases hlk : List.lookup e.1 nets.byName with
  | none =>
    have heq : oldMergeStep heap nets e =
        (heap, { byName := nets.byName ++ [(e.1, e.2)], ordered := nets.ordered ++ [e.2] }) := by
      simp only [oldMergeStep, hlk]
    rw [heq]
    exact ⟨netsWF_insert heap nets e hWF he hlk,
      fun q hq hne => entryOK_insert heap nets e q hq hne⟩
  | some addr =>
    have haddr : addr ∈ nets.ordered := (hWF.2.1 _ (lookup_some_mem hlk)).1
    have heq : oldMergeStep heap nets e = (heap.set addr (heapRead heap e.2), nets) := by
      simp only [oldMergeStep, hlk]
    rw [heq]
    exact ⟨netsWF_set heap nets addr _ hWF e.1 hlk he.2.1,
      fun q hq _ => entryOK_set heap nets addr _ haddr q hq⟩

/-- Folding a merge step over pairwise-distinct pending entries
preserves consistency, provided each step does. -/
theorem mergeFold_WF
    (step : List ActiveNet × Networks → (GoStr × Addr) → List ActiveNet × Networks)
    (hstep : ∀ heap nets e, netsWF heap nets → entryOK heap nets e →
      netsWF (step (heap, nets) e).1 (step (heap, nets) e).2
      ∧ ∀ q, entryOK heap nets q → q.2 ≠ e.2 →
          entryOK (step (heap, nets) e).1 (step (heap, nets) e).2 q) :
    ∀ (entries : List (GoStr × Addr)) (heap : List ActiveNet) (nets : Networks),
      netsWF heap nets →
      (∀ q ∈ entries, entryOK heap nets q) →
      entries.Pairwise (fun q1 q2 => q1.2 ≠ q2.2) →
      netsWF (entries.foldl step (heap, nets)).1 (entries.foldl step (heap, nets)).2 := by
  intro entries
  induction entries with
  | nil =>
    intro heap nets hWF _ _
    exact hWF
  | cons e rest ih =>
    intro heap nets hWF hq hpw
    rw [List.foldl_cons]
    have hpw2 := List.pairwise_cons.mp hpw
    have h1 := hstep heap nets e hWF (hq e (List.mem_cons_self _ _))
    have hrest : ∀ q ∈ rest, entryOK (step (heap, nets) e).1 (step (heap, nets) e).2 q :=
      fun q hqr => h1.2 q (hq q (List.mem_cons_of_mem _ hqr)) (Ne.symm (hpw2.1 q hqr))
    exact ih (step (heap, nets) e).1 (step (heap, nets) e).2 h1.1 hrest hpw2.2

/-- The double merge loop is a single fold over the concatenation of
the per-root name maps. -/
theorem nested_fold_eq_flat {σ : Type}
    (step : σ → (GoStr × Addr) → σ) (init : σ) (configs : List NetConfig) :
    configs.foldl (fun acc sub => sub.networks.byName.foldl step acc) init =
      (configs.map (fun s => s.networks.byName)).flatten.foldl step init := by
  rw [List.foldl_flatten, List.foldl_map]

/-- In a well-formed state the concatenated per-root name maps bind
pairwise distinct addresses, all in bounds and naming their objects. -/
theorem stateWF_flat_entries (st : NetParserState) (hWF : stateWF st) :
    (∀ q ∈ (st.configs.map (fun s => s.networks.byName)).flatten,
       q.2 < st.heap.length ∧ (heapRead st.heap q.2).runtime.netName = q.1)
    ∧ (st.configs.map (fun s => s.networks.byName)).flatten.Pairwise
        (fun q1 q2 => q1.2 ≠ q2.2) := by
  constructor
  · intro q hq
    rw [List.mem_flatten] at hq
    obtain ⟨l, hl, hql⟩ := hq
    rw [List.mem_map] at hl
    obtain ⟨s, hs, hsl⟩ := hl
    obtain ⟨i, hi, hsi⟩ := List.mem_iff_getElem.mp hs
    have hgd : st.configs.getD i newNetConfig = s := by
      rw [List.getD_eq_getElem _ _ hi]
      exact hsi
    have hwf := hWF.1 i
    rw [hgd] at hwf
    rw [← hsl] at hql
    exact ⟨(hwf.2.1 q hql).2.1, (hwf.2.1 q hql).2.2⟩
  · rw [List.pairwise_flatten]
    constructor
    · intro l hl
      rw [List.mem_map] at hl
      obtain ⟨s, hs, hsl⟩ := hl
      obtain ⟨i, hi, hsi⟩ := List.mem_iff_getElem.mp hs
      have hgd : st.configs.getD i newNetConfig = s := by
        rw [List.getD_eq_getElem _ _ hi]
        exact hsi
      have hwf := hWF.1 i
      rw [hgd] at hwf
      rw [← hsl]
      exact netsWF_addr_pairwise _ _ hwf
    · rw [List.pairwise_map, List.pairwise_iff_getElem]
      intro i j hi hj hij
      intro x hx y hy
      have hgi : st.configs.getD i newNetConfig = st.configs[i] :=
        List.getD_eq_getElem _ _ hi
      have hgj : st.configs.getD j newNetConfig = st.configs[j] :=
        List.getD_eq_getElem _ _ hj
      have hwi := hWF.1 i
      rw [hgi] at hwi
      have hwj := hWF.1 j
      rw [hgj] at hwj
      have hxo := (hwi.2.1 x hx).1
      have hyo := (hwj.2.1 y hy).1
      have hdisj := hWF.2 i j (Nat.ne_of_lt hij) x.2
      rw [hgi, hgj] at hdisj
      exact fun he => (hdisj hxo) (he ▸ hyo)

/-- The initial parser state is well formed. -/
theorem stateWF_init : stateWF initNetParserState := by
  constructor
  · intro i
    have hg : (initNetParserState.configs.getD i newNetConfig) = newNetConfig := by
      simp [initNetParserState]
    rw [hg]
    exact netsWF_nil _
  · intro i j _ a ha
    have hg : (initNetParserState.configs.getD i newNetConfig) = newNetConfig := by
      simp [initNetParserState]
    rw [hg] at ha
    exact absurd ha (List.not_mem_nil _)

/-- Growing the accumulator list preserves the state invariant. -/
theorem stateWF_extend (st : NetParserState) (idx : Nat) (hWF : stateWF st) :
    stateWF { heap := st.heap, configs := extendConfigs st.configs idx } := by
  constructor
  · intro i
    show netsWF st.heap (((extendConfigs st.configs idx).getD i newNetConfig).networks)
    rw [getD_extendConfigs]
    exact hWF.1 i
  · intro i j hij a
    show a ∈ ((extendConfigs st.configs idx).getD i newNetConfig).networks.ordered →
      a ∉ ((extendConfigs st.configs idx).getD j newNetConfig).networks.ordered
    rw [getD_extendConfigs, getD_extendConfigs]
    exact hWF.2 i j hij a

/-- Allocating a fresh object under a fresh name in one accumulator
preserves the state invariant. -/
theorem stateWF_alloc (st : NetParserState) (idx : Nat) (name : GoStr) (an : ActiveNet)
    (hWF : stateWF st) (hname : an.runtime.netName = name)
    (hlk : List.lookup name ((st.configs.getD idx newNetConfig).networks.byName) = none) :
    stateWF { heap := st.heap ++ [an],
              configs := (extendConfigs st.configs idx).set idx
                { networks :=
                  { byName := (st.configs.getD idx newNetConfig).networks.byName
                      ++ [(name, st.heap.length)],
                    ordered := (st.configs.getD idx newNetConfig).networks.ordered
                      ++ [st.heap.length] } } } := by
  have hidx : idx < (extendConfigs st.configs idx).length := extendConfigs_len st.configs idx
  constructor
  · intro i
    show netsWF (st.heap ++ [an]) _
    by_cases hi : i = idx
    · subst hi
      rw [getD_configs_set_self _ _ _ hidx]
      have hbase : netsWF (st.heap ++ [an]) (st.configs.getD i newNetConfig).networks :=
        netsWF_append _ _ _ (hWF.1 i)
      have hent : entryOK (st.heap ++ [an]) (st.configs.getD i newNetConfig).networks
          (name, st.heap.length) := by
        refine ⟨by simp, ?_, ?_⟩
        · rw [heapRead_append_self]
          exact hname
        · intro hmem
          exact absurd (netsWF_ordered_lt _ _ (hWF.1 i) _ hmem) (lt_irrefl _)
      exact netsWF_insert _ _ (name, st.heap.length) hbase hent hlk
    · rw [getD_configs_set_ne _ _ _ _ (fun he => hi he.symm), getD_extendConfigs]
      exact netsWF_append _ _ _ (hWF.1 i)
  · intro i j hij a ha
    by_cases hi : i = idx <;> by_cases hj : j = idx
    · exact absurd (hi.trans hj.symm) hij
    · subst hi
      rw [getD_configs_set_self _ _ _ hidx] at ha
      show a ∉ (((extendConfigs st.configs i).set i _).getD j newNetConfig).networks.ordered
      rw [getD_configs_set_ne _ _ _ _ (fun he => hj he.symm), getD_extendConfigs]
      rcases List.mem_append.mp ha with h1 | h1
      · exact hWF.2 i j hij a h1
      · have haeq : a = st.heap.length := by simpa using h1
        subst haeq
        intro hmem
        exact absurd (netsWF_ordered_lt _ _ (hWF.1 j) _ hmem) (lt_irrefl _)
    · subst hj
      have ha2 : a ∈ (st.configs.getD i newNetConfig).networks.ordered := by
        rw [getD_configs_set_ne _ _ _ _ (fun he => hi he.symm), getD_extendConfigs] at ha
        exact ha
      rw [getD_configs_set_self _ _ _ hidx]
      intro hmem
      rcases List.mem_append.mp hmem with h1 | h1
      · exact hWF.2 i j hij a ha2 h1
      · have haeq : a = st.heap.length := by simpa using h1
        rw [haeq] at ha2
        exact absurd (netsWF_ordered_lt _ _ (hWF.1 i) _ ha2) (lt_irrefl _)
    · have ha2 : a ∈ (st.configs.getD i newNetConfig).networks.ordered := by
        rw [getD_configs_set_ne _ _ _ _ (fun he => hi he.symm), getD_extendConfigs] at ha
        exact ha
      show a ∉ (((extendConfigs st.configs idx).set idx _).getD j newNetConfig).networks.ordered
      rw [getD_configs_set_ne _ _ _ _ (fun he => hj he.symm), getD_extendConfigs]
      exact hWF.2 i j hij a ha2

/-- Overwriting, through the map, the object bound to a name in one
accumulator preserves the state invariant. -/
theorem stateWF_overwrite (st : NetParserState) (idx : Nat) (name : GoStr) (addr : Addr)
    (x : ActiveNet) (hWF : stateWF st) (hname : x.runtime.netName = name)
    (hlk : List.lookup name ((st.configs.getD idx newNetConfig).networks.byName)
      = some addr) :
    stateWF { heap := st.heap.set addr x, configs := extendConfigs st.configs idx } := by
  have haddr : addr ∈ (st.configs.getD idx newNetConfig).networks.ordered :=
    ((hWF.1 idx).2.1 _ (lookup_some_mem hlk)).1
  constructor
  · intro i
    show netsWF (st.heap.set addr x) (((extendConfigs st.configs idx).getD i
      newNetConfig).networks)
    rw [getD_extendConfigs]
    by_cases hi : i = idx
    · subst hi
      exact netsWF_set st.heap _ addr x (hWF.1 i) name hlk hname
    · exact netsWF_set_outside st.heap _ addr x (hWF.1 i)
        (hWF.2 idx i (fun he => hi he.symm) addr haddr)
  · intro i j hij a
    show a ∈ ((extendConfigs st.configs idx).getD i newNetConfig).networks.ordered →
      a ∉ ((extendConfigs st.configs idx).getD j newNetConfig).networks.ordered
    rw [getD_extendConfigs, getD_extendConfigs]
    exact hWF.2 i j hij a

/-- networkV1JSONParser.Parse preserves the parser-state invariant. -/
theorem networkV1Parse_stateWF (st : NetParserState) (pidx : PathIndex) (network : NetworkV1)
    (st2 : NetParserState) (hWF : stateWF st)
    (hok : networkV1Parse st pidx network = .ok st2) : stateWF st2 := by
  simp only [networkV1Parse] at hok
  cases hv : validateNetworkV1 network pidx.filePath with
  | some e =>
    simp only [hv] at hok
    exact absurd hok (by simp)
  | none =>
    simp only [hv] at hok
    by_cases hl : (List.lookup network.name
        ((extendConfigs st.configs pidx.index).getD pidx.index
          newNetConfig).networks.byName).isSome = true
    · rw [if_pos hl] at hok
      simp at hok
    · rw [if_neg hl] at hok
      injection hok with h2
      subst h2
      have hgd := getD_extendConfigs st.configs pidx.index pidx.index
      have hlnone : List.lookup network.name
          ((st.configs.getD pidx.index newNetConfig).networks.byName) = none := by
        have h0 := Option.not_isSome_iff_eq_none.mp hl
        rwa [hgd] at h0
      rw [hgd, mapInsert_of_lookup_none _ hlnone]
      exact stateWF_alloc st pidx.index network.name _ hWF rfl hlnone

/-- oldConfJSONParser.Parse preserves the parser-state invariant. -/
theorem oldConfParse_stateWF (st : NetParserState) (pidx : PathIndex) (content : Option NetConf)
    (st2 : NetParserState) (hWF : stateWF st)
    (hok : oldConfParse st pidx content = .ok st2) : stateWF st2 := by
  cases content with
  | none => simp [oldConfParse] at hok
  | some n =>
    simp only [oldConfParse] at hok
    cases hlk : List.lookup n.name
        ((extendConfigs st.configs pidx.index).getD pidx.index
          newNetConfig).networks.byName with
    | some addr =>
      simp only [hlk] at hok
      have hgd := getD_extendConfigs st.configs pidx.index pidx.index
      rw [hgd] at hlk
      by_cases hgt : goLt (heapRead st.heap addr).runtime.confPath pidx.filePath = true
      · rw [if_pos hgt] at hok
        injection hok with h2
        subst h2
        exact stateWF_extend st pidx.index hWF
      · rw [if_neg hgt] at hok
        injection hok with h2
        subst h2
        exact stateWF_overwrite st pidx.index n.name addr _ hWF rfl hlk
    | none =>
      simp only [hlk] at hok
      injection hok with h2
      subst h2
      have hgd := getD_extendConfigs st.configs pidx.index pidx.index
      rw [hgd] at hlk
      rw [hgd, mapInsert_of_lookup_none _ hlk]
      exact stateWF_alloc st pidx.index n.name _ hWF rfl hlk

/-- oldConfJSONParser.Parse writes only fully decoded objects. -/
theorem oldConfParse_conf (st : NetParserState) (pidx : PathIndex) (content : Option NetConf)
    (st2 : NetParserState) (hall : ∀ c ∈ st.heap, c.conf ≠ none)
    (hok : oldConfParse st pidx content = .ok st2) : ∀ c ∈ st2.heap, c.conf ≠ none := by
  cases content with
  | none => simp [oldConfParse] at hok
  | some n =>
    simp only [oldConfParse] at hok
    cases hlk : List.lookup n.name
        ((extendConfigs st.configs pidx.index).getD pidx.index
          newNetConfig).networks.byName with
    | some addr =>
      simp only [hlk] at hok
      by_cases hgt : goLt (heapRead st.heap addr).runtime.confPath pidx.filePath = true
      · rw [if_pos hgt] at hok
        injection hok with h2
        subst h2
        exact hall
      · rw [if_neg hgt] at hok
        injection hok with h2
        subst h2
        intro c hc
        rcases List.mem_or_eq_of_mem_set hc with h1 | h1
        · exact hall c h1
        · rw [h1]
          simp [getActiveNetOld]
    | none =>
      simp only [hlk] at hok
      injection hok with h2
      subst h2
      intro c hc
      rcases List.mem_append.mp hc with h1 | h1
      · exact hall c h1
      · have hce : c = getActiveNetOld (some n) n pidx.filePath := by simpa using h1
        rw [hce]
        simp [getActiveNetOld]

/-- One legacy merge step never changes the heap's length. -/
theorem oldMergeStep_len (heap : List ActiveNet) (nets : Networks) (e : GoStr × Addr) :
    (oldMergeStep heap nets e).1.length = heap.length := by
  cases hlk : List.lookup e.1 nets.byName with
  | none => simp only [oldMergeStep, hlk]
  | some addr =>
    simp only [oldMergeStep, hlk]
    simp

/-- The legacy merge fold never changes the heap's length. -/
theorem oldMergeFold_len (entries : List (GoStr × Addr)) :
    ∀ acc : List ActiveNet × Networks,
      (entries.foldl (fun a e => oldMergeStep a.1 a.2 e) acc).1.length = acc.1.length := by
  induction entries with
  | nil =>
    intro acc
    rfl
  | cons e rest ih =>
    intro acc
    rw [List.foldl_cons, ih (oldMergeStep acc.1 acc.2 e)]
    exact oldMergeStep_len _ _ _

/-- The legacy merge fold copies only existing objects: if every heap
cell is fully decoded and every entry is in bounds, every cell of the
merged heap is fully decoded. -/
theorem oldMergeFold_conf (entries : List (GoStr × Addr)) :
    ∀ acc : List ActiveNet × Networks,
      (∀ q ∈ entries, q.2 < acc.1.length) →
      (∀ c ∈ acc.1, c.conf ≠ none) →
      ∀ c ∈ (entries.foldl (fun a e => oldMergeStep a.1 a.2 e) acc).1, c.conf ≠ none := by
  induction entries with
  | nil =>
    intro acc _ hall
    exact hall
  | cons e rest ih =>
    intro acc hb hall
    rw [List.foldl_cons]
    apply ih (oldMergeStep acc.1 acc.2 e)
    · intro q hq
      rw [oldMergeStep_len]
      exact hb q (List.mem_cons_of_mem _ hq)
    · intro c hc
      have hbe := hb e (List.mem_cons_self _ _)
      cases hlk : List.lookup e.1 acc.2.byName with
      | none =>
        simp only [oldMergeStep, hlk] at hc
        exact hall c hc
      | some addr =>
        simp only [oldMergeStep, hlk] at hc
        rcases List.mem_or_eq_of_mem_set hc with h1 | h1
        · exact hall c h1
        · rw [h1]
          have hmem : heapRead acc.1 e.2 ∈ acc.1 := by
            unfold heapRead
            rw [List.getD_eq_getElem _ _ hbe]
            exact List.getElem_mem hbe
          exact hall _ hmem

/-- Path fixup touches only runtime conf paths: cell count and decoded
configurations are unchanged, cell by cell. -/
theorem fixupFold_conf (ps : List (Nat × Addr)) :
    ∀ h : List ActiveNet,
      (∀ p ∈ ps, p.2 < h.length) →
      (∀ c ∈ h, c.conf ≠ none) →
      (∀ c ∈ ps.foldl (fun h2 p => fixupOne h2 p.1 p.2) h, c.conf ≠ none)
      ∧ (ps.foldl (fun h2 p => fixupOne h2 p.1 p.2) h).length = h.length := by
  induction ps with
  | nil =>
    intro h _ hall
    exact ⟨hall, rfl⟩
  | cons p rest ih =>
    intro h hb hall
    rw [List.foldl_cons]
    have hlen : (fixupOne h p.1 p.2).length = h.length := by
      unfold fixupOne
      simp
    have hstep : ∀ c ∈ fixupOne h p.1 p.2, c.conf ≠ none := by
      intro c hc
      unfold fixupOne at hc
      rcases List.mem_or_eq_of_mem_set hc with h1 | h1
      · exact hall c h1
      · rw [h1]
        have hbp := hb p (List.mem_cons_self _ _)
        have hmem : heapRead h p.2 ∈ h := by
          unfold heapRead
          rw [List.getD_eq_getElem _ _ hbp]
          exact List.getElem_mem hbp
        show (heapRead h p.2).conf ≠ none
        exact hall _ hmem
    obtain ⟨ih1, ih2⟩ := ih (fixupOne h p.1 p.2)
      (fun q hq => by rw [hlen]; exact hb q (List.mem_cons_of_mem _ hq)) hstep
    exact ⟨ih1, ih2.trans hlen⟩

/-- fixupConfPaths keeps every cell fully decoded and the heap length,
when the rewritten addresses are in bounds. -/
theorem fixupConfPaths_conf (h : List ActiveNet) (ans : List Addr)
    (hb : ∀ a ∈ ans, a < h.length) (hall : ∀ c ∈ h, c.conf ≠ none) :
    (∀ c ∈ fixupConfPaths h ans, c.conf ≠ none)
    ∧ (fixupConfPaths h ans).length = h.length := by
  unfold fixupConfPaths
  apply fixupFold_conf ans.enum h _ hall
  intro p hp
  apply hb
  have hsnd : p.2 ∈ ans.enum.map Prod.snd := List.mem_map_of_mem Prod.snd hp
  rwa [List.enum_map_snd] at hsnd

/-- The current-schema merge of all accumulators of a well-formed
state into a fresh Config is consistent. -/
theorem netMergeAll_inv (st : NetParserState) (hWF : stateWF st) :
    netsWF (netMergeAll st.heap newNetConfig.networks st.configs).1
      (netMergeAll st.heap newNetConfig.networks st.configs).2 := by
  unfold netMergeAll
  rw [nested_fold_eq_flat]
  have hents := stateWF_flat_entries st hWF
  exact mergeFold_WF _ (fun heap nets e hw he => netMergeStep_WF heap nets e hw he)
    _ st.heap newNetConfig.networks (netsWF_nil _)
    (fun q hq => ⟨(hents.1 q hq).1, (hents.1 q hq).2,
      fun hmem => absurd hmem (List.not_mem_nil _)⟩)
    hents.2

/-- The legacy merge of all accumulators of a well-formed state into a
fresh Config is consistent, copies only fully decoded objects, and
keeps the heap length. -/
theorem oldMerged_inv (st : NetParserState) (hWF : stateWF st)
    (hconf : ∀ c ∈ st.heap, c.conf ≠ none) (M : List ActiveNet × Networks)
    (hM : M = st.configs.foldl
      (fun acc sub => sub.networks.byName.foldl
        (fun acc2 e => oldMergeStep acc2.1 acc2.2 e) acc)
      (st.heap, newNetConfig.networks)) :
    netsWF M.1 M.2 ∧ (∀ c ∈ M.1, c.conf ≠ none) ∧ M.1.length = st.heap.length := by
  subst hM
  rw [nested_fold_eq_flat]
  have hents := stateWF_flat_entries st hWF
  refine ⟨?_, ?_, ?_⟩
  · exact mergeFold_WF _ (fun heap nets e hw he => oldMergeStep_WF heap nets e hw he)
      _ st.heap newNetConfig.networks (netsWF_nil _)
      (fun q hq => ⟨(hents.1 q hq).1, (hents.1 q hq).2,
        fun hmem => absurd hmem (List.not_mem_nil _)⟩)
      hents.2
  · exact oldMergeFold_conf _ (st.heap, newNetConfig.networks)
      (fun q hq => (hents.1 q hq).1) hconf
  · exact oldMergeFold_len _ (st.heap, newNetConfig.networks)

/-- The cleanup-and-sort phase of the current-schema propagate, over
any consistent merge result: the map and the sorted list describe the
same address set and every survivor is fully decoded. -/
theorem newPropagate_shape (M : List ActiveNet × Networks) (hWFm : netsWF M.1 M.2) :
    (∀ a : Addr,
       (∃ n, (n, a) ∈ (removeLoop M.1 M.2 (nilIndices M.1 M.2.ordered)).byName) ↔
         a ∈ sortByLess (ansLess M.1)
             (removeLoop M.1 M.2 (nilIndices M.1 M.2.ordered)).ordered)
    ∧ (∀ p ∈ (removeLoop M.1 M.2 (nilIndices M.1 M.2.ordered)).byName,
        (heapRead M.1 p.2).conf ≠ none)
    ∧ ∀ a ∈ sortByLess (ansLess M.1)
          (removeLoop M.1 M.2 (nilIndices M.1 M.2.ordered)).ordered,
        (heapRead M.1 a).conf ≠ none := by
  have hbn : (removeLoop M.1 M.2 (nilIndices M.1 M.2.ordered)).byName =
      M.2.byName.filter (fun p => decide ((heapRead M.1 p.2).conf ≠ none)) :=
    cleanup_byName M.1 M.2.byName M.2.ordered hWFm.1
      (fun p hp => ⟨(hWFm.2.1 p hp).1, (hWFm.2.1 p hp).2.2⟩) hWFm.2.2
  have hperm := sortByLess_perm (ansLess M.1)
    (removeLoop M.1 M.2 (nilIndices M.1 M.2.ordered)).ordered
  have hord : ∀ a : Addr,
      a ∈ (removeLoop M.1 M.2 (nilIndices M.1 M.2.ordered)).ordered ↔
        (a ∈ M.2.ordered ∧ (heapRead M.1 a).conf ≠ none) :=
    fun a => cleanup_ordered_mem M.1 M.2.byName M.2.ordered a
  refine ⟨?_, ?_, ?_⟩
  · intro a
    rw [hperm.mem_iff, hbn, hord a]
    constructor
    · rintro ⟨n, hn⟩
      have hm := List.mem_filter.mp hn
      exact ⟨(hWFm.2.1 _ hm.1).1, of_decide_eq_true hm.2⟩
    · rintro ⟨hao, hconf⟩
      obtain ⟨n, hn⟩ := hWFm.2.2 a hao
      exact ⟨n, List.mem_filter.mpr ⟨hn, decide_eq_true hconf⟩⟩
  · intro p hp
    rw [hbn] at hp
    exact of_decide_eq_true (List.mem_filter.mp hp).2
  · intro a ha
    rw [hperm.mem_iff, hord a] at ha
    exact ha.2

/-- The sort-and-fixup phase of the legacy propagate, over any
consistent merge result of fully decoded objects. -/
theorem oldPropagate_shape (M : List ActiveNet × Networks)
    (hWFm : netsWF M.1 M.2) (hcm : ∀ c ∈ M.1, c.conf ≠ none) :
    (∀ a : Addr, (∃ n, (n, a) ∈ M.2.byName) ↔
        a ∈ sortByLess (ansLess M.1) M.2.ordered)
    ∧ ∀ a ∈ sortByLess (ansLess M.1) M.2.ordered,
        (heapRead (fixupConfPaths M.1 (sortByLess (ansLess M.1) M.2.ordered)) a).conf
          ≠ none := by
  have hperm := sortByLess_perm (ansLess M.1) M.2.ordered
  constructor
  · intro a
    rw [hperm.mem_iff]
    constructor
    · rintro ⟨n, hn⟩
      exact (hWFm.2.1 _ hn).1
    · intro ha
      exact hWFm.2.2 a ha
  · intro a ha
    rw [hperm.mem_iff] at ha
    have hbound : a < M.1.length := netsWF_ordered_lt _ _ hWFm a ha
    have hsort_bound : ∀ b ∈ sortByLess (ansLess M.1) M.2.ordered, b < M.1.length := by
      intro b hb
      exact netsWF_ordered_lt _ _ hWFm b (hperm.mem_iff.mp hb)
    obtain ⟨hfc, hfl⟩ := fixupConfPaths_conf M.1 (sortByLess (ansLess M.1) M.2.ordered)
      hsort_bound hcm
    have hmem : heapRead (fixupConfPaths M.1 (sortByLess (ansLess M.1) M.2.ordered)) a
        ∈ fixupConfPaths M.1 (sortByLess (ansLess M.1) M.2.ordered) := by
      unfold heapRead
      have hb2 : a < (fixupConfPaths M.1 (sortByLess (ansLess M.1) M.2.ordered)).length := by
        rw [hfl]
        exact hbound
      rw [List.getD_eq_getElem _ _ hb2]
      exact List.getElem_mem hb2
    exact hfc _ hmem

/-- networkV1JSONParser.propagateConfig from a well-formed state: the
final Config's map and list agree and every survivor is decoded. -/
theorem networkV1Propagate_inv (st : NetParserState) (hWF : stateWF st) :
    (∀ a : Addr,
       (∃ n, (n, a) ∈ (networkV1Propagate st newNetConfig).2.networks.byName) ↔
         a ∈ (networkV1Propagate st newNetConfig).2.networks.ordered)
    ∧ (∀ p ∈ (networkV1Propagate st newNetConfig).2.networks.byName,
        (heapRead (networkV1Propagate st newNetConfig).1 p.2).conf ≠ none)
    ∧ ∀ a ∈ (networkV1Propagate st newNetConfig).2.networks.ordered,
        (heapRead (networkV1Propagate st newNetConfig).1 a).conf ≠ none :=
  newPropagate_shape (netMergeAll st.heap newNetConfig.networks st.configs)
    (netMergeAll_inv st hWF)

/-- oldConfJSONParser.propagateConfig from a well-formed state of
fully decoded objects: the final Config's map and list agree and every
survivor is decoded. -/
theorem oldConfPropagate_inv (st : NetParserState) (hWF : stateWF st)
    (hconf : ∀ c ∈ st.heap, c.conf ≠ none) :
    (∀ a : Addr,
       (∃ n, (n, a) ∈ (oldConfPropagate st newNetConfig).2.networks.byName) ↔
         a ∈ (oldConfPropagate st newNetConfig).2.networks.ordered)
    ∧ ∀ a ∈ (oldConfPropagate st newNetConfig).2.networks.ordered,
        (heapRead (oldConfPropagate st newNetConfig).1 a).conf ≠ none := by
  obtain ⟨hWFm, hcm, hlm⟩ := oldMerged_inv st hWF hconf _ rfl
  exact oldPropagate_shape _ hWFm hcm

/-- C5: the Networks record keeps byName and ordered consistent as an
invariant: under the state invariant the two views of every
accumulator describe the same address set; the initial state satisfies
the invariant and both parsers (current-schema and legacy) preserve
it; and after either propagateConfig merge the final Config's byName
and ordered agree and no entry whose provider configuration was never
decoded (Conf == nil) survives. -/
theorem c5_byname_ordered_consistency :
    (∀ st : NetParserState, stateWF st → ∀ (i : Nat) (a : Addr),
       (∃ n, (n, a) ∈ (st.configs.getD i newNetConfig).networks.byName) ↔
         a ∈ (st.configs.getD i newNetConfig).networks.ordered)
  ∧ stateWF initNetParserState
  ∧ (∀ st pidx network st2, stateWF st →
       networkV1Parse st pidx network = Except.ok st2 → stateWF st2)
  ∧ (∀ st pidx content st2, stateWF st →
       oldConfParse st pidx content = Except.ok st2 → stateWF st2)
  ∧ (∀ st : NetParserState, stateWF st →
       (∀ a : Addr,
          (∃ n, (n, a) ∈ (networkV1Propagate st newNetConfig).2.networks.byName) ↔
            a ∈ (networkV1Propagate st newNetConfig).2.networks.ordered)
       ∧ (∀ p ∈ (networkV1Propagate st newNetConfig).2.networks.byName,
           (heapRead (networkV1Propagate st newNetConfig).1 p.2).conf ≠ none)
       ∧ ∀ a ∈ (networkV1Propagate st newNetConfig).2.networks.ordered,
           (heapRead (networkV1Propagate st newNetConfig).1 a).conf ≠ none)
  ∧ (∀ st : NetParserState, stateWF st → (∀ c ∈ st.heap, c.conf ≠ none) →
       (∀ a : Addr,
          (∃ n, (n, a) ∈ (oldConfPropagate st newNetConfig).2.networks.byName) ↔
            a ∈ (oldConfPropagate st newNetConfig).2.networks.ordered)
       ∧ ∀ a ∈ (oldConfPropagate st newNetConfig).2.networks.ordered,
           (heapRead (oldConfPropagate st newNetConfig).1 a).conf ≠ none) := by
  refine ⟨?_, stateWF_init, ?_, ?_, ?_, ?_⟩
  · intro st hWF i a
    constructor
    · rintro ⟨n, hn⟩
      exact ((hWF.1 i).2.1 _ hn).1
    · intro ha
      exact (hWF.1 i).2.2 a ha
  · exact fun st pidx network st2 hWF hok =>
      networkV1Parse_stateWF st pidx network st2 hWF hok
  · exact fun st pidx content st2 hWF hok =>
      oldConfParse_stateWF st pidx content st2 hWF hok
  · exact fun st hWF => networkV1Propagate_inv st hWF
  · exact fun st hWF hc => oldConfPropagate_inv st hWF hc

/-- The path index used by the C5 witness. -/
def c5Pidx : PathIndex :=
  { index := 0, path := gs "r", subdirectory := gs "net.d", filename := gs "10-foo.conf" }

/-- The network-v1 file of the C5 witness. -/
def c5Net : NetworkV1 :=
  { priority := some 10, name := gs "foo", cniConf := some { name := none, typ := gs "bridge" } }

/-- The decoded legacy conf file of the C5 witness. -/
def c5OldConf : NetConf := { name := gs "foo", typ := gs "bridge" }

/-- The state after the C5 witness's current-schema parse. -/
def c5StNew : NetParserState :=
  { heap := [{ confBytes := some { name := gs "foo", typ := gs "bridge" },
               conf := some { name := gs "foo", typ := gs "bridge" },
               runtime := { netName := gs "foo", confPath := gs "10-10-foo.conf" } }],
    configs := [{ networks := { byName := [(gs "foo", 0)], ordered := [0] } }] }

/-- The state after the C5 witness's legacy parse. -/
def c5StOld : NetParserState :=
  { heap := [{ confBytes := some { name := gs "foo", typ := gs "bridge" },
               conf := some { name := gs "foo", typ := gs "bridge" },
               runtime := { netName := gs "foo", confPath := gs "r/net.d/10-foo.conf" } }],
    configs := [{ networks := { byName := [(gs "foo", 0)], ordered := [0] } }] }

theorem c5_byname_ordered_consistency_witness :
    stateWF initNetParserState
    ∧ networkV1Parse initNetParserState c5Pidx c5Net = Except.ok c5StNew
    ∧ stateWF c5StNew
    ∧ ((∃ n, (n, (0 : Addr)) ∈ (c5StNew.configs.getD 0 newNetConfig).networks.byName) ↔
        (0 : Addr) ∈ (c5StNew.configs.getD 0 newNetConfig).networks.ordered)
    ∧ oldConfParse initNetParserState c5Pidx (some c5OldConf) = Except.ok c5StOld
    ∧ stateWF c5StOld
    ∧ (((∃ n, (n, (0 : Addr)) ∈ (networkV1Propagate c5StNew newNetConfig).2.networks.byName) ↔
          (0 : Addr) ∈ (networkV1Propagate c5StNew newNetConfig).2.networks.ordered)
       ∧ ∀ a ∈ (networkV1Propagate c5StNew newNetConfig).2.networks.ordered,
           (heapRead (networkV1Propagate c5StNew newNetConfig).1 a).conf ≠ none)
    ∧ (((∃ n, (n, (0 : Addr)) ∈ (oldConfPropagate c5StOld newNetConfig).2.networks.byName) ↔
          (0 : Addr) ∈ (oldConfPropagate c5StOld newNetConfig).2.networks.ordered)
       ∧ ∀ a ∈ (oldConfPropagate c5StOld newNetConfig).2.networks.ordered,
           (heapRead (oldConfPropagate c5StOld newNetConfig).1 a).conf ≠ none) := by
  have hinit := c5_byname_ordered_consistency.2.1
  have hnewEq : networkV1Parse initNetParserState c5Pidx c5Net = Except.ok c5StNew := by
    decide
  have holdEq : oldConfParse initNetParserState c5Pidx (some c5OldConf) = Except.ok c5StOld := by
    decide
  have hnewWF : stateWF c5StNew :=
    c5_byname_ordered_consistency.2.2.1 initNetParserState c5Pidx c5Net c5StNew hinit hnewEq
  have holdWF : stateWF c5StOld :=
    c5_byname_ordered_consistency.2.2.2.1 initNetParserState c5Pidx (some c5OldConf) c5StOld
      hinit holdEq
  refine ⟨hinit, hnewEq, hnewWF, ?_, holdEq, holdWF, ?_, ?_⟩
  · exact c5_byname_ordered_consistency.1 c5StNew hnewWF 0 0
  · have h5 := c5_byname_ordered_consistency.2.2.2.2.1 c5StNew hnewWF
    exact ⟨h5.1 0, h5.2.2⟩
  · have h6 := c5_byname_ordered_consistency.2.2.2.2.2 c5StOld holdWF (by decide)
    exact ⟨h6.1 0, h6.2⟩

/-! ### C4: path fixup and basename distinctness -/

theorem takeWhile_all {p : Char → Bool} (l : GoStr) (hl : ∀ a ∈ l, p a = true) :
    l.takeWhile p = l := by
  induction l with
  | nil => rfl
  | cons a w ih =>
    rw [List.takeWhile_cons, if_pos (hl a (List.mem_cons_self _ _)),
      ih (fun b hb => hl b (List.mem_cons_of_mem _ hb))]

theorem takeWhile_middle {p : Char → Bool} (w : GoStr) (c : Char) (z : GoStr)
    (hw : ∀ a ∈ w, p a = true) (hc : p c = false) :
    (w ++ c :: z).takeWhile p = w := by
  induction w with
  | nil =>
    rw [List.nil_append, List.takeWhile_cons, if_neg (by simp [hc])]
  | cons a w ih =>
    rw [List.cons_append, List.takeWhile_cons, if_pos (hw a (List.mem_cons_self _ _)),
      ih (fun b hb => hw b (List.mem_cons_of_mem _ hb))]

theorem splitSep_slash (rest : GoStr) : splitSep ('/' :: rest) = [] :: splitSep rest := by
  simp [splitSep]

theorem splitSep_other (c : Char) (rest : GoStr) (hc : c ≠ '/') :
    splitSep (c :: rest) =
      match splitSep rest with
      | [] => [[c]]
      | g :: gss => (c :: g) :: gss := by
  conv_lhs => unfold splitSep
  simp [hc]

theorem splitSep_ne_nil (p : GoStr) : splitSep p ≠ [] := by
  induction p with
  | nil => simp [splitSep]
  | cons c rest ih =>
    by_cases hc : c = '/'
    · subst hc
      rw [splitSep_slash]
      simp
    · rw [splitSep_other c rest hc]
      cases splitSep rest with
      | nil => simp
      | cons g gss => simp

theorem splitSep_append (a b : GoStr) :
    splitSep (a ++ '/' :: b) = splitSep a ++ splitSep b := by
  induction a with
  | nil =>
    rw [List.nil_append, splitSep_slash]
    rfl
  | cons c rest ih =>
    by_cases hc : c = '/'
    · subst hc
      rw [List.cons_append, splitSep_slash, splitSep_slash, ih]
      rfl
    · rw [List.cons_append, splitSep_other c _ hc, splitSep_other c rest hc, ih]
      cases hsp : splitSep rest with
      | nil => exact absurd hsp (splitSep_ne_nil rest)
      | cons g gss => rfl

theorem splitSep_no_slash (p : GoStr) (hp : '/' ∉ p) : splitSep p = [p] := by
  induction p with
  | nil => rfl
  | cons c rest ih =>
    have hc : c ≠ '/' := fun he => hp (he ▸ List.mem_cons_self _ _)
    rw [splitSep_other c rest hc, ih (fun hm => hp (List.mem_cons_of_mem _ hm))]

theorem cleanStack_cons (r : Bool) (out : List GoStr) (e : GoStr) (es : List GoStr) :
    cleanStack r out (e :: es) =
      if e = [] ∨ e = ['.'] then cleanStack r out es
      else if e = ['.', '.'] then
        match out with
        | o :: os => if o = ['.', '.'] then cleanStack r (e :: o :: os) es else cleanStack r os es
        | [] => if r then cleanStack r [] es else cleanStack r [e] es
      else cleanStack r (e :: out) es := rfl

theorem cleanStack_append (r : Bool) (es es2 : List GoStr) :
    ∀ out, cleanStack r out (es ++ es2) = cleanStack r (cleanStack r out es) es2 := by
  induction es with
  | nil => intro out; rfl
  | cons e es ih =>
    intro out
    rw [List.cons_append, cleanStack_cons, cleanStack_cons]
    by_cases h1 : e = [] ∨ e = ['.']
    · rw [if_pos h1, if_pos h1]
      exact ih out
    · rw [if_neg h1, if_neg h1]
      by_cases h2 : e = ['.', '.']
      · rw [if_pos h2, if_pos h2]
        cases out with
        | nil =>
          dsimp only
          by_cases hr : r = true
          · rw [if_pos hr, if_pos hr]
            exact ih []
          · rw [if_neg hr, if_neg hr]
            exact ih [e]
        | cons o os =>
          dsimp only
          by_cases ho : o = ['.', '.']
          · rw [if_pos ho, if_pos ho]
            exact ih (e :: o :: os)
          · rw [if_neg ho, if_neg ho]
            exact ih os
      · rw [if_neg h2, if_neg h2]
        exact ih (e :: out)

theorem interSep_append_last (xs : List GoStr) (nb : GoStr) (hxs : xs ≠ []) :
    interSep (xs ++ [nb]) = interSep xs ++ '/' :: nb := by
  induction xs with
  | nil => exact absurd rfl hxs
  | cons x ys ih =>
    cases ys with
    | nil => rfl
    | cons y zs =>
      rw [List.cons_append]
      show x ++ '/' :: interSep ((y :: zs) ++ [nb]) = (x ++ '/' :: interSep (y :: zs)) ++ '/' :: nb
      rw [ih (by simp), List.append_assoc]
      rfl

theorem goBase_append_noslash (w nb : GoStr) (hnb : nb ≠ []) (hns : '/' ∉ nb)
    (hw : w = [] ∨ ∃ w2, w = w2 ++ ['/']) : goBase (w ++ nb) = nb := by
  have hmem : ∀ a ∈ nb.reverse, (fun c => decide (c ≠ '/')) a = true :=
    fun a ha => decide_eq_true (fun he => hns (he ▸ List.mem_reverse.mp ha))
  have htake : (w ++ nb).reverse.takeWhile (fun c => decide (c ≠ '/')) = nb.reverse := by
    rw [List.reverse_append]
    rcases hw with rfl | ⟨w2, rfl⟩
    · rw [List.reverse_nil, List.append_nil]
      exact takeWhile_all _ hmem
    · rw [List.reverse_append]
      show (nb.reverse ++ ('/' :: w2.reverse)).takeWhile _ = nb.reverse
      exact takeWhile_middle _ _ _ hmem (by simp)
  have hne : w ++ nb ≠ [] := by simp [hnb]
  have hq : stripTrailingSep (w ++ nb) = w ++ nb := by
    unfold stripTrailingSep
    cases hnr : nb.reverse with
    | nil => exact absurd (by simpa using hnr) hnb
    | cons b t =>
      have hb : b ≠ '/' := by
        have hbm : b ∈ nb.reverse := by
          rw [hnr]
          exact List.mem_cons_self _ _
        exact fun he => hns (he ▸ List.mem_reverse.mp hbm)
      rw [List.reverse_append, hnr, List.cons_append, List.dropWhile_cons,
        if_neg (by simp [hb]), ← List.cons_append, ← hnr, ← List.reverse_append]
      exact List.reverse_reverse _
  simp only [goBase]
  rw [if_neg hne, hq, if_neg hne]
  unfold afterLastSep
  rw [htake]
  exact List.reverse_reverse _

theorem clean_noslash (nb : GoStr) (hnb : nb ≠ []) (hns : '/' ∉ nb)
    (hd1 : nb ≠ ['.']) (hd2 : nb ≠ ['.', '.']) : clean nb = nb := by
  have hhead : nb.head? ≠ some '/' := by
    cases nb with
    | nil => simp
    | cons c t =>
      rw [List.head?_cons]
      intro he
      have hc : c = '/' := by injection he
      exact hns (hc ▸ List.mem_cons_self _ _)
  have hrooted : decide (nb.head? = some '/') = false := decide_eq_false hhead
  simp only [clean]
  rw [if_neg hnb, if_neg hhead, hrooted, splitSep_no_slash nb hns]
  have hcs : cleanStack false [] [nb] = [nb] := by
    rw [cleanStack_cons, if_neg (by
      rintro (h | h)
      · exact hnb h
      · exact hd1 h), if_neg hd2]
    rfl
  rw [hcs]
  rw [show ([nb] : List GoStr).reverse = [nb] from rfl]
  rw [show interSep [nb] = nb from rfl, if_neg hnb]

theorem goBase_join2 (dir nb : GoStr) (hnb : nb ≠ []) (hns : '/' ∉ nb)
    (hd1 : nb ≠ ['.']) (hd2 : nb ≠ ['.', '.']) : goBase (join2 dir nb) = nb := by
  unfold join2 joinList
  by_cases hdir : dir = []
  · subst hdir
    rw [show ([([] : GoStr), nb] : List GoStr).filter (fun e => decide (e ≠ [])) = [nb] from by
      simp [hnb]]
    rw [if_neg (by simp)]
    rw [show interSep [nb] = nb from rfl]
    rw [clean_noslash nb hnb hns hd1 hd2]
    exact goBase_append_noslash [] nb hnb hns (Or.inl rfl)
  · rw [show ([dir, nb] : List GoStr).filter (fun e => decide (e ≠ [])) = [dir, nb] from by
      simp [hdir, hnb]]
    rw [if_neg (by simp)]
    rw [show interSep [dir, nb] = dir ++ '/' :: nb from rfl]
    simp only [clean]
    rw [if_neg (by simp)]
    rw [splitSep_append dir nb, splitSep_no_slash nb hns, cleanStack_append]
    have hpush : ∀ (r : Bool) (S : List GoStr), cleanStack r S [nb] = nb :: S := by
      intro r S
      rw [cleanStack_cons, if_neg (by
        rintro (h | h)
        · exact hnb h
        · exact hd1 h), if_neg hd2]
      rfl
    cases hB : decide ((dir ++ '/' :: nb).head? = some '/') with
    | false =>
      rw [if_neg (of_decide_eq_false hB)]
      rw [hpush]
      cases hS : cleanStack false [] (splitSep dir) with
      | nil =>
        rw [show ([nb] : List GoStr).reverse = [nb] from rfl]
        rw [show interSep [nb] = nb from rfl, if_neg hnb]
        exact goBase_append_noslash [] nb hnb hns (Or.inl rfl)
      | cons s ss =>
        rw [List.reverse_cons, interSep_append_last _ _ (by simp)]
        rw [if_neg (by simp)]
        rw [show interSep ((s :: ss).reverse) ++ '/' :: nb
          = (interSep ((s :: ss).reverse) ++ ['/']) ++ nb from by simp]
        exact goBase_append_noslash _ nb hnb hns (Or.inr ⟨_, rfl⟩)
    | true =>
      rw [if_pos (of_decide_eq_true hB)]
      rw [hpush]
      cases hS : cleanStack true [] (splitSep dir) with
      | nil =>
        rw [show ([nb] : List GoStr).reverse = [nb] from rfl]
        rw [show interSep [nb] = nb from rfl]
        rw [show ('/' :: nb : GoStr) = ['/'] ++ nb from rfl]
        exact goBase_append_noslash ['/'] nb hnb hns (Or.inr ⟨[], rfl⟩)
      | cons s ss =>
        rw [List.reverse_cons, interSep_append_last _ _ (by simp)]
        rw [show ('/' :: (interSep ((s :: ss).reverse) ++ '/' :: nb) : GoStr)
          = (('/' :: interSep ((s :: ss).reverse)) ++ ['/']) ++ nb from by simp]
        exact goBase_append_noslash _ nb hnb hns (Or.inr ⟨_, rfl⟩)

theorem suffix_extract {p : Char → Bool} (u : GoStr) (c : Char) (v : GoStr)
    (hv : ∀ a ∈ v, p a = true) (hc : p c = false) :
    (u ++ c :: v).reverse.takeWhile p = v.reverse := by
  have hrev : (u ++ c :: v).reverse = v.reverse ++ c :: u.reverse := by
    simp
  rw [hrev]
  exact takeWhile_middle _ _ _ (fun a ha => hv a (List.mem_reverse.mp ha)) hc

theorem sep_split_inj (sep : Char) (s1 s2 d1 d2 : GoStr)
    (h1 : ∀ a ∈ d1, a ≠ sep) (h2 : ∀ a ∈ d2, a ≠ sep)
    (he : s1 ++ sep :: d1 = s2 ++ sep :: d2) : s1 = s2 ∧ d1 = d2 := by
  have e1 : (s1 ++ sep :: d1).reverse.takeWhile (fun c => decide (c ≠ sep)) = d1.reverse :=
    suffix_extract s1 sep d1 (fun a ha => decide_eq_true (h1 a ha)) (by simp)
  have e2 : (s2 ++ sep :: d2).reverse.takeWhile (fun c => decide (c ≠ sep)) = d2.reverse :=
    suffix_extract s2 sep d2 (fun a ha => decide_eq_true (h2 a ha)) (by simp)
  rw [he] at e1
  have hd : d1 = d2 := List.reverse_injective (e1.symm.trans e2)
  subst hd
  exact ⟨(List.append_inj' he rfl).1, rfl⟩

theorem digitChar_facts : ∀ m : Nat, m < 10 →
    digitChar m ≠ '-' ∧ digitChar m ≠ '.' ∧ digitChar m ≠ '/' := by decide

theorem natDecAux_mem : ∀ (fuel n : Nat) (acc : GoStr) (c : Char),
    c ∈ natDecAux fuel n acc → c ∈ acc ∨ ∃ m, m < 10 ∧ c = digitChar m := by
  intro fuel
  induction fuel with
  | zero =>
    intro n acc c hc
    exact Or.inl hc
  | succ fuel ih =>
    intro n acc c hc
    unfold natDecAux at hc
    by_cases hn : n < 10
    · rw [if_pos hn] at hc
      rcases List.mem_cons.mp hc with rfl | hc2
      · exact Or.inr ⟨n, hn, rfl⟩
      · exact Or.inl hc2
    · rw [if_neg hn] at hc
      rcases ih (n / 10) _ c hc with h | h
      · rcases List.mem_cons.mp h with rfl | hc2
        · exact Or.inr ⟨n % 10, Nat.mod_lt _ (by omega), rfl⟩
        · exact Or.inl hc2
      · exact Or.inr h

theorem natDec_chars (n : Nat) (c : Char) (hc : c ∈ natDec n) :
    c ≠ '-' ∧ c ≠ '.' ∧ c ≠ '/' := by
  rcases natDecAux_mem _ _ _ _ hc with h | ⟨m, hm, rfl⟩
  · exact absurd h (List.not_mem_nil _)
  · exact digitChar_facts m hm

theorem natDecAux_acc : ∀ (fuel n : Nat) (acc : GoStr),
    natDecAux fuel n acc = natDecAux fuel n [] ++ acc := by
  intro fuel
  induction fuel with
  | zero =>
    intro n acc
    rfl
  | succ fuel ih =>
    intro n acc
    by_cases hn : n < 10
    · unfold natDecAux
      rw [if_pos hn, if_pos hn]
      rfl
    · unfold natDecAux
      rw [if_neg hn, if_neg hn,
        ih (n / 10) (digitChar (n % 10) :: acc), ih (n / 10) [digitChar (n % 10)]]
      simp

theorem natDecAux_fuel : ∀ (n f : Nat), n < f → ∀ acc,
    natDecAux f n acc = natDecAux (n + 1) n acc := by
  intro n
  induction n using Nat.strong_induction_on with
  | _ n ih =>
    intro f hf acc
    cases f with
    | zero => exact absurd hf (Nat.not_lt_zero n)
    | succ f =>
      by_cases hn : n < 10
      · unfold natDecAux
        rw [if_pos hn, if_pos hn]
      · have hd : n / 10 < n := Nat.div_lt_self (by omega) (by omega)
        unfold natDecAux
        rw [if_neg hn, if_neg hn,
          ih (n / 10) hd f (Nat.lt_of_lt_of_le hd (by omega)) _,
          ih (n / 10) hd n (by omega) _]

def digitsVal (l : GoStr) : Nat := l.foldl (fun v c => v * 10 + (c.toNat - 48)) 0

theorem digitsVal_append_digit (x : GoStr) (d : Char) :
    digitsVal (x ++ [d]) = digitsVal x * 10 + (d.toNat - 48) := by
  unfold digitsVal
  rw [List.foldl_append]
  rfl

theorem digitsVal_natDec : ∀ n : Nat, digitsVal (natDec n) = n := by
  intro n
  induction n using Nat.strong_induction_on with
  | _ n ih =>
    by_cases hn : n < 10
    · have hone : natDec n = [digitChar n] := by
        unfold natDec natDecAux
        rw [if_pos hn]
      rw [hone]
      exact (show ∀ m : Nat, m < 10 → digitsVal [digitChar m] = m by decide) n hn
    · have hd : n / 10 < n := Nat.div_lt_self (by omega) (by omega)
      have hstep : natDec n = natDec (n / 10) ++ [digitChar (n % 10)] := by
        show natDecAux (n + 1) n [] = natDecAux (n / 10 + 1) (n / 10) [] ++ [digitChar (n % 10)]
        rw [show natDecAux (n + 1) n [] = natDecAux n (n / 10) [digitChar (n % 10)] from by
          conv_lhs => unfold natDecAux
          rw [if_neg hn]]
        rw [natDecAux_acc n (n / 10) [digitChar (n % 10)], natDecAux_fuel (n / 10) n hd []]
      rw [hstep, digitsVal_append_digit, ih (n / 10) hd,
        (show ∀ m : Nat, m < 10 → (digitChar m).toNat - 48 = m by decide) (n % 10)
          (Nat.mod_lt _ (by omega))]
      omega

theorem natDec_inj (a b : Nat) (h : natDec a = natDec b) : a = b := by
  have ha := digitsVal_natDec a
  rw [h, digitsVal_natDec b] at ha
  omega

theorem trimSuffix_append (x s : GoStr) : trimSuffix (x ++ s) s = x := by
  have hsuf : s.isSuffixOf (x ++ s) = true := by
    rw [List.isSuffixOf_iff_suffix]
    exact List.suffix_append x s
  unfold trimSuffix
  rw [if_pos hsuf, List.length_append, Nat.add_sub_cancel]
  exact List.take_left x s

theorem trimSuffix_nil (b : GoStr) : trimSuffix b [] = b := by
  have : b = b ++ [] := by simp
  rw [this, trimSuffix_append]
  simp

theorem goExt_cases (b : GoStr) (hb : '/' ∉ b) :
    (goExt b = [] ∧ '.' ∉ b)
    ∨ (∃ r, goExt b = '.' :: r ∧ '.' ∉ r ∧ trimSuffix b (goExt b) ++ goExt b = b) := by
  have hlc : b.reverse.takeWhile (fun c => decide (c ≠ '/')) = b.reverse :=
    takeWhile_all _ (fun a ha => decide_eq_true (fun he => hb (he ▸ List.mem_reverse.mp ha)))
  simp only [goExt]
  rw [hlc]
  by_cases hcase : (b.reverse.takeWhile (fun c => decide (c ≠ '.'))).length = b.reverse.length
  · left
    rw [if_pos hcase]
    refine ⟨rfl, ?_⟩
    intro hmem
    have heq : b.reverse.takeWhile (fun c => decide (c ≠ '.')) = b.reverse :=
      (List.takeWhile_prefix _).eq_of_length hcase
    have h2 : '.' ∈ b.reverse.takeWhile (fun c => decide (c ≠ '.')) := by
      rw [heq]
      exact List.mem_reverse.mpr hmem
    have h3 := List.mem_takeWhile_imp h2
    simp at h3
  · right
    rw [if_neg hcase]
    refine ⟨(b.reverse.takeWhile (fun c => decide (c ≠ '.'))).reverse, rfl, ?_, ?_⟩
    · intro hmem
      have h3 := List.mem_takeWhile_imp (List.mem_reverse.mp hmem)
      simp at h3
    · have hsplit := List.takeWhile_append_dropWhile (p := fun c => decide (c ≠ '.'))
        (l := b.reverse)
      have hDne : b.reverse.dropWhile (fun c => decide (c ≠ '.')) ≠ [] := by
        intro h0
        apply hcase
        rw [h0, List.append_nil] at hsplit
        rw [hsplit]
      cases hD : b.reverse.dropWhile (fun c => decide (c ≠ '.')) with
      | nil => exact absurd hD hDne
      | cons d rest =>
        have hd : d = '.' := by
          have h3 := List.head?_dropWhile_not (fun c => decide (c ≠ '.')) b.reverse
          rw [hD] at h3
          simp at h3
          exact h3
        subst hd
        rw [hD] at hsplit
        have hb2 : b = rest.reverse ++ '.' ::
            (b.reverse.takeWhile (fun c => decide (c ≠ '.'))).reverse := by
          have := congrArg List.reverse hsplit
          rw [List.reverse_reverse, List.reverse_append, List.reverse_cons,
            List.append_assoc] at this
          exact this.symm
        calc trimSuffix b ('.' :: (b.reverse.takeWhile (fun c => decide (c ≠ '.'))).reverse)
              ++ '.' :: (b.reverse.takeWhile (fun c => decide (c ≠ '.'))).reverse
            = trimSuffix (rest.reverse ++ '.' ::
                (b.reverse.takeWhile (fun c => decide (c ≠ '.'))).reverse)
                ('.' :: (b.reverse.takeWhile (fun c => decide (c ≠ '.'))).reverse)
              ++ '.' :: (b.reverse.takeWhile (fun c => decide (c ≠ '.'))).reverse := by
              rw [← hb2]
          _ = rest.reverse ++ '.' ::
                (b.reverse.takeWhile (fun c => decide (c ≠ '.'))).reverse := by
              rw [trimSuffix_append]
          _ = b := hb2.symm

/-- Trimming a suffix never adds characters. -/
theorem trimSuffix_subset (s suf : GoStr) (a : Char) (ha : a ∈ trimSuffix s suf) : a ∈ s := by
  unfold trimSuffix at ha
  split at ha
  · exact (List.take_prefix _ _).subset ha
  · exact ha

/-- The basename of a fixed-up path is exactly the rewritten name. -/
theorem goBase_fixPath (P : GoStr) (k : Nat) (hP : '/' ∉ goBase P) :
    goBase (join2 (goDir P)
        (trimSuffix (goBase P) (goExt (goBase P))
          ++ '-' :: (natDec k ++ goExt (goBase P))))
      = trimSuffix (goBase P) (goExt (goBase P))
          ++ '-' :: (natDec k ++ goExt (goBase P)) := by
  apply goBase_join2
  · simp
  · intro hmem
    rcases List.mem_append.mp hmem with h | h
    · exact hP (trimSuffix_subset _ _ _ h)
    · rcases List.mem_cons.mp h with h2 | h2
      · exact absurd h2 (by decide)
      · rcases List.mem_append.mp h2 with h3 | h3
        · exact (natDec_chars k _ h3).2.2 rfl
        · rcases goExt_cases (goBase P) hP with ⟨hext, _⟩ | ⟨r, hext, _, hsp⟩
          · rw [hext] at h3
            exact absurd h3 (List.not_mem_nil _)
          · apply hP
            rw [← hsp]
            exact List.mem_append_right _ h3
  · intro heq
    have hm : '-' ∈ trimSuffix (goBase P) (goExt (goBase P))
        ++ '-' :: (natDec k ++ goExt (goBase P)) :=
      List.mem_append_right _ (List.mem_cons_self _ _)
    rw [heq] at hm
    exact absurd hm (by decide)
  · intro heq
    have hm : '-' ∈ trimSuffix (goBase P) (goExt (goBase P))
        ++ '-' :: (natDec k ++ goExt (goBase P)) :=
      List.mem_append_right _ (List.mem_cons_self _ _)
    rw [heq] at hm
    exact absurd hm (by decide)

/-- Appending different indices before the extension yields different
names. -/
theorem fixBase_inj (b1 b2 : GoStr) (i j : Nat)
    (hs1 : '/' ∉ b1) (hs2 : '/' ∉ b2) (hij : i ≠ j) :
    trimSuffix b1 (goExt b1) ++ '-' :: (natDec i ++ goExt b1) ≠
      trimSuffix b2 (goExt b2) ++ '-' :: (natDec j ++ goExt b2) := by
  intro he
  rcases goExt_cases b1 hs1 with ⟨he1, hdot1⟩ | ⟨r1, he1, hr1, hsp1⟩
  · rcases goExt_cases b2 hs2 with ⟨he2, hdot2⟩ | ⟨r2, he2, hr2, hsp2⟩
    · rw [he1, he2, List.append_nil, List.append_nil, trimSuffix_nil, trimSuffix_nil] at he
      exact hij (natDec_inj i j (sep_split_inj '-' _ _ _ _
        (fun a ha => (natDec_chars i a ha).1) (fun a ha => (natDec_chars j a ha).1) he).2)
    · rw [he1, trimSuffix_nil, List.append_nil, he2] at he
      have hm : '.' ∈ trimSuffix b2 ('.' :: r2) ++ '-' :: (natDec j ++ '.' :: r2) :=
        List.mem_append_right _ (List.mem_cons_of_mem _
          (List.mem_append_right _ (List.mem_cons_self _ _)))
      rw [← he] at hm
      rcases List.mem_append.mp hm with h | h
      · exact hdot1 h
      · rcases List.mem_cons.mp h with h2 | h2
        · exact absurd h2 (by decide)
        · exact (natDec_chars i _ h2).2.1 rfl
  · rcases goExt_cases b2 hs2 with ⟨he2, hdot2⟩ | ⟨r2, he2, hr2, hsp2⟩
    · rw [he2, trimSuffix_nil, List.append_nil, he1] at he
      have hm : '.' ∈ trimSuffix b1 ('.' :: r1) ++ '-' :: (natDec i ++ '.' :: r1) :=
        List.mem_append_right _ (List.mem_cons_of_mem _
          (List.mem_append_right _ (List.mem_cons_self _ _)))
      rw [he] at hm
      rcases List.mem_append.mp hm with h | h
      · exact hdot2 h
      · rcases List.mem_cons.mp h with h2 | h2
        · exact absurd h2 (by decide)
        · exact (natDec_chars j _ h2).2.1 rfl
    · rw [he1, he2] at he
      rw [show trimSuffix b1 ('.' :: r1) ++ '-' :: (natDec i ++ '.' :: r1)
          = (trimSuffix b1 ('.' :: r1) ++ '-' :: natDec i) ++ '.' :: r1 from by
          rw [List.append_assoc, List.cons_append],
        show trimSuffix b2 ('.' :: r2) ++ '-' :: (natDec j ++ '.' :: r2)
          = (trimSuffix b2 ('.' :: r2) ++ '-' :: natDec j) ++ '.' :: r2 from by
          rw [List.append_assoc, List.cons_append]] at he
      have hstep := sep_split_inj '.' _ _ _ _
        (fun a ha hae => hr1 (hae ▸ ha)) (fun a ha hae => hr2 (hae ▸ ha)) he
      exact hij (natDec_inj i j (sep_split_inj '-' _ _ _ _
        (fun a ha => (natDec_chars i a ha).1) (fun a ha => (natDec_chars j a ha).1) hstep.1).2)

/-- fixupOne writes exactly the rewritten cell. -/
theorem fixupOne_eq (h : List ActiveNet) (i : Nat) (a : Addr) :
    fixupOne h i a = h.set a
      { heapRead h a with runtime := { (heapRead h a).runtime with confPath :=
          (join2 (goDir (heapRead h a).runtime.confPath)
            (trimSuffix (goBase (heapRead h a).runtime.confPath)
                (goExt (goBase (heapRead h a).runtime.confPath))
              ++ '-' :: (natDec i ++ goExt (goBase (heapRead h a).runtime.confPath)))) } } :=
  rfl

/-- fixupOne keeps the heap length. -/
theorem fixupOne_len (h : List ActiveNet) (i : Nat) (a : Addr) :
    (fixupOne h i a).length = h.length := by
  rw [fixupOne_eq]
  simp

/-- Addresses never rewritten by the fixup loop read unchanged. -/
theorem fixupFold_untouched (ps : List (Nat × Addr)) :
    ∀ (h : List ActiveNet) (a : Addr), (∀ z ∈ ps, z.2 ≠ a) →
      heapRead (ps.foldl (fun h2 q => fixupOne h2 q.1 q.2) h) a = heapRead h a := by
  induction ps with
  | nil =>
    intro h a _
    rfl
  | cons q rest ih =>
    intro h a hz
    rw [List.foldl_cons, ih _ a (fun z hzr => hz z (List.mem_cons_of_mem _ hzr)),
      fixupOne_eq]
    exact heapRead_set_ne _ _ _ _ (hz q (List.mem_cons_self _ _))

/-- Each pending position of the fixup loop ends up holding its
original cell with the index appended to the basename. -/
theorem fixupFold_read (ps : List (Nat × Addr)) :
    ∀ h : List ActiveNet,
      ps.Pairwise (fun a b => a.2 ≠ b.2) →
      (∀ p ∈ ps, p.2 < h.length) →
      ∀ p ∈ ps, heapRead (ps.foldl (fun h2 q => fixupOne h2 q.1 q.2) h) p.2 =
        { heapRead h p.2 with runtime := { (heapRead h p.2).runtime with confPath :=
            (join2 (goDir (heapRead h p.2).runtime.confPath)
              (trimSuffix (goBase (heapRead h p.2).runtime.confPath)
                  (goExt (goBase (heapRead h p.2).runtime.confPath))
                ++ '-' :: (natDec p.1 ++ goExt (goBase (heapRead h p.2).runtime.confPath)))) } } := by
  induction ps with
  | nil =>
    intro h _ _ p hp
    exact absurd hp (List.not_mem_nil _)
  | cons q rest ih =>
    intro h hpw hb p hp
    rw [List.foldl_cons]
    have hpw2 := List.pairwise_cons.mp hpw
    have hq2 : q.2 < h.length := hb q (List.mem_cons_self _ _)
    rcases List.mem_cons.mp hp with rfl | hp2
    · rw [fixupFold_untouched rest _ p.2 (fun z hz => Ne.symm (hpw2.1 z hz)), fixupOne_eq,
        heapRead_set_self _ _ _ hq2]
    · have hne : q.2 ≠ p.2 := hpw2.1 p hp2
      rw [ih (fixupOne h q.1 q.2) hpw2.2
        (fun z hz => by rw [fixupOne_len]; exact hb z (List.mem_cons_of_mem _ hz)) p hp2,
        fixupOne_eq, heapRead_set_ne _ _ _ _ hne]

/-- Positional form of the fixup over the ordered list. -/
theorem fixupConfPaths_read (h : List ActiveNet) (L : List Addr) (hnd : L.Nodup)
    (hb : ∀ a ∈ L, a < h.length) (k : Nat) (hk : k < L.length) :
    heapRead (fixupConfPaths h L) L[k] =
      { heapRead h L[k] with runtime := { (heapRead h L[k]).runtime with confPath :=
          (join2 (goDir (heapRead h L[k]).runtime.confPath)
            (trimSuffix (goBase (heapRead h L[k]).runtime.confPath)
                (goExt (goBase (heapRead h L[k]).runtime.confPath))
              ++ '-' :: (natDec k ++ goExt (goBase (heapRead h L[k]).runtime.confPath)))) } } := by
  have hpw : L.enum.Pairwise (fun a b => a.2 ≠ b.2) := by
    rw [List.pairwise_iff_getElem]
    intro i j hi hj hij
    rw [List.enum_length] at hi hj
    rw [List.getElem_enum, List.getElem_enum]
    exact (List.pairwise_iff_getElem.mp hnd) i j hi hj hij
  have hbp : ∀ p ∈ L.enum, p.2 < h.length := by
    intro p hp
    apply hb
    have hm := List.mem_map_of_mem Prod.snd hp
    rwa [List.enum_map_snd] at hm
  have hmem : (k, L[k]) ∈ L.enum := by
    rw [List.mem_iff_getElem]
    refine ⟨k, by rw [List.enum_length]; exact hk, ?_⟩
    rw [List.getElem_enum]
  exact fixupFold_read L.enum h hpw hbp (k, L[k]) hmem

/-- One legacy merge step keeps the target's ordered list duplicate
free. -/
theorem oldMergeStep_nodup (heap : List ActiveNet) (nets : Networks) (e : GoStr × Addr)
    (hnd : nets.ordered.Nodup) (he : e.2 ∉ nets.ordered) :
    (oldMergeStep heap nets e).2.ordered.Nodup := by
  cases hlk : List.lookup e.1 nets.byName with
  | none =>
    have heq : oldMergeStep heap nets e =
        (heap, { byName := nets.byName ++ [(e.1, e.2)], ordered := nets.ordered ++ [e.2] }) := by
      simp only [oldMergeStep, hlk]
    rw [heq]
    show (nets.ordered ++ [e.2]).Nodup
    rw [List.nodup_append]
    refine ⟨hnd, by simp, ?_⟩
    intro a ha hb2
    rw [List.mem_singleton] at hb2
    rw [hb2] at ha
    exact he ha
  | some addr =>
    have heq : oldMergeStep heap nets e = (heap.set addr (heapRead heap e.2), nets) := by
      simp only [oldMergeStep, hlk]
    rw [heq]
    exact hnd

/-- The legacy merge fold keeps the target's ordered list duplicate
free. -/
theorem oldMergeFold_nodup (entries : List (GoStr × Addr)) :
    ∀ (heap : List ActiveNet) (nets : Networks), netsWF heap nets →
      (∀ q ∈ entries, entryOK heap nets q) →
      entries.Pairwise (fun q1 q2 => q1.2 ≠ q2.2) →
      nets.ordered.Nodup →
      ((entries.foldl (fun a e => oldMergeStep a.1 a.2 e) (heap, nets)).2).ordered.Nodup := by
  induction entries with
  | nil =>
    intro heap nets _ _ _ hnd
    exact hnd
  | cons e rest ih =>
    intro heap nets hWF hq hpw hnd
    rw [List.foldl_cons]
    have hpw2 := List.pairwise_cons.mp hpw
    have hstep := oldMergeStep_WF heap nets e hWF (hq e (List.mem_cons_self _ _))
    have hnd2 : (oldMergeStep heap nets e).2.ordered.Nodup :=
      oldMergeStep_nodup heap nets e hnd (hq e (List.mem_cons_self _ _)).2.2
    exact ih (oldMergeStep heap nets e).1 (oldMergeStep heap nets e).2 hstep.1
      (fun q hqr => hstep.2 q (hq q (List.mem_cons_of_mem _ hqr)) (Ne.symm (hpw2.1 q hqr)))
      hpw2.2 hnd2

/-- The legacy merge copies only existing cells, so any property of
every cell is preserved. -/
theorem oldMergeFold_cells (P : ActiveNet → Prop) (entries : List (GoStr × Addr)) :
    ∀ acc : List ActiveNet × Networks,
      (∀ q ∈ entries, q.2 < acc.1.length) →
      (∀ c ∈ acc.1, P c) →
      ∀ c ∈ (entries.foldl (fun a e => oldMergeStep a.1 a.2 e) acc).1, P c := by
  induction entries with
  | nil =>
    intro acc _ hall
    exact hall
  | cons e rest ih =>
    intro acc hb hall
    rw [List.foldl_cons]
    apply ih (oldMergeStep acc.1 acc.2 e)
    · intro q hq
      rw [oldMergeStep_len]
      exact hb q (List.mem_cons_of_mem _ hq)
    · intro c hc
      have hbe := hb e (List.mem_cons_self _ _)
      cases hlk : List.lookup e.1 acc.2.byName with
      | none =>
        simp only [oldMergeStep, hlk] at hc
        exact hall c hc
      | some addr =>
        simp only [oldMergeStep, hlk] at hc
        rcases List.mem_or_eq_of_mem_set hc with h1 | h1
        · exact hall c h1
        · rw [h1]
          have hmem : heapRead acc.1 e.2 ∈ acc.1 := by
            unfold heapRead
            rw [List.getD_eq_getElem _ _ hbe]
            exact List.getElem_mem hbe
          exact hall _ hmem

/-- The legacy merge of a well-formed state: consistent, duplicate
free, and made of original cells. -/
theorem oldMerged_all (st : NetParserState) (hWF : stateWF st)
    (P : ActiveNet → Prop) (hP : ∀ c ∈ st.heap, P c)
    (M : List ActiveNet × Networks)
    (hM : M = st.configs.foldl
      (fun acc sub => sub.networks.byName.foldl
        (fun acc2 e => oldMergeStep acc2.1 acc2.2 e) acc)
      (st.heap, newNetConfig.networks)) :
    netsWF M.1 M.2 ∧ M.2.ordered.Nodup ∧ ∀ c ∈ M.1, P c := by
  subst hM
  rw [nested_fold_eq_flat]
  have hents := stateWF_flat_entries st hWF
  refine ⟨?_, ?_, ?_⟩
  · exact mergeFold_WF _ (fun heap nets e hw he => oldMergeStep_WF heap nets e hw he)
      _ st.heap newNetConfig.networks (netsWF_nil _)
      (fun q hq => ⟨(hents.1 q hq).1, (hents.1 q hq).2,
        fun hmem => absurd hmem (List.not_mem_nil _)⟩)
      hents.2
  · exact oldMergeFold_nodup _ st.heap newNetConfig.networks (netsWF_nil _)
      (fun q hq => ⟨(hents.1 q hq).1, (hents.1 q hq).2,
        fun hmem => absurd hmem (List.not_mem_nil _)⟩)
      hents.2 List.nodup_nil
  · exact oldMergeFold_cells P _ (st.heap, newNetConfig.networks)
      (fun q hq => (hents.1 q hq).1) hP

/-- After sorting and fixing up a consistent, duplicate-free merge of
separator-free basenames, distinct positions of the ordered list have
distinct basenames. -/
theorem oldFixup_distinct (M : List ActiveNet × Networks)
    (hWFm : netsWF M.1 M.2) (hnd : M.2.ordered.Nodup)
    (hsl : ∀ c ∈ M.1, '/' ∉ goBase c.runtime.confPath) :
    ∀ (k1 k2 : Nat) (hk1 : k1 < (sortByLess (ansLess M.1) M.2.ordered).length)
      (hk2 : k2 < (sortByLess (ansLess M.1) M.2.ordered).length), k1 ≠ k2 →
      goBase (heapRead (fixupConfPaths M.1 (sortByLess (ansLess M.1) M.2.ordered))
        ((sortByLess (ansLess M.1) M.2.ordered)[k1])).runtime.confPath ≠
      goBase (heapRead (fixupConfPaths M.1 (sortByLess (ansLess M.1) M.2.ordered))
        ((sortByLess (ansLess M.1) M.2.ordered)[k2])).runtime.confPath := by
  intro k1 k2 hk1 hk2 hne
  have hperm := sortByLess_perm (ansLess M.1) M.2.ordered
  have hLnd : (sortByLess (ansLess M.1) M.2.ordered).Nodup := hperm.nodup_iff.mpr hnd
  have hLb : ∀ a ∈ sortByLess (ansLess M.1) M.2.ordered, a < M.1.length :=
    fun a ha => netsWF_ordered_lt _ _ hWFm a (hperm.mem_iff.mp ha)
  have hcell1 : heapRead M.1 (sortByLess (ansLess M.1) M.2.ordered)[k1] ∈ M.1 := by
    have hb1 : (sortByLess (ansLess M.1) M.2.ordered)[k1] < M.1.length :=
      hLb _ (List.getElem_mem hk1)
    unfold heapRead
    rw [List.getD_eq_getElem _ _ hb1]
    exact List.getElem_mem hb1
  have hcell2 : heapRead M.1 (sortByLess (ansLess M.1) M.2.ordered)[k2] ∈ M.1 := by
    have hb2 : (sortByLess (ansLess M.1) M.2.ordered)[k2] < M.1.length :=
      hLb _ (List.getElem_mem hk2)
    unfold heapRead
    rw [List.getD_eq_getElem _ _ hb2]
    exact List.getElem_mem hb2
  rw [fixupConfPaths_read M.1 _ hLnd hLb k1 hk1, fixupConfPaths_read M.1 _ hLnd hLb k2 hk2]
  show goBase (join2 _ _) ≠ goBase (join2 _ _)
  rw [goBase_fixPath _ _ (hsl _ hcell1), goBase_fixPath _ _ (hsl _ hcell2)]
  exact fixBase_inj _ _ k1 k2 (hsl _ hcell1) (hsl _ hcell2) hne

/-- First root of the C4 scenario: g/net.d/10-foo.conf declaring
network foo. -/
def c4RootG : NetRoot :=
  { path := gs "g",
    netd := some [{ filename := gs "10-foo.conf",
                    content := some { name := gs "foo", typ := gs "x" } }] }

/-- Second root of the C4 scenario: l/net.d/10-foo.conf declaring
network bar. -/
def c4RootL : NetRoot :=
  { path := gs "l",
    netd := some [{ filename := gs "10-foo.conf",
                    content := some { name := gs "bar", typ := gs "x" } }] }

/-- The heap netGetConfigFrom produces for the C4 scenario. -/
def c4Heap : List ActiveNet :=
  [{ confBytes := some { name := gs "foo", typ := gs "x" },
     conf := some { name := gs "foo", typ := gs "x" },
     runtime := { netName := gs "foo", confPath := gs "g/net.d/10-foo-1.conf" } },
   { confBytes := some { name := gs "bar", typ := gs "x" },
     conf := some { name := gs "bar", typ := gs "x" },
     runtime := { netName := gs "bar", confPath := gs "l/net.d/10-foo-0.conf" } }]

/-- The Config netGetConfigFrom produces for the C4 scenario (ordered
is sorted by base filename; equal bases keep the later entry first
under the insertion-sort model of sort.Sort). -/
def c4Config : NetConfig :=
  { networks := { byName := [(gs "foo", 0), (gs "bar", 1)], ordered := [1, 0] } }

/-- The walked (pre-fixup) heap of the C4 scenario. -/
def c4PreHeap : List ActiveNet :=
  [{ confBytes := some { name := gs "foo", typ := gs "x" },
     conf := some { name := gs "foo", typ := gs "x" },
     runtime := { netName := gs "foo", confPath := gs "g/net.d/10-foo.conf" } },
   { confBytes := some { name := gs "bar", typ := gs "x" },
     conf := some { name := gs "bar", typ := gs "x" },
     runtime := { netName := gs "bar", confPath := gs "l/net.d/10-foo.conf" } }]

/-- The parser state after walking both C4 roots. -/
def c4St : NetParserState :=
  { heap := c4PreHeap,
    configs := [{ networks := { byName := [(gs "foo", 0)], ordered := [0] } },
                { networks := { byName := [(gs "bar", 1)], ordered := [1] } }] }

/-- C4: after the legacy-schema network merge every surviving entry's
conf-file path is rewritten to append its position in the final sorted
ordered list before the extension (positional form of fixupConfPaths);
under the state invariant, for inputs whose basenames are
separator-free, no two positions of the final ordered list share a
basename; and two files both named 10-foo.conf in different roots'
net.d resolve to paths ending in 10-foo-0.conf and 10-foo-1.conf. -/
theorem c4_fixup_index_and_distinct_basenames :
    (∀ (h : List ActiveNet) (ans : List Addr), ans.Nodup →
       (∀ a ∈ ans, a < h.length) →
       ∀ (k : Nat), k < ans.length →
         heapRead (fixupConfPaths h ans) (ans.getD k 0) =
           { heapRead h (ans.getD k 0) with runtime :=
             { (heapRead h (ans.getD k 0)).runtime with confPath :=
               (join2 (goDir (heapRead h (ans.getD k 0)).runtime.confPath)
                 (trimSuffix (goBase (heapRead h (ans.getD k 0)).runtime.confPath)
                     (goExt (goBase (heapRead h (ans.getD k 0)).runtime.confPath))
                   ++ '-' :: (natDec k
                     ++ goExt (goBase (heapRead h (ans.getD k 0)).runtime.confPath)))) } })
  ∧ (∀ st : NetParserState, stateWF st →
       (∀ c ∈ st.heap, '/' ∉ goBase c.runtime.confPath) →
       ∀ k1 k2 : Nat,
         k1 < (oldConfPropagate st newNetConfig).2.networks.ordered.length →
         k2 < (oldConfPropagate st newNetConfig).2.networks.ordered.length →
         k1 ≠ k2 →
         goBase (heapRead (oldConfPropagate st newNetConfig).1
           ((oldConfPropagate st newNetConfig).2.networks.ordered.getD k1 0)).runtime.confPath ≠
         goBase (heapRead (oldConfPropagate st newNetConfig).1
           ((oldConfPropagate st newNetConfig).2.networks.ordered.getD k2 0)).runtime.confPath)
  ∧ netGetConfigFrom [c4RootG, c4RootL] = Except.ok (c4Heap, c4Config)
  ∧ (heapRead c4Heap 1).runtime.confPath = gs "l/net.d/10-foo-0.conf"
  ∧ (heapRead c4Heap 0).runtime.confPath = gs "g/net.d/10-foo-1.conf"
  ∧ goBase (heapRead c4Heap 1).runtime.confPath = gs "10-foo-0.conf"
  ∧ goBase (heapRead c4Heap 0).runtime.confPath = gs "10-foo-1.conf"
  ∧ goBase (heapRead c4Heap 1).runtime.confPath
    ≠ goBase (heapRead c4Heap 0).runtime.confPath := by
  refine ⟨?_, ?_, by decide, by decide, by decide, by decide, by decide, by decide⟩
  · intro h ans hnd hb k hk
    rw [List.getD_eq_getElem _ _ hk]
    exact fixupConfPaths_read h ans hnd hb k hk
  · intro st hWF hsl k1 k2 hk1 hk2 hne
    obtain ⟨hWFm, hnd2, hcells⟩ := oldMerged_all st hWF
      (fun c => '/' ∉ goBase c.runtime.confPath) hsl _ rfl
    rw [List.getD_eq_getElem _ _ hk1, List.getD_eq_getElem _ _ hk2]
    exact oldFixup_distinct _ hWFm hnd2 hcells k1 k2 hk1 hk2 hne

theorem c4_fixup_index_and_distinct_basenames_witness :
    heapRead (fixupConfPaths c4PreHeap [1, 0]) 1 =
      { confBytes := some { name := gs "bar", typ := gs "x" },
        conf := some { name := gs "bar", typ := gs "x" },
        runtime := { netName := gs "bar", confPath := gs "l/net.d/10-foo-0.conf" } }
    ∧ stateWF c4St
    ∧ goBase (heapRead (oldConfPropagate c4St newNetConfig).1
        ((oldConfPropagate c4St newNetConfig).2.networks.ordered.getD 0 0)).runtime.confPath ≠
      goBase (heapRead (oldConfPropagate c4St newNetConfig).1
        ((oldConfPropagate c4St newNetConfig).2.networks.ordered.getD 1 0)).runtime.confPath := by
  have hWF : stateWF c4St := by
    apply oldConfParse_stateWF
      { heap := [{ confBytes := some { name := gs "foo", typ := gs "x" },
                   conf := some { name := gs "foo", typ := gs "x" },
                   runtime := { netName := gs "foo",
                                confPath := gs "g/net.d/10-foo.conf" } }],
        configs := [{ networks := { byName := [(gs "foo", 0)], ordered := [0] } }] }
      { index := 1, path := gs "l", subdirectory := gs "net.d", filename := gs "10-foo.conf" }
      (some { name := gs "bar", typ := gs "x" })
    · apply oldConfParse_stateWF initNetParserState
        { index := 0, path := gs "g", subdirectory := gs "net.d",
          filename := gs "10-foo.conf" }
        (some { name := gs "foo", typ := gs "x" })
      · exact stateWF_init
      · decide
    · decide
  refine ⟨?_, hWF, ?_⟩
  · have h1 := c4_fixup_index_and_distinct_basenames.1 c4PreHeap [1, 0]
      (by decide) (by decide) 0 (by decide)
    exact h1.trans (by decide)
  · exact c4_fixup_index_and_distinct_basenames.2.1 c4St hWF (by decide) 0 1
      (by decide) (by decide) (by decide)

end RktCfg
